import Mathlib

set_option maxHeartbeats 1600000

namespace Politely

/-! Shallow embedding of the Politely tone-transformation pipeline.
Python strings are embedded as lists of characters (`List Char`); text
positions are `Nat` indices into those lists.  Definitions come first,
grouped by the source module they embed; all theorems follow at the end
of the file. -/

/-! Basic character and string utilities shared by the embedded modules. -/

/-- Left curly brace character, written via its code point. -/
def lb : Char := Char.ofNat 123

/-- Right curly brace character, written via its code point. -/
def rb : Char := Char.ofNat 125

/-- Whitespace characters as Python's `str.isspace` and the regex class
`\s` recognize them (ASCII whitespace, NEL, NBSP and the Unicode space
separators). -/
def pyIsSpace (c : Char) : Bool :=
  let n := c.toNat
  decide ((9 ≤ n ∧ n ≤ 13) ∨ n = 32 ∨ (28 ≤ n ∧ n ≤ 31) ∨ n = 0x85 ∨ n = 0xA0 ∨
    n = 0x1680 ∨ (0x2000 ≤ n ∧ n ≤ 0x200A) ∨ n = 0x2028 ∨ n = 0x2029 ∨
    n = 0x202F ∨ n = 0x205F ∨ n = 0x3000)

/-- Python `text[a:b]` for nonnegative bounds. -/
def pySlice (l : List Char) (a b : Nat) : List Char := (l.take b).drop a

/-- Python `str.strip()`: drop whitespace from both ends. -/
def pyStrip (l : List Char) : List Char :=
  ((l.dropWhile pyIsSpace).reverse.dropWhile pyIsSpace).reverse

/-- Python `needle in hay` substring test. -/
def pyContains (hay needle : List Char) : Bool :=
  hay.tails.any (fun t => needle.isPrefixOf t)

/-- Occurrence test for a regex alternation of string literals: the text
contains some literal of the list. -/
def containsAny (hay : List Char) (needles : List (List Char)) : Bool :=
  needles.any (fun n => pyContains hay n)

/-- Match, at the head of `s`, the parts of a regex `p₁\s*p₂\s*…` shaped
pattern: each literal part followed by an arbitrary run of whitespace.
Because every part starts with a non-space character, the greedy regex
semantics coincide with consuming all whitespace between parts. -/
def matchPartsGap : List (List Char) → List Char → Bool
  | [], _ => true
  | p :: ps, s =>
    p.isPrefixOf s && matchPartsGap ps ((s.drop p.length).dropWhile pyIsSpace)

/-- Search semantics of `re.search` for a `p₁\s*p₂\s*…` pattern: some
suffix of the text matches at its head. -/
def searchPartsGap (parts : List (List Char)) (s : List Char) : Bool :=
  s.tails.any (fun t => matchPartsGap parts t)

/-! Module `app/models/enums.py`. -/

/-- Coarse tier of a segment label (`SegmentLabelTier` in enums.py). -/
inductive SegmentLabelTier
  | GREEN
  | YELLOW
  | RED
deriving DecidableEq

/-- The closed set of 14 segment labels (`SegmentLabel` in enums.py). -/
inductive SegmentLabel
  | CORE_FACT
  | CORE_INTENT
  | REQUEST
  | APOLOGY
  | COURTESY
  | ACCOUNTABILITY
  | SELF_JUSTIFICATION
  | NEGATIVE_FEEDBACK
  | EMOTIONAL
  | EXCESS_DETAIL
  | AGGRESSION
  | PERSONAL_ATTACK
  | PRIVATE_TMI
  | PURE_GRUMBLE
deriving DecidableEq

/-- The fixed label→tier map (`SegmentLabel.tier` in enums.py). -/
def SegmentLabel.tier : SegmentLabel → SegmentLabelTier
  | .CORE_FACT => .GREEN
  | .CORE_INTENT => .GREEN
  | .REQUEST => .GREEN
  | .APOLOGY => .GREEN
  | .COURTESY => .GREEN
  | .ACCOUNTABILITY => .YELLOW
  | .SELF_JUSTIFICATION => .YELLOW
  | .NEGATIVE_FEEDBACK => .YELLOW
  | .EMOTIONAL => .YELLOW
  | .EXCESS_DETAIL => .YELLOW
  | .AGGRESSION => .RED
  | .PERSONAL_ATTACK => .RED
  | .PRIVATE_TMI => .RED
  | .PURE_GRUMBLE => .RED

/-- Numeric rank of a tier: GREEN 0, YELLOW 1, RED 2.  Used to state that
an operation never lowers a tier. -/
def tierRank : SegmentLabelTier → Nat
  | .GREEN => 0
  | .YELLOW => 1
  | .RED => 2

/-! Module `app/models/domain.py` (the parts the claims need). -/

/-- A labeled segment (`LabeledSegment` dataclass in domain.py); `end` is
renamed `stop` because `end` is a Lean keyword. -/
structure LabeledSegment where
  segment_id : List Char
  label : SegmentLabel
  text : List Char
  start : Nat
  stop : Nat
deriving DecidableEq

/-! Module `app/pipeline/labeling/red_label_enforcer.py`. -/

/-- Character class of `_NORMALIZE_RE`: whitespace plus the listed special
characters, removed before profanity matching. -/
def redNormStrip (c : Char) : Bool :=
  pyIsSpace c || c ∈ ['-', '_', '.', '·', '!', '@', '#', '$', '%', '^', '&', '*', '(', ')']

/-- The enforcer's `_normalize`: remove whitespace and special characters
to prevent bypass (substituting the class with the empty string is a
character filter). -/
def redNormalize (text : List Char) : List Char :=
  text.filter (fun c => ¬ redNormStrip c)

/-- Literal alternatives of `_PROFANITY`. -/
def profanityLits : List (List Char) :=
  ["ㅅㅂ".toList, "ㅄ".toList, "ㅂㅅ".toList, "ㄱㅅㄲ".toList, "시발".toList,
   "씨발".toList, "병신".toList, "개새끼".toList, "개세끼".toList, "지랄".toList,
   "ㅈㄹ".toList, "ㅂㄹ".toList]

/-- Literal alternatives of `_SOFT_PROFANITY`. -/
def softProfanityLits : List (List Char) :=
  ["미친".toList, "개같".toList, "ㅈㄴ".toList]

/-- Search of `_ABILITY_DENIAL`: each alternative is literals separated by
`\s*`. -/
def abilityDenialSearch (s : List Char) : Bool :=
  searchPartsGap ["그것도".toList, "못".toList] s ||
  searchPartsGap ["뇌가".toList, "있".toList] s ||
  searchPartsGap ["할".toList, "줄".toList, "모르".toList] s ||
  searchPartsGap ["그것도".toList, "몰라".toList] s ||
  searchPartsGap ["무능".toList] s

/-- Laughter-marker class `[ㅋㅎ^]` of `_MOCKERY_CERTAIN`. -/
def isMockMark (c : Char) : Bool := c ∈ ['ㅋ', 'ㅎ', '^']

/-- Head match of `_MOCKERY_CERTAIN`'s suffix `(?:시네요|하시네요|십니다)\s*[ㅋㅎ^]{2,}`. -/
def mockeryTailMatch (u : List Char) : Bool :=
  ["시네요".toList, "하시네요".toList, "십니다".toList].any (fun p2 =>
    p2.isPrefixOf u &&
    (match (u.drop p2.length).dropWhile pyIsSpace with
     | a :: b :: _ => isMockMark a && isMockMark b
     | _ => false))

/-- Search of `_MOCKERY_CERTAIN` `(?:잘|대단|훌륭)\S{0,4}(?:시네요|하시네요|십니다)\s*[ㅋㅎ^]{2,}`:
existential over a start position, a praise literal, a 0–4 character
non-space gap and the ending, which is what backtracking search decides. -/
def mockerySearch (s : List Char) : Bool :=
  s.tails.any (fun t =>
    ["잘".toList, "대단".toList, "훌륭".toList].any (fun p1 =>
      p1.isPrefixOf t &&
      (let r := t.drop p1.length
       (List.range 5).any (fun g =>
         decide (g ≤ r.length) && (r.take g).all (fun c => ¬ pyIsSpace c) &&
         mockeryTailMatch (r.drop g)))))

/-- Search of `_PROFANITY` on the normalized text. -/
def profanitySearch (normalized : List Char) : Bool :=
  containsAny normalized profanityLits

/-- Search of `_SOFT_PROFANITY` on the normalized text. -/
def softProfanitySearch (normalized : List Char) : Bool :=
  containsAny normalized softProfanityLits

/-- Per-segment body of `enforce`'s loop. -/
def enforceOne (ls : LabeledSegment) : LabeledSegment :=
  if ls.label.tier = .RED then ls
  else
    let normalized := redNormalize ls.text
    if profanitySearch normalized || mockerySearch ls.text then
      { ls with label := .AGGRESSION }
    else if abilityDenialSearch ls.text then
      { ls with label := .PERSONAL_ATTACK }
    else if ls.label.tier = .GREEN ∧ softProfanitySearch normalized then
      { ls with label := .EMOTIONAL }
    else ls

/-- The server-side RED enforcement pass (`enforce` in
red_label_enforcer.py): confirmed patterns override to AGGRESSION or
PERSONAL_ATTACK, ambiguous patterns upgrade GREEN to EMOTIONAL only. -/
def enforce (labeled : List LabeledSegment) : List LabeledSegment :=
  labeled.map enforceOne

/-! Module `app/pipeline/preprocessing/text_normalizer.py`. -/

/-- Character class of `_INVISIBLE_CHARS` (zero-width and invisible code
points). -/
def isInvisibleChar (c : Char) : Bool :=
  c.toNat ∈ [0x200B, 0x200C, 0x200D, 0xFEFF, 0x00AD, 0x2060, 0x180E]

/-- Character class of `_CONTROL_CHARS` (control characters except
newline, carriage return and tab). -/
def isControlChar (c : Char) : Bool :=
  let n := c.toNat
  decide ((n ≤ 8) ∨ n = 0x0B ∨ n = 0x0C ∨ (0x0E ≤ n ∧ n ≤ 0x1F) ∨ n = 0x7F)

/-- Space or tab, the class `[ \t]` of `_MULTIPLE_SPACES`. -/
def isSpTab (c : Char) : Bool := c = ' ' || c = '\t'

/-- Step 2 of `normalize`: remove invisible characters. -/
def removeInvisible (l : List Char) : List Char :=
  l.filter (fun c => ¬ isInvisibleChar c)

/-- Step 3 of `normalize`: remove control characters. -/
def removeControl (l : List Char) : List Char :=
  l.filter (fun c => ¬ isControlChar c)

/-- Step 4 of `normalize`: `replace("\r\n", "\n")` then `replace("\r", "\n")`.
The two sequential left-to-right passes are equivalent to this single
greedy pass because the first replacement cannot create new occurrences. -/
def replaceCRLF : List Char → List Char
  | [] => []
  | [c] => [if c = '\r' then '\n' else c]
  | c :: d :: r =>
    if c = '\r' then
      if d = '\n' then '\n' :: replaceCRLF r
      else '\n' :: replaceCRLF (d :: r)
    else c :: replaceCRLF (d :: r)

/-- Step 5 of `normalize`, fueled scanner: each maximal run of two or more
spaces/tabs becomes a single space (`_MULTIPLE_SPACES.sub(" ", ...)`);
runs of length one are kept as they are.  The fuel is an upper bound on
the input length; with fuel 0 the input is returned unchanged. -/
def collapseSpacesGo : Nat → List Char → List Char
  | 0, l => l
  | _ + 1, [] => []
  | fuel + 1, c :: r =>
    if isSpTab c then
      (if (r.takeWhile isSpTab).length + 1 ≥ 2 then [' '] else [c]) ++
        collapseSpacesGo fuel (r.dropWhile isSpTab)
    else c :: collapseSpacesGo fuel r

/-- Step 5 of `normalize` at adequate fuel. -/
def collapseSpaces (l : List Char) : List Char := collapseSpacesGo l.length l

/-- Step 6 of `normalize`, fueled scanner: each maximal run of three or
more newlines becomes exactly two (`_EXCESSIVE_NEWLINES.sub("\n\n", ...)`). -/
def collapseNewlinesGo : Nat → List Char → List Char
  | 0, l => l
  | _ + 1, [] => []
  | fuel + 1, c :: r =>
    if c = '\n' then
      (if (r.takeWhile (fun d => d = '\n')).length + 1 ≥ 3 then ['\n', '\n']
       else c :: r.takeWhile (fun d => d = '\n')) ++
        collapseNewlinesGo fuel (r.dropWhile (fun d => d = '\n'))
    else c :: collapseNewlinesGo fuel r

/-- Step 6 of `normalize` at adequate fuel. -/
def collapseNewlines (l : List Char) : List Char := collapseNewlinesGo l.length l

/-- Steps 2–7 of `normalize`: everything after the initial Unicode NFC
normalization. -/
def normalizeSteps (l : List Char) : List Char :=
  pyStrip (collapseNewlines (collapseSpaces (replaceCRLF (removeControl (removeInvisible l)))))

/-- The 7-step text normalization (`normalize` in text_normalizer.py).
Unicode NFC normalization is an external library call
(`unicodedata.normalize("NFC", ...)`), embedded as the function
parameter `nfc`; the remaining six steps are embedded concretely. -/
def normalize (nfc : List Char → List Char) (text : List Char) : List Char :=
  if text = [] then text else normalizeSteps (nfc text)

/-! Enumerations of `app/models/enums.py` (Topic, Purpose) and the enum
classes referenced across the pipeline whose class definitions are not in
the repository snapshot; the value sets of Persona, SituationContext and
ToneLevel are exactly those enumerated by the label maps in
`app/pipeline/prompt_builder.py`. -/

/-- Topic enum (`Topic` in enums.py). -/
inductive Topic
  | REFUND_CANCEL
  | OUTAGE_ERROR
  | ACCOUNT_PERMISSION
  | DATA_FILE
  | SCHEDULE_DEADLINE
  | COST_BILLING
  | CONTRACT_TERMS
  | HR_EVALUATION
  | ACADEMIC_GRADE
  | COMPLAINT_REGULATION
  | OTHER
deriving DecidableEq

/-- Python `topic.name` for the Topic enum. -/
def Topic.name : Topic → List Char
  | .REFUND_CANCEL => "REFUND_CANCEL".toList
  | .OUTAGE_ERROR => "OUTAGE_ERROR".toList
  | .ACCOUNT_PERMISSION => "ACCOUNT_PERMISSION".toList
  | .DATA_FILE => "DATA_FILE".toList
  | .SCHEDULE_DEADLINE => "SCHEDULE_DEADLINE".toList
  | .COST_BILLING => "COST_BILLING".toList
  | .CONTRACT_TERMS => "CONTRACT_TERMS".toList
  | .HR_EVALUATION => "HR_EVALUATION".toList
  | .ACADEMIC_GRADE => "ACADEMIC_GRADE".toList
  | .COMPLAINT_REGULATION => "COMPLAINT_REGULATION".toList
  | .OTHER => "OTHER".toList

/-- Purpose enum (`Purpose` in enums.py). -/
inductive Purpose
  | INFO_DELIVERY
  | DATA_REQUEST
  | SCHEDULE_COORDINATION
  | APOLOGY_RECOVERY
  | RESPONSIBILITY_SEPARATION
  | REJECTION_NOTICE
  | REFUND_REJECTION
  | WARNING_PREVENTION
  | RELATIONSHIP_RECOVERY
  | NEXT_ACTION_CONFIRM
  | ANNOUNCEMENT
deriving DecidableEq

/-- Python `purpose.name` for the Purpose enum. -/
def Purpose.name : Purpose → List Char
  | .INFO_DELIVERY => "INFO_DELIVERY".toList
  | .DATA_REQUEST => "DATA_REQUEST".toList
  | .SCHEDULE_COORDINATION => "SCHEDULE_COORDINATION".toList
  | .APOLOGY_RECOVERY => "APOLOGY_RECOVERY".toList
  | .RESPONSIBILITY_SEPARATION => "RESPONSIBILITY_SEPARATION".toList
  | .REJECTION_NOTICE => "REJECTION_NOTICE".toList
  | .REFUND_REJECTION => "REFUND_REJECTION".toList
  | .WARNING_PREVENTION => "WARNING_PREVENTION".toList
  | .RELATIONSHIP_RECOVERY => "RELATIONSHIP_RECOVERY".toList
  | .NEXT_ACTION_CONFIRM => "NEXT_ACTION_CONFIRM".toList
  | .ANNOUNCEMENT => "ANNOUNCEMENT".toList

/-- Persona enum; members as used by PERSONA_LABELS in prompt_builder.py. -/
inductive Persona
  | BOSS
  | CLIENT
  | PARENT
  | PROFESSOR
  | OTHER
  | OFFICIAL
deriving DecidableEq

/-- SituationContext enum; members as used by CONTEXT_LABELS in
prompt_builder.py. -/
inductive SituationContext
  | REQUEST
  | SCHEDULE_DELAY
  | URGING
  | REJECTION
  | APOLOGY
  | COMPLAINT
  | ANNOUNCEMENT
  | FEEDBACK
  | BILLING
  | SUPPORT
  | CONTRACT
  | RECRUITING
  | CIVIL_COMPLAINT
  | GRATITUDE
deriving DecidableEq

/-- ToneLevel enum; members as used by TONE_LABELS in prompt_builder.py. -/
inductive ToneLevel
  | NEUTRAL
  | POLITE
  | VERY_POLITE
deriving DecidableEq

/-! Module `app/pipeline/prompt_builder.py` (label maps used by the
situation analyzer). -/

/-- PERSONA_LABELS lookup; `get_persona_label` falls back to the enum
name, but the map is total so the fallback is never taken. -/
def get_persona_label : Persona → List Char
  | .BOSS => "직장 상사".toList
  | .CLIENT => "고객".toList
  | .PARENT => "학부모".toList
  | .PROFESSOR => "교수".toList
  | .OTHER => "기타".toList
  | .OFFICIAL => "공식 기관".toList

/-- CONTEXT_LABELS lookup; total, as `get_context_label`. -/
def get_context_label : SituationContext → List Char
  | .REQUEST => "요청".toList
  | .SCHEDULE_DELAY => "일정 지연".toList
  | .URGING => "독촉".toList
  | .REJECTION => "거절".toList
  | .APOLOGY => "사과".toList
  | .COMPLAINT => "항의".toList
  | .ANNOUNCEMENT => "공지".toList
  | .FEEDBACK => "피드백".toList
  | .BILLING => "비용/정산".toList
  | .SUPPORT => "기술지원".toList
  | .CONTRACT => "계약".toList
  | .RECRUITING => "채용".toList
  | .CIVIL_COMPLAINT => "민원".toList
  | .GRATITUDE => "감사".toList

/-- TONE_LABELS lookup; total, as `get_tone_label`. -/
def get_tone_label : ToneLevel → List Char
  | .NEUTRAL => "중립".toList
  | .POLITE => "공손".toList
  | .VERY_POLITE => "매우 공손".toList

/-! Module `app/models/domain.py`, continued. -/

/-- Result of one LLM call (`LlmCallResult` dataclass). -/
structure LlmCallResult where
  content : List Char
  analysis_context : Option (List Char)
  prompt_tokens : Nat
  completion_tokens : Nat
deriving DecidableEq

/-! Module `app/pipeline/gating/situation_analysis_service.py`. -/

/-- One extracted fact (`Fact` dataclass). -/
structure Fact where
  content : List Char
  source : List Char
deriving DecidableEq

/-- Metadata validation block (`MetadataCheck` dataclass); the Python
float confidence is embedded as a rational. -/
structure MetadataCheck where
  should_override : Bool
  confidence : Rat
  inferred_topic : Option Topic
  inferred_purpose : Option Purpose
  inferred_primary_context : Option SituationContext
deriving DecidableEq

/-- Situation analysis result (`SituationAnalysisResult` dataclass). -/
structure SituationAnalysisResult where
  facts : List Fact
  intent : List Char
  prompt_tokens : Nat
  completion_tokens : Nat
  metadata_check : Option MetadataCheck := none
deriving DecidableEq

/-- The empty result returned when the LLM call raises
(`SituationAnalysisResult(facts=[], intent="", prompt_tokens=0,
completion_tokens=0)`). -/
def emptySituationAnalysisResult : SituationAnalysisResult :=
  { facts := [], intent := [], prompt_tokens := 0, completion_tokens := 0 }

/-- The async LLM call interface `ai_call_fn(model, system, user,
temperature, max_tokens, analysis_context)`; a raised exception is the
`Except.error` case, carrying the message. -/
def AiCallFn : Type :=
  List Char → List Char → List Char → Rat → Nat → Option (List Char) →
    Except (List Char) LlmCallResult

/-- Model constant `MODEL = "gpt-4o-mini"`. -/
def saMODEL : List Char := "gpt-4o-mini".toList

/-- Temperature constant `TEMPERATURE = 0.2`, as a rational. -/
def saTEMPERATURE : Rat := 1 / 5

/-- Token limit constant `MAX_TOKENS = 650`. -/
def saMAX_TOKENS : Nat := 650

/-- Python truthiness of `s and s.strip()` for an optional string. -/
def optTruthyStripped (s : Option (List Char)) : Bool :=
  match s with
  | none => false
  | some v => (!v.isEmpty) && (!(pyStrip v).isEmpty)

/-- Python `"\n".join(parts)`. -/
def joinNl (parts : List (List Char)) : List Char :=
  List.intercalate ['\n'] parts

/-- Builds the user message of `analyze_text_only`. -/
def textOnlyUserMessage (masked_text : List Char) (sender_info : Option (List Char))
    (user_prompt : Option (List Char)) : List Char :=
  joinNl
    ((if optTruthyStripped sender_info then
        ["보내는 사람: ".toList ++ sender_info.getD []] else []) ++
     (if optTruthyStripped user_prompt then
        ["추가 정보: ".toList ++ user_prompt.getD []] else []) ++
     ["\n원문:\n".toList ++ masked_text])

/-- Text-only situation analysis (`analyze_text_only`).  The system
prompt literal and the JSON parser `_parse_result_text_only` are
parameters: the prompt is an opaque string constant, and the parser's
internal try/except never raises into this function (it returns a
default-filled result on parse failure), so both are irrelevant to the
control flow embedded here.  The `try/except` around the call maps any
raised exception to the empty result. -/
def analyze_text_only (system_prompt : List Char)
    (parse : LlmCallResult → SituationAnalysisResult)
    (masked_text : List Char) (sender_info : Option (List Char))
    (ai_call_fn : AiCallFn) (user_prompt : Option (List Char)) :
    Except (List Char) SituationAnalysisResult :=
  match ai_call_fn saMODEL system_prompt
      (textOnlyUserMessage masked_text sender_info user_prompt)
      saTEMPERATURE saMAX_TOKENS none with
  | .ok result => .ok (parse result)
  | .error _ => .ok emptySituationAnalysisResult

/-- Builds the user message of `analyze`. -/
def analyzeUserMessage (persona : Persona) (contexts : List SituationContext)
    (tone_level : ToneLevel) (masked_text : List Char)
    (user_prompt : Option (List Char)) (sender_info : Option (List Char))
    (topic : Option Topic) (purpose : Option Purpose) : List Char :=
  joinNl
    (["받는 사람: ".toList ++ get_persona_label persona,
      "상황: ".toList ++ List.intercalate ", ".toList (contexts.map get_context_label),
      "말투 강도: ".toList ++ get_tone_label tone_level] ++
     (match topic with
      | some t => ["주제: ".toList ++ t.name]
      | none => []) ++
     (match purpose with
      | some p => ["목적: ".toList ++ p.name]
      | none => []) ++
     (if optTruthyStripped sender_info then
        ["보내는 사람: ".toList ++ sender_info.getD []] else []) ++
     (if optTruthyStripped user_prompt then
        ["참고 맥락: ".toList ++ user_prompt.getD []] else []) ++
     ["\n원문:\n".toList ++ masked_text])

/-- Metadata-aware situation analysis (`analyze`); same conventions as
`analyze_text_only`. -/
def analyze (system_prompt : List Char)
    (parse : LlmCallResult → SituationAnalysisResult)
    (persona : Persona) (contexts : List SituationContext)
    (tone_level : ToneLevel) (masked_text : List Char)
    (user_prompt : Option (List Char)) (sender_info : Option (List Char))
    (ai_call_fn : AiCallFn) (topic : Option Topic) (purpose : Option Purpose) :
    Except (List Char) SituationAnalysisResult :=
  match ai_call_fn saMODEL system_prompt
      (analyzeUserMessage persona contexts tone_level masked_text
        user_prompt sender_info topic purpose)
      saTEMPERATURE saMAX_TOKENS none with
  | .ok result => .ok (parse result)
  | .error _ => .ok emptySituationAnalysisResult

/-! Modules `app/pipeline/template/structure_template.py`,
`template_registry.py` and `template_selector.py`. -/

/-- The nine structure sections (`StructureSection` in
structure_template.py). -/
inductive StructureSection
  | S0_GREETING
  | S1_ACKNOWLEDGE
  | S2_OUR_EFFORT
  | S3_FACTS
  | S4_RESPONSIBILITY
  | S5_REQUEST
  | S6_OPTIONS
  | S7_POLICY
  | S8_CLOSING
deriving DecidableEq

/-- Modelled from the spec: the class `SectionSkipRule` and the
`persona_skip_rules` field of `StructureTemplate` are referenced by
template_registry.py and template_selector.py but their definitions are
missing from structure_template.py in this snapshot; the spec only says
persona skip rules shape the effective sections.  The three fields are
reconstructed from the call sites: the registry constructs rules with
`shorten_sections=...` or `expand_sections=...` keywords (so the unnamed
`skip_sections` defaults to empty), and the selector reads
`rule.skip_sections`. -/
structure SectionSkipRule where
  skip_sections : List StructureSection := []
  shorten_sections : List StructureSection := []
  expand_sections : List StructureSection := []
deriving DecidableEq

/-- A structure template (`StructureTemplate` dataclass plus the
`persona_skip_rules` field its registry construction passes). -/
structure StructureTemplate where
  id : List Char
  name : List Char
  section_order : List StructureSection
  constraints : List Char
  persona_skip_rules : List (Persona × SectionSkipRule)
deriving DecidableEq

/-- Rule set `_BOSS_PROF_OFFICIAL_RULES`. -/
def bossProfOfficialRules : List (Persona × SectionSkipRule) :=
  [(Persona.BOSS, { shorten_sections := [.S1_ACKNOWLEDGE] }),
   (Persona.PROFESSOR, { shorten_sections := [.S1_ACKNOWLEDGE] }),
   (Persona.OFFICIAL, { shorten_sections := [.S1_ACKNOWLEDGE] })]

/-- Rule set `_CLIENT_EXPAND_S1_S2`. -/
def clientExpandS1S2 : List (Persona × SectionSkipRule) :=
  [(Persona.CLIENT, { expand_sections := [.S1_ACKNOWLEDGE, .S2_OUR_EFFORT] }),
   (Persona.BOSS, { shorten_sections := [.S1_ACKNOWLEDGE] }),
   (Persona.PROFESSOR, { shorten_sections := [.S1_ACKNOWLEDGE] }),
   (Persona.OFFICIAL, { shorten_sections := [.S1_ACKNOWLEDGE] })]

/-- Rule set `_PARENT_EXPAND_S1`. -/
def parentExpandS1 : List (Persona × SectionSkipRule) :=
  [(Persona.PARENT, { expand_sections := [.S1_ACKNOWLEDGE] }),
   (Persona.BOSS, { shorten_sections := [.S1_ACKNOWLEDGE] }),
   (Persona.PROFESSOR, { shorten_sections := [.S1_ACKNOWLEDGE] }),
   (Persona.OFFICIAL, { shorten_sections := [.S1_ACKNOWLEDGE] })]

/-- The T01_GENERAL template, also the registry's fallback. -/
def templateT01 : StructureTemplate :=
  { id := "T01_GENERAL".toList, name := "일반 전달".toList,
    section_order := [.S0_GREETING, .S1_ACKNOWLEDGE, .S3_FACTS, .S5_REQUEST, .S6_OPTIONS, .S8_CLOSING],
    constraints := "범용 템플릿. 특정 패턴 없이 사실 전달 + 요청 + 대안 구조.".toList,
    persona_skip_rules := bossProfOfficialRules }

/-- The twelve registered templates of `TemplateRegistry._register_all`,
in registration order, keyed by id. -/
def registryTemplates : List (List Char × StructureTemplate) :=
  [("T01_GENERAL".toList, templateT01),
   ("T02_DATA_REQUEST".toList,
    { id := "T02_DATA_REQUEST".toList, name := "자료 요청".toList,
      section_order := [.S0_GREETING, .S1_ACKNOWLEDGE, .S3_FACTS, .S5_REQUEST, .S8_CLOSING],
      constraints := "요청 사유를 먼저 밝히고, 구체적 자료/기한/형식을 명시. 부담을 줄이는 완곡 표현.".toList,
      persona_skip_rules := bossProfOfficialRules }),
   ("T03_NAGGING_REMINDER".toList,
    { id := "T03_NAGGING_REMINDER".toList, name := "독촉/리마인더".toList,
      section_order := [.S0_GREETING, .S1_ACKNOWLEDGE, .S3_FACTS, .S5_REQUEST, .S8_CLOSING],
      constraints := "이전 요청 상기 + 회신 기한. 비난 없이 사실 기반 리마인드. S1은 짧게.".toList,
      persona_skip_rules :=
        [(Persona.BOSS, { shorten_sections := [.S1_ACKNOWLEDGE] }),
         (Persona.PROFESSOR, { shorten_sections := [.S1_ACKNOWLEDGE] }),
         (Persona.OFFICIAL, { shorten_sections := [.S1_ACKNOWLEDGE] }),
         (Persona.CLIENT, { shorten_sections := [.S1_ACKNOWLEDGE] })] }),
   ("T04_SCHEDULE".toList,
    { id := "T04_SCHEDULE".toList, name := "일정 조율/지연".toList,
      section_order := [.S0_GREETING, .S1_ACKNOWLEDGE, .S3_FACTS, .S4_RESPONSIBILITY, .S6_OPTIONS, .S8_CLOSING],
      constraints := "사과 → 지연 원인(사실) → 새 일정 제안. 변명 최소화, 대안 집중.".toList,
      persona_skip_rules := parentExpandS1 }),
   ("T05_APOLOGY".toList,
    { id := "T05_APOLOGY".toList, name := "사과/수습".toList,
      section_order := [.S0_GREETING, .S1_ACKNOWLEDGE, .S2_OUR_EFFORT, .S3_FACTS, .S6_OPTIONS, .S8_CLOSING],
      constraints := "진심 사과 → 내부 확인 노력 → 원인 → 해결/재발 방지. S2 필수.".toList,
      persona_skip_rules := clientExpandS1S2 }),
   ("T06_REJECTION".toList,
    { id := "T06_REJECTION".toList, name := "거절/불가 안내".toList,
      section_order := [.S0_GREETING, .S1_ACKNOWLEDGE, .S7_POLICY, .S3_FACTS, .S6_OPTIONS, .S8_CLOSING],
      constraints := "공감 → 정책/규정 근거 → 대안 제시. 감정 배제, 거절 이유 명확.".toList,
      persona_skip_rules := clientExpandS1S2 }),
   ("T07_ANNOUNCEMENT".toList,
    { id := "T07_ANNOUNCEMENT".toList, name := "공지/안내".toList,
      section_order := [.S0_GREETING, .S3_FACTS, .S5_REQUEST, .S8_CLOSING],
      constraints := "두괄식. 핵심 정보(일시/장소/대상) 먼저. 행동 요청으로 마무리. S1 생략.".toList,
      persona_skip_rules := [] }),
   ("T08_FEEDBACK".toList,
    { id := "T08_FEEDBACK".toList, name := "피드백".toList,
      section_order := [.S0_GREETING, .S1_ACKNOWLEDGE, .S3_FACTS, .S5_REQUEST, .S6_OPTIONS, .S8_CLOSING],
      constraints := "긍정 인정 → 개선점(요청 형태) → 기대 효과. 비판 아닌 성장 지향.".toList,
      persona_skip_rules := parentExpandS1 }),
   ("T09_BLAME_SEPARATION".toList,
    { id := "T09_BLAME_SEPARATION".toList, name := "책임 분리".toList,
      section_order := [.S0_GREETING, .S1_ACKNOWLEDGE, .S2_OUR_EFFORT, .S3_FACTS, .S4_RESPONSIBILITY, .S6_OPTIONS, .S8_CLOSING],
      constraints := "공감 → 내부 확인 → 사실 나열 → 귀책 방향(주어 전환) → 해결안. 비난 제거 필수.".toList,
      persona_skip_rules := clientExpandS1S2 }),
   ("T10_RELATIONSHIP_RECOVERY".toList,
    { id := "T10_RELATIONSHIP_RECOVERY".toList, name := "관계 회복".toList,
      section_order := [.S0_GREETING, .S1_ACKNOWLEDGE, .S3_FACTS, .S6_OPTIONS, .S8_CLOSING],
      constraints := "깊은 공감·사과 → 상황 인정 → 협력 제안. 감정 간접 전환 중시.".toList,
      persona_skip_rules := parentExpandS1 }),
   ("T11_REFUND_REJECTION".toList,
    { id := "T11_REFUND_REJECTION".toList, name := "환불 거절".toList,
      section_order := [.S0_GREETING, .S1_ACKNOWLEDGE, .S2_OUR_EFFORT, .S3_FACTS, .S7_POLICY, .S6_OPTIONS, .S8_CLOSING],
      constraints := "공감 → 내부 점검 → 사실 → 정책 근거 → 대안. S2 필수(점검 노력 표시).".toList,
      persona_skip_rules := clientExpandS1S2 }),
   ("T12_WARNING_PREVENTION".toList,
    { id := "T12_WARNING_PREVENTION".toList, name := "경고/재발 방지".toList,
      section_order := [.S0_GREETING, .S1_ACKNOWLEDGE, .S3_FACTS, .S5_REQUEST, .S6_OPTIONS, .S8_CLOSING],
      constraints := "문제 인정 → 사실/경과 → 구체적 요청(재발 방지) → 기대 효과.".toList,
      persona_skip_rules := bossProfOfficialRules })]

/-- Registry lookup `get(template_id)`: the stored template, or
T01_GENERAL when the id is unknown. -/
def registryGet (template_id : List Char) : StructureTemplate :=
  match registryTemplates.find? (fun kv => kv.1 = template_id) with
  | some kv => kv.2
  | none => templateT01

/-- Label statistics (`LabelStats` dataclass in domain.py). -/
structure LabelStats where
  green_count : Nat
  yellow_count : Nat
  red_count : Nat
  has_accountability : Bool
  has_negative_feedback : Bool
  has_emotional : Bool
  has_self_justification : Bool
  has_aggression : Bool
deriving DecidableEq

/-- Selection result (`TemplateSelectionResult` dataclass in
template_selector.py). -/
structure TemplateSelectionResult where
  template : StructureTemplate
  s2_enforced : Bool
  effective_sections : List StructureSection
deriving DecidableEq

/-- The `_PURPOSE_TEMPLATE_MAP` dictionary (total over Purpose, so the
`get` default is never taken). -/
def purposeTemplateMap : Purpose → List Char
  | .INFO_DELIVERY => "T01_GENERAL".toList
  | .DATA_REQUEST => "T02_DATA_REQUEST".toList
  | .SCHEDULE_COORDINATION => "T04_SCHEDULE".toList
  | .APOLOGY_RECOVERY => "T05_APOLOGY".toList
  | .RESPONSIBILITY_SEPARATION => "T09_BLAME_SEPARATION".toList
  | .REJECTION_NOTICE => "T06_REJECTION".toList
  | .REFUND_REJECTION => "T11_REFUND_REJECTION".toList
  | .WARNING_PREVENTION => "T12_WARNING_PREVENTION".toList
  | .RELATIONSHIP_RECOVERY => "T10_RELATIONSHIP_RECOVERY".toList
  | .NEXT_ACTION_CONFIRM => "T01_GENERAL".toList
  | .ANNOUNCEMENT => "T07_ANNOUNCEMENT".toList

/-- The `_CONTEXT_TEMPLATE_MAP` dictionary (total over
SituationContext). -/
def contextTemplateMap : SituationContext → List Char
  | .REQUEST => "T02_DATA_REQUEST".toList
  | .SCHEDULE_DELAY => "T04_SCHEDULE".toList
  | .URGING => "T03_NAGGING_REMINDER".toList
  | .REJECTION => "T06_REJECTION".toList
  | .APOLOGY => "T05_APOLOGY".toList
  | .COMPLAINT => "T09_BLAME_SEPARATION".toList
  | .ANNOUNCEMENT => "T07_ANNOUNCEMENT".toList
  | .FEEDBACK => "T08_FEEDBACK".toList
  | .BILLING => "T09_BLAME_SEPARATION".toList
  | .SUPPORT => "T05_APOLOGY".toList
  | .CONTRACT => "T06_REJECTION".toList
  | .RECRUITING => "T01_GENERAL".toList
  | .CIVIL_COMPLAINT => "T09_BLAME_SEPARATION".toList
  | .GRATITUDE => "T10_RELATIONSHIP_RECOVERY".toList

/-- Search of `_REFUND_KEYWORDS` `환불|취소|반품|결제\s*취소|카드\s*취소|refund|cancel`. -/
def refundKeywordSearch (s : List Char) : Bool :=
  pyContains s "환불".toList || pyContains s "취소".toList || pyContains s "반품".toList ||
  searchPartsGap ["결제".toList, "취소".toList] s ||
  searchPartsGap ["카드".toList, "취소".toList] s ||
  pyContains s "refund".toList || pyContains s "cancel".toList

/-- Predicate `_is_rejection_like`. -/
def isRejectionLike (purpose : Option Purpose) (contexts : List SituationContext) : Bool :=
  decide (purpose = some .REJECTION_NOTICE) || decide (purpose = some .REFUND_REJECTION) ||
  contexts.contains .REJECTION

/-- Dictionary lookup `template.persona_skip_rules[persona]`. -/
def lookupSkipRule (rules : List (Persona × SectionSkipRule)) (p : Persona) :
    Option SectionSkipRule :=
  (rules.find? (fun pr => pr.1 = p)).map (fun pr => pr.2)

/-- The `_apply_skip_rules` pass: when the template has a rule for the
persona, drop the rule's skip sections. -/
def applySkipRules (sections : List StructureSection) (template : StructureTemplate)
    (persona : Persona) : List StructureSection :=
  if template.persona_skip_rules.isEmpty then sections
  else
    match lookupSkipRule template.persona_skip_rules persona with
    | none => sections
    | some rule => sections.filter (fun s => decide (s ∉ rule.skip_sections))

/-- Step 6 of `select_template`: insert S2_OUR_EFFORT after
S1_ACKNOWLEDGE, else after S0_GREETING, else at the front (Python keeps
`insert_idx = -1` and inserts at `insert_idx + 1 = 0`). -/
def insertS2 (sections : List StructureSection) : List StructureSection :=
  sections.insertIdx
    (if StructureSection.S1_ACKNOWLEDGE ∈ sections then
      sections.indexOf StructureSection.S1_ACKNOWLEDGE + 1
    else if StructureSection.S0_GREETING ∈ sections then
      sections.indexOf StructureSection.S0_GREETING + 1
    else 0)
    StructureSection.S2_OUR_EFFORT

/-- Steps 1–5 of `select_template`: the chosen template id (purpose
mapping, then primary context mapping, then default, then the topic and
keyword overrides towards T11_REFUND_REJECTION). -/
def selectTemplateId (contexts : List SituationContext) (topic : Option Topic)
    (purpose : Option Purpose) (label_stats : LabelStats)
    (masked_text : Option (List Char)) : List Char :=
  let tid1 :=
    match purpose with
    | some p => purposeTemplateMap p
    | none =>
      match contexts with
      | c :: _ => contextTemplateMap c
      | [] => "T01_GENERAL".toList
  let tid2 :=
    if decide (topic = some Topic.REFUND_CANCEL) && isRejectionLike purpose contexts then
      "T11_REFUND_REJECTION".toList
    else tid1
  if (!decide (tid2 = "T11_REFUND_REJECTION".toList)) &&
      (match masked_text with
       | some mt => refundKeywordSearch mt
       | none => false) &&
      (label_stats.has_negative_feedback || isRejectionLike purpose contexts) then
    "T11_REFUND_REJECTION".toList
  else tid2

/-- The template selector (`select_template` in template_selector.py):
the id from steps 1–5, then S2 enforcement and persona skip rules. -/
def select_template (persona : Persona) (contexts : List SituationContext)
    (topic : Option Topic) (purpose : Option Purpose)
    (label_stats : LabelStats) (masked_text : Option (List Char)) :
    TemplateSelectionResult :=
  let template := registryGet (selectTemplateId contexts topic purpose label_stats masked_text)
  let needS2 :=
    (label_stats.has_accountability || label_stats.has_negative_feedback) &&
      !decide (StructureSection.S2_OUR_EFFORT ∈ template.section_order)
  let sections := if needS2 then insertS2 template.section_order else template.section_order
  { template := template
    s2_enforced := needS2
    effective_sections := applySkipRules sections template persona }

/-! Module `app/pipeline/validation/output_validator.py` (the redacted
re-entry rule used by claim C8). -/

/-- Validation issue kinds (`ValidationIssueType` in enums.py). -/
inductive ValidationIssueType
  | EMOJI
  | FORBIDDEN_PHRASE
  | HALLUCINATED_FACT
  | ENDING_REPETITION
  | LENGTH_OVEREXPANSION
  | PERSPECTIVE_ERROR
  | LOCKED_SPAN_MISSING
  | REDACTED_REENTRY
  | REDACTION_TRACE
  | CORE_NUMBER_MISSING
  | CORE_DATE_MISSING
  | SOFTEN_CONTENT_DROPPED
  | SECTION_S2_MISSING
  | INFORMAL_CONJUNCTION
deriving DecidableEq

/-- Issue severity (`Severity` in enums.py). -/
inductive Severity
  | ERROR
  | WARNING
deriving DecidableEq

/-- A validation issue (`ValidationIssue` dataclass in domain.py). -/
structure ValidationIssue where
  type : ValidationIssueType
  severity : Severity
  message : List Char
  matched_text : Option (List Char) := none
deriving DecidableEq

/-- Hangul syllable, the regex class `[가-힣]`. -/
def isHangulSyl (c : Char) : Bool :=
  decide (0xAC00 ≤ c.toNat ∧ c.toNat ≤ 0xD7A3)

/-- Character kept by `_normalize_for_reentry`
(`re.sub(r"[^가-힣a-zA-Z0-9]", "", text)`). -/
def isReentryKeep (c : Char) : Bool :=
  isHangulSyl c || c.isAlpha || c.isDigit

/-- The validator's `_normalize_for_reentry`. -/
def normalizeForReentry (text : List Char) : List Char :=
  text.filter isReentryKeep

/-- The validator's `_STOPWORDS` set. -/
def validatorStopwords : List (List Char) :=
  ["은".toList, "는".toList, "이".toList, "가".toList, "을".toList, "를".toList,
   "에".toList, "의".toList, "와".toList, "과".toList,
   "로".toList, "도".toList, "만".toList, "까지".toList, "부터".toList,
   "에서".toList, "처럼".toList, "보다".toList,
   "그리고".toList, "하지만".toList, "또한".toList, "그래서".toList,
   "그런데".toList, "따라서".toList,
   "문제".toList, "확인".toList, "요청".toList, "부분".toList, "경우".toList,
   "상황".toList, "내용".toList,
   "것".toList, "수".toList, "등".toList, "및".toList, "위해".toList,
   "대해".toList, "통해".toList]

/-- Fueled scanner of `_KOREAN_WORD.finditer` (`[가-힣]{2,}`): the maximal
runs of Hangul syllables of length at least two, in order. -/
def koreanWordsGo : Nat → List Char → List (List Char)
  | 0, _ => []
  | _ + 1, [] => []
  | fuel + 1, c :: r =>
    if isHangulSyl c then
      (if (c :: r.takeWhile isHangulSyl).length ≥ 2 then [c :: r.takeWhile isHangulSyl]
       else []) ++ koreanWordsGo fuel (r.dropWhile isHangulSyl)
    else koreanWordsGo fuel r

/-- Korean word runs at adequate fuel. -/
def koreanWords (l : List Char) : List (List Char) := koreanWordsGo l.length l

/-- The validator's `_extract_meaning_words`: Korean word runs that are
not stopwords. -/
def extractMeaningWords (text : List Char) : List (List Char) :=
  (koreanWords text).filter (fun w => decide (w ∉ validatorStopwords))

/-- The validator's `_CENSORSHIP_TRACES` literals. -/
def censorshipTraces : List (List Char) :=
  ["[삭제됨]".toList, "[REDACTED".toList, "삭제된 내용".toList, "제거된 부분".toList,
   "삭제된 부분".toList, "일부 내용을 삭제".toList, "부적절한 내용이 제거".toList]

/-- Check 1 of `_check_redacted_reentry`: for each redaction entry whose
original has at least 6 characters and whose normalized form has at least
4 and reappears in the normalized output, an ERROR issue. -/
def reentryVerbatimIssues (normalized_output : List Char)
    (redaction_map : List (List Char × List Char)) : List ValidationIssue :=
  redaction_map.flatMap (fun mo =>
    if 6 ≤ mo.2.length then
      if 4 ≤ (normalizeForReentry mo.2).length ∧
          pyContains normalized_output (normalizeForReentry mo.2) = true then
        [{ type := .REDACTED_REENTRY, severity := .ERROR,
           message := "제거된 내용 재유입: \"".toList ++ mo.2.take 30 ++ "...\"".toList,
           matched_text := some mo.1 }]
      else []
    else [])

/-- Check 1b of `_check_redacted_reentry`: for each redaction entry with
at least two distinctive keywords (length ≥ 3 and not stopwords) of which
at least two occur in the output, a WARNING issue. -/
def reentrySemanticIssues (final_text : List Char)
    (redaction_map : List (List Char × List Char)) : List ValidationIssue :=
  redaction_map.flatMap (fun mo =>
    let distinctive := (extractMeaningWords mo.2).filter
      (fun w => decide (3 ≤ w.length ∧ w ∉ validatorStopwords))
    if 2 ≤ distinctive.length then
      if 2 ≤ (distinctive.filter (fun w => pyContains final_text w)).length then
        [{ type := .REDACTED_REENTRY, severity := .WARNING,
           message := "제거된 내용 의미적 재유입 의심: \"".toList ++ mo.2.take 30 ++
             "...\" (키워드 ".toList ++
             (Nat.repr (distinctive.filter (fun w => pyContains final_text w)).length).toList ++
             "개 일치)".toList,
           matched_text := some mo.1 }]
      else []
    else [])

/-- Check 2 of `_check_redacted_reentry`: censorship trace phrases in the
output, each an ERROR issue. -/
def reentryTraceIssues (final_text : List Char) : List ValidationIssue :=
  censorshipTraces.flatMap (fun trace =>
    if pyContains final_text trace then
      [{ type := .REDACTION_TRACE, severity := .ERROR,
         message := "검열 흔적 문구 감지: \"".toList ++ trace ++ "\"".toList,
         matched_text := some trace }]
    else [])

/-- The validator's `_check_redacted_reentry`: the issues it appends, in
order (checks 1 and 1b run only when the redaction map is nonempty; the
raw LLM output parameter is unused by the source function). -/
def check_redacted_reentry (final_text : List Char)
    (_raw_llm_output : Option (List Char))
    (redaction_map : List (List Char × List Char)) : List ValidationIssue :=
  (if redaction_map.isEmpty then []
   else reentryVerbatimIssues (normalizeForReentry final_text) redaction_map ++
     reentrySemanticIssues final_text redaction_map) ++
  reentryTraceIssues final_text

/-! Module `app/pipeline/preprocessing/locked_span_extractor.py` together
with the `LockedSpanType` enum of enums.py. -/

/-- Locked span types (`LockedSpanType` in enums.py).  In the Python
`str` enum, TIME_HH_MM shares the value "TIME" with TIME and
LARGE_NUMBER shares "NUMBER" with UNIT_NUMBER, so those two names are
aliases of the earlier members; the inductive lists the distinct
members and the aliases are definitions below. -/
inductive LockedSpanType
  | EMAIL
  | URL
  | ACCOUNT
  | DATE
  | TIME
  | PHONE
  | MONEY
  | UNIT_NUMBER
  | UUID
  | FILE_PATH
  | ISSUE_TICKET
  | VERSION
  | QUOTED_TEXT
  | IDENTIFIER
  | HASH_COMMIT
  | SEMANTIC
deriving DecidableEq

/-- Alias member TIME_HH_MM = "TIME". -/
def LockedSpanType.TIME_HH_MM : LockedSpanType := .TIME

/-- Alias member LARGE_NUMBER = "NUMBER". -/
def LockedSpanType.LARGE_NUMBER : LockedSpanType := .UNIT_NUMBER

/-- The enum value, which `placeholder_prefix` returns. -/
def placeholderPrefixOf : LockedSpanType → List Char
  | .EMAIL => "EMAIL".toList
  | .URL => "URL".toList
  | .ACCOUNT => "ACCOUNT".toList
  | .DATE => "DATE".toList
  | .TIME => "TIME".toList
  | .PHONE => "PHONE".toList
  | .MONEY => "MONEY".toList
  | .UNIT_NUMBER => "NUMBER".toList
  | .UUID => "UUID".toList
  | .FILE_PATH => "FILE".toList
  | .ISSUE_TICKET => "TICKET".toList
  | .VERSION => "VERSION".toList
  | .QUOTED_TEXT => "QUOTE".toList
  | .IDENTIFIER => "ID".toList
  | .HASH_COMMIT => "HASH".toList
  | .SEMANTIC => "NAME".toList

/-- A raw regex match (`_RawMatch` dataclass); `end` is renamed `stop`. -/
structure _RawMatch where
  start : Nat
  stop : Nat
  text : List Char
  type : LockedSpanType
deriving DecidableEq

/-- A locked span (`LockedSpan` dataclass in domain.py). -/
structure LockedSpan where
  index : Nat
  original_text : List Char
  placeholder : List Char
  type : LockedSpanType
  start_pos : Nat
  end_pos : Nat
deriving DecidableEq

/-- The sort key order of `raw_matches.sort(key=lambda m: (m.start,
-(m.end - m.start)))`: start ascending, then length descending. -/
def rawKeyLe (a b : _RawMatch) : Bool :=
  decide (a.start < b.start) ||
  (decide (a.start = b.start) && decide (b.stop - b.start ≤ a.stop - a.start))

/-- Stable insertion of a later element after all kept elements with key
less than or equal to its key. -/
def insSorted (x : _RawMatch) : List _RawMatch → List _RawMatch
  | [] => [x]
  | y :: ys => if rawKeyLe y x then y :: insSorted x ys else x :: y :: ys

/-- Stable sort by `(start ASC, length DESC)`.  Python's `list.sort` is a
stable sort; for a total preorder key, stability and sortedness determine
the output uniquely, so this insertion sort computes the same list. -/
def sortRaw (l : List _RawMatch) : List _RawMatch :=
  l.foldl (fun acc x => insSorted x acc) []

/-- The sweep of `_resolve_overlaps`: keep a match when its start is at
least the last kept end (initially -1), skip it otherwise. -/
def resolveOverlapsAux : List _RawMatch → Int → List _RawMatch
  | [], _ => []
  | m :: rest, lastEnd =>
    if (m.start : Int) ≥ lastEnd then m :: resolveOverlapsAux rest (m.stop : Int)
    else resolveOverlapsAux rest lastEnd

/-- Overlap resolution (`_resolve_overlaps`). -/
def resolve_overlaps (sorted_matches : List _RawMatch) : List _RawMatch :=
  resolveOverlapsAux sorted_matches (-1)

/-- One type-scoped counter step: `prefix_counters.get(prefix, 0)`. -/
def counterGet (cs : List (List Char × Nat)) (k : List Char) : Nat :=
  match cs.find? (fun kv => kv.1 = k) with
  | some kv => kv.2
  | none => 0

/-- Dictionary update `prefix_counters[prefix] = counter`. -/
def counterSet (cs : List (List Char × Nat)) (k : List Char) (v : Nat) :
    List (List Char × Nat) :=
  match cs with
  | [] => [(k, v)]
  | kv :: rest => if kv.1 = k then (k, v) :: rest else kv :: counterSet rest k v

/-- Builds the placeholder text from a type prefix and a 1-based,
per-type counter. -/
def mkPlaceholder (pfx : List Char) (n : Nat) : List Char :=
  [lb, lb] ++ pfx ++ ['_'] ++ (Nat.repr n).toList ++ [rb, rb]

/-- The span-building loop of `extract`: each surviving match becomes a
LockedSpan with a type-scoped counter and placeholder. -/
def assignSpans : List _RawMatch → List (List Char × Nat) → List LockedSpan
  | [], _ => []
  | m :: rest, cs =>
    let pfx := placeholderPrefixOf m.type
    let counter := counterGet cs pfx + 1
    { index := counter, original_text := m.text,
      placeholder := mkPlaceholder pfx counter, type := m.type,
      start_pos := m.start, end_pos := m.stop } ::
      assignSpans rest (counterSet cs pfx counter)

/-- Locked span extraction (`extract` in locked_span_extractor.py): the
17 compiled regex patterns enter only through the raw matches they
produce on the text, so the pattern bank is the `matchers` parameter
(one finditer-like function per pattern, applied in pattern order); the
collected matches are then sorted, swept for overlaps, and turned into
placeholdered spans exactly as in the source. -/
def extract (matchers : List (List Char → List _RawMatch)) (text : List Char) :
    List LockedSpan :=
  if text = [] then []
  else
    assignSpans (resolve_overlaps (sortRaw (matchers.flatMap (fun f => f text)))) []

/-! Module `app/pipeline/preprocessing/locked_span_masker.py`. -/

/-- The regex class `[A-Z]` (ASCII upper-case letters). -/
def isUpperAZ (c : Char) : Bool := decide (65 ≤ c.toNat ∧ c.toNat ≤ 90)

/-- ASCII digits; models the regex class `\d` (every placeholder the
pipeline writes renders its counter with ASCII digits). -/
def isDigitAscii (c : Char) : Bool := decide (48 ≤ c.toNat ∧ c.toNat ≤ 57)

/-- The canonical placeholder `replace_fn` rebuilds from the two captured
groups of a tolerant match. -/
def canonicalOf (letters digits : List Char) : List Char :=
  [lb, lb] ++ letters ++ ['_'] ++ digits ++ [rb, rb]

/-- Head match of `_PLACEHOLDER_PATTERN`, the tolerant placeholder regex
(open braces, optional spaces, upper-case letters, a dash or underscore,
digits, optional spaces, close braces): returns the two groups and the
number of consumed characters.  The character classes of consecutive
pieces are disjoint, so the greedy runs never backtrack and this scanner
is exact. -/
def parsePH (l : List Char) : Option (List Char × List Char × Nat) :=
  match l with
  | c1 :: c2 :: rest =>
    if c1 = lb ∧ c2 = lb then
      if (rest.dropWhile pyIsSpace).takeWhile isUpperAZ = [] then none
      else
        match (rest.dropWhile pyIsSpace).dropWhile isUpperAZ with
        | sep :: r3 =>
          if sep = '-' ∨ sep = '_' then
            if r3.takeWhile isDigitAscii = [] then none
            else
              match (r3.dropWhile isDigitAscii).dropWhile pyIsSpace with
              | d1 :: d2 :: _ =>
                if d1 = rb ∧ d2 = rb then
                  some ((rest.dropWhile pyIsSpace).takeWhile isUpperAZ,
                    r3.takeWhile isDigitAscii,
                    2 + (rest.takeWhile pyIsSpace).length +
                      ((rest.dropWhile pyIsSpace).takeWhile isUpperAZ).length + 1 +
                      (r3.takeWhile isDigitAscii).length +
                      ((r3.dropWhile isDigitAscii).takeWhile pyIsSpace).length + 2)
                else none
              | _ => none
          else none
        | [] => none
    else none
  | _ => none

/-- Lookup in `span_map`: the dict is filled placeholder-by-placeholder
with later entries overwriting, so the lookup returns the last span
whose placeholder equals the key. -/
def spanMapGet (spans : List LockedSpan) (k : List Char) : Option LockedSpan :=
  spans.reverse.find? (fun s => decide (s.placeholder = k))

/-- The `_PLACEHOLDER_PATTERN.sub(replace_fn, output)` scan: at each
position try a match; a match whose canonical form is in the span map is
replaced by the span's original text and recorded as restored, a match
outside the map is kept verbatim, and on no match the scan advances one
character.  Fuel bounds the number of steps; each step consumes at least
one character, so the text length is enough fuel. -/
def subPH (S : List LockedSpan) : Nat → List Char → List Char × List (List Char)
  | 0, l => (l, [])
  | _ + 1, [] => ([], [])
  | fuel + 1, c :: cs =>
    match parsePH (c :: cs) with
    | some (letters, digits, n) =>
      match spanMapGet S (canonicalOf letters digits) with
      | some span =>
        (span.original_text ++ (subPH S fuel ((c :: cs).drop n)).1,
          canonicalOf letters digits :: (subPH S fuel ((c :: cs).drop n)).2)
      | none =>
        ((c :: cs).take n ++ (subPH S fuel ((c :: cs).drop n)).1,
          (subPH S fuel ((c :: cs).drop n)).2)
    | none => (c :: (subPH S fuel cs).1, (subPH S fuel cs).2)

/-- The loop of `mask`: for each span emit the gap since the previous
end, then its placeholder; after the loop emit the rest of the text. -/
def maskAux (text : List Char) : List LockedSpan → Nat → List Char
  | [], lastEnd => pySlice text lastEnd text.length
  | span :: rest, lastEnd =>
    pySlice text lastEnd span.start_pos ++ span.placeholder ++
      maskAux text rest span.end_pos

/-- `mask` of locked_span_masker.py. -/
def mask (text : List Char) (spans : List LockedSpan) : List Char :=
  if spans = [] then text else maskAux text spans 0

/-- `UnmaskResult` dataclass. -/
structure UnmaskResult where
  text : List Char
  missing_spans : List LockedSpan
deriving DecidableEq

/-- `unmask` of locked_span_masker.py: run the substitution scan, then
collect the spans whose placeholder was never restored and whose
original text does not occur in the result. -/
def unmask (output : List Char) (spans : List LockedSpan) : UnmaskResult :=
  if spans = [] then ⟨output, []⟩
  else
    ⟨(subPH spans output.length output).1,
      spans.filter (fun s =>
        !((subPH spans output.length output).2.contains s.placeholder) &&
        !(pyContains (subPH spans output.length output).1 s.original_text))⟩

/-- What the extractor guarantees about its output on `x` (the C4
development proves the disjointness and sortedness for the embedded
`extract`): spans are pairwise disjoint in order, lie inside `x`, carry
exactly the text they cover, and carry the canonical per-type
placeholder; distinct spans get distinct placeholders. -/
def ExtractorLike (x : List Char) (S : List LockedSpan) : Prop :=
  S.Pairwise (fun a b => a.end_pos ≤ b.start_pos) ∧
  (∀ s ∈ S, s.start_pos ≤ s.end_pos ∧ s.end_pos ≤ x.length ∧
    s.original_text = pySlice x s.start_pos s.end_pos ∧
    s.placeholder = mkPlaceholder (placeholderPrefixOf s.type) s.index) ∧
  (S.map (fun s => s.placeholder)).Nodup

/-- The spans walked by the mask loop: each begins at or after the
running last end, which the loop then moves to the span's end; the final
last end stays inside the text. -/
def spansOrdered (x : List Char) : Nat → List LockedSpan → Prop
  | lastEnd, [] => lastEnd ≤ x.length
  | lastEnd, s :: rest => lastEnd ≤ s.start_pos ∧ spansOrdered x s.end_pos rest

/-- Start of the first span, or the text length for an empty list. -/
def headStart (x : List Char) : List LockedSpan → Nat
  | [] => x.length
  | s :: _ => s.start_pos

/-- Checks that no tail of `x` begins with a placeholder-shaped token
whose canonical form is one of the span placeholders: the original text
contains nothing the unmasker would rewrite. -/
def cleanForB (S : List LockedSpan) (x : List Char) : Bool :=
  (List.range x.length).all (fun j =>
    match parsePH (x.drop j) with
    | some (a, b, _) => (spanMapGet S (canonicalOf a b)).isNone
    | none => true)

/-! Module `app/pipeline/segmentation/meaning_segmenter.py`: the 7-stage
segmenter.  Each compiled regex becomes a `hit` function giving, for a
start position, the end of the match beginning there (none if no match
starts there); a generic bump-along scanner reproduces `finditer`.  The
greedy runs of every pattern stop at characters outside the class being
repeated, and where an alternation's branches can both apply the earlier
branch is tested first, so the scanners are exact. -/

/-- `Segment` dataclass of domain.py (`end` renamed `stop`). -/
structure Segment where
  id : List Char
  text : List Char
  start : Nat
  stop : Nat
deriving DecidableEq

/-- `_SplitUnit` (`end` renamed `stop`); float confidence as a rational. -/
structure SplitUnit where
  text : List Char
  start : Nat
  stop : Nat
  confidence : Rat
deriving DecidableEq

/-- Protected range types. -/
inductive PType
  | PLACEHOLDER
  | PARENTHETICAL
  | QUOTED
deriving DecidableEq

/-- `_ProtectedRange` (`end` renamed `stop`). -/
structure ProtectedRange where
  start : Nat
  stop : Nat
  ptype : PType
deriving DecidableEq

/-- `settings.segmenter_max_segment_length`. -/
def segMaxLen : Nat := 250

/-- `settings.segmenter_discourse_marker_min_length`. -/
def segDiscourseMin : Nat := 80

/-- `settings.segmenter_enumeration_min_length`. -/
def segEnumMin : Nat := 60

/-- `_MIN_SEGMENT_LENGTH`. -/
def segMinSegLen : Nat := 5

/-- `_MIN_SHORT_CONSECUTIVE`. -/
def segMinShortConsecutive : Nat := 3

/-- Length of the run of regex whitespace starting at `i`. -/
def wsRun (text : List Char) (i : Nat) : Nat :=
  ((text.drop i).takeWhile pyIsSpace).length

/-- `_is_hangul` of the segmenter: syllables or compatibility jamo. -/
def segIsHangul (c : Char) : Bool :=
  isHangulSyl c || decide (0x3131 ≤ c.toNat ∧ c.toNat ≤ 0x318E)

/-- Head match of the segmenter's strict placeholder regex
`\{\{[A-Z]+_\d+\}\}` (no spaces, underscore only): consumed length.
Python's `\d` matches the Unicode decimal-digit class Nd, embedded as
the parameter `isDig`. -/
def parsePHStrict (isDig : Char → Bool) (l : List Char) : Option Nat :=
  match l with
  | c1 :: c2 :: rest =>
    if c1 = lb ∧ c2 = lb then
      if (rest.takeWhile isUpperAZ) = [] then none
      else
        match rest.dropWhile isUpperAZ with
        | sep :: r2 =>
          if sep = '_' then
            if (r2.takeWhile isDig) = [] then none
            else
              match r2.dropWhile isDig with
              | e1 :: e2 :: _ =>
                if e1 = rb ∧ e2 = rb then
                  some (2 + (rest.takeWhile isUpperAZ).length + 1 +
                    (r2.takeWhile isDig).length + 2)
                else none
              | _ => none
          else none
        | _ => none
    else none
  | _ => none

/-- `_PLACEHOLDER_PATTERN.search(text)` as a Bool. -/
def containsPHB (isDig : Char → Bool) (l : List Char) : Bool :=
  (List.range l.length).any (fun i => (parsePHStrict isDig (l.drop i)).isSome)

/-- Generic `finditer` bump-along: at each position try the hit; advance
past a nonempty match, one character past an empty one. -/
def finditerGo (hit : List Char → Nat → Option Nat) (text : List Char) :
    Nat → Nat → List (Nat × Nat)
  | 0, _ => []
  | fuel + 1, i =>
    if i ≤ text.length then
      match hit text i with
      | some e => (i, e) :: finditerGo hit text fuel (if i < e then e else i + 1)
      | none => finditerGo hit text fuel (i + 1)
    else []

/-- `pattern.finditer(text)` as a list of (start, end) pairs. -/
def finditer (hit : List Char → Nat → Option Nat) (text : List Char) :
    List (Nat × Nat) :=
  finditerGo hit text (text.length + 1) 0

/-- `_PLACEHOLDER_PATTERN` as a hit. -/
def hitPlaceholder (isDig : Char → Bool) (text : List Char) (i : Nat) :
    Option Nat :=
  (parsePHStrict isDig (text.drop i)).map (fun n => i + n)

/-- `_BLANK_LINE` = `\n\n+`. -/
def hitBlankLine (text : List Char) (i : Nat) : Option Nat :=
  let run := ((text.drop i).takeWhile (fun c => c = '\n')).length
  if 2 ≤ run then some (i + run) else none

/-- Last index of a newline in a list. -/
def lastNlIdx (l : List Char) : Option Nat :=
  match l.reverse.findIdx? (fun c => c = '\n') with
  | some r => some (l.length - 1 - r)
  | none => none

/-- The `[-=_]{3,}\s*(?:\n|$)` core of `_EXPLICIT_SEPARATOR`, matched
from position `j`: the greedy `\s*` backtracks until `\n|$` succeeds,
so the match ends at the string end if the whitespace reaches it, and
otherwise just after the last newline inside the whitespace run. -/
def sepCore (text : List Char) (j : Nat) : Option Nat :=
  let d := ((text.drop j).takeWhile (fun c => c = '-' ∨ c = '=' ∨ c = '_')).length
  if d < 3 then none
  else
    let a := j + d
    let w := wsRun text a
    if a + w = text.length then some (a + w)
    else
      match lastNlIdx ((text.drop a).take w) with
      | some k => some (a + k + 1)
      | none => none

/-- `_EXPLICIT_SEPARATOR` = `(?:^|\n)[-=_]{3,}\s*(?:\n|$)` (MULTILINE):
the first alternative is a line start, the second consumes a newline. -/
def hitSeparator (text : List Char) (i : Nat) : Option Nat :=
  if text[i]? = some '\n' then sepCore text (i + 1)
  else if i = 0 ∨ text[i - 1]? = some '\n' then sepCore text i
  else none

/-- Whether the character at a position exists and is regex whitespace. -/
def isSpaceAt (text : List Char) (j : Nat) : Bool :=
  match text[j]? with
  | some c => pyIsSpace c
  | none => false

/-- Whether the character at a position exists and is a Hangul
syllable. -/
def isHangulAt (text : List Char) (j : Nat) : Bool :=
  match text[j]? with
  | some c => isHangulSyl c
  | none => false

/-- `_BULLET` = `(?<=\n)(?:[-*•]\s)`. -/
def hitBullet (text : List Char) (i : Nat) : Option Nat :=
  if text[i - 1]? = some '\n' ∧ 1 ≤ i ∧
      (text[i]? = some '-' ∨ text[i]? = some '*' ∨ text[i]? = some '•') ∧
      isSpaceAt text (i + 1) = true then
    some (i + 2)
  else none

/-- `_NUMBERED_LIST` = `(?<=\n)(?:\d{1,3}[.)]\s|[①-⑳]\s?)` (the circled
digits ①-⑳).  Python's `\d` (Unicode Nd) is the parameter `isDig`; the
bounded repetition `\d{1,3}` backtracks only into digit characters that
can never satisfy the following `[.)]`, so it succeeds exactly when the
full digit run has length 1 to 3. -/
def hitNumbered (isDig : Char → Bool) (text : List Char) (i : Nat) :
    Option Nat :=
  if text[i - 1]? = some '\n' ∧ 1 ≤ i then
    let d := ((text.drop i).takeWhile isDig).length
    if 1 ≤ d ∧ d ≤ 3 ∧
        (text[i + d]? = some '.' ∨ text[i + d]? = some ')') ∧
        isSpaceAt text (i + d + 1) = true then
      some (i + d + 2)
    else
      match text[i]? with
      | some c =>
        if 0x2460 ≤ c.toNat ∧ c.toNat ≤ 0x2473 then
          match text[i + 1]? with
          | some c2 => if pyIsSpace c2 then some (i + 2) else some (i + 1)
          | none => some (i + 1)
        else none
      | none => none
  else none

/-- The common ending follower `(?:\s+|[.!?…~;]\s*)`: whitespace run, or
one closing punctuation mark plus a whitespace run. -/
def endingFollower (text : List Char) (i : Nat) : Option Nat :=
  let w := wsRun text i
  if 1 ≤ w then some (i + w)
  else
    match text[i]? with
    | some c =>
      if c = '.' ∨ c = '!' ∨ c = '?' ∨ c = '…' ∨ c = '~' ∨ c = ';' then
        some (i + 1 + wsRun text (i + 1))
      else none
    | none => none

/-- A lookbehind on a finite set of literals. -/
def lookbehindAny (lits : List (List Char)) (text : List Char) (i : Nat) : Bool :=
  lits.any (fun w => w.isSuffixOf (text.take i))

/-- An ending bank hit: some lookbehind literal ends at `i` and the
follower matches at `i`. -/
def hitEnding (lits : List (List Char)) (text : List Char) (i : Nat) :
    Option Nat :=
  if lookbehindAny lits text i then endingFollower text i else none

/-- The `_ENDING_FORMAL` lookbehind alternatives. -/
def endingFormalLits : List (List Char) :=
  ["겠습니다", "하십시오", "겠습니까",
   "습니다", "입니다", "됩니다", "합니다", "답니다", "랍니다", "십니다",
   "습니까", "입니까", "됩니까", "합니까", "십니까", "십시오"].map String.toList

/-- The `_ENDING_POLITE` lookbehind alternatives. -/
def endingPoliteLits : List (List Char) :=
  ["는데요", "거든요", "잖아요", "니까요", "라서요", "던가요", "텐데요",
   "다고요", "라고요", "냐고요", "자고요", "은데요", "던데요",
   "세요", "에요", "해요", "예요", "네요", "군요", "지요", "어요", "아요",
   "게요", "래요", "나요", "가요", "고요", "서요", "걸요", "대요", "까요",
   "셔요", "구요"].map String.toList

/-- The `_ENDING_CASUAL` lookbehind alternatives, character classes
expanded into literals. -/
def endingCasualLits : List (List Char) :=
  ["았어", "었어", "했어", "됐어", "갔어", "왔어", "봤어", "줬어", "났어",
   "겠어", "셨어",
   "같어", "않아", "없어", "있어", "못해",
   "았지", "었지", "했지", "됐지", "겠지", "셨지",
   "거든", "잖아", "는데", "인데", "한데", "은데", "던데", "텐데", "더라",
   "니까",
   "할래", "할게", "갈게", "볼게", "줄게", "을래", "을게", "을걸",
   "하자", "해라", "해봐", "구나", "구먼", "이야", "거야", "건데",
   "다며", "다더라", "그치", "시죠", "던가"].map String.toList

/-- The `_ENDING_NARRATIVE` lookbehind alternatives, character classes
expanded into literals. -/
def endingNarrativeLits : List (List Char) :=
  ["하게", "하네", "하세",
   "했음", "됐음", "봤음", "왔음", "갔음", "줬음", "났음",
   "같음", "있음", "없음", "아님", "맞음", "모름", "드림", "올림", "알림",
   "바람", "나름", "받음", "보냄",
   "했다", "됐다", "봤다", "왔다", "갔다", "줬다", "났다", "겠다",
   "있다", "없다", "같다", "한다", "된다", "간다", "온다", "는다",
   "됨", "임", "함",
   "죠", "ㅋㅋ", "ㅎㅎ", "ㅠㅠ", "ㅜㅜ"].map String.toList

/-- `_AMBIGUOUS_ENDINGS`. -/
def ambiguousEndings : List (List Char) :=
  ["는데", "인데", "한데", "은데", "던데", "텐데", "니까", "거든", "고",
   "건데"].map String.toList

/-- `_DISCOURSE_MARKERS_SET` (and the identical alternation of
`_DISCOURSE_MARKER_SPLIT`). -/
def discourseMarkers : List (List Char) :=
  ["그리고", "또한", "게다가", "더구나", "심지어",
   "그런데", "근데", "하지만", "그러나", "그래도", "반면", "한편", "오히려",
   "그렇지만",
   "그래서", "그러므로", "결국", "그러니까", "그러니", "결과적으로",
   "그러면", "그럼", "그렇다면", "만약", "만일", "아니면",
   "아무튼", "어쨌든", "어쨌거나", "그나저나", "암튼",
   "마지막으로", "끝으로", "첫째", "둘째", "셋째",
   "결론적으로", "왜냐하면", "왜냐면"].map String.toList

/-- `_COMPOUND_SUFFIXES`. -/
def compoundSuffixes : List (List Char) :=
  ["그런데도", "그래서인지", "그러나마나", "하지만서도", "그래도역시"].map
    String.toList

/-- `_POSTPOSITIONS`. -/
def postpositions : List (List Char) :=
  ["은", "는", "이", "가", "을", "를", "에", "의", "와", "과",
   "로", "도", "만", "까지", "부터", "에서", "처럼", "보다",
   "마다", "밖에", "조차", "든지", "이나", "에게", "한테", "께"].map
    String.toList

/-- `_WEAK_BOUNDARY` (MULTILINE): the five alternatives in order —
whitespace after closing punctuation, a line end after closing
punctuation, and optional whitespace after an ellipsis, three dots, or
a dash. -/
def hitWeak (text : List Char) (i : Nat) : Option Nat :=
  let prevPunct := 1 ≤ i ∧ (text[i - 1]? = some '.' ∨ text[i - 1]? = some '!' ∨
    text[i - 1]? = some '?' ∨ text[i - 1]? = some ';')
  if prevPunct ∧ 1 ≤ wsRun text i then some (i + wsRun text i)
  else if prevPunct ∧ (i = text.length ∨ text[i]? = some '\n') then some i
  else if text[i - 1]? = some '…' ∧ 1 ≤ i then some (i + wsRun text i)
  else if ['.', '.', '.'].isSuffixOf (text.take i) then some (i + wsRun text i)
  else if (text[i - 1]? = some '—' ∨ text[i - 1]? = some '–') ∧ 1 ≤ i then
    some (i + wsRun text i)
  else none

/-- `_COMMA_LIST` = `,\s*`. -/
def hitComma (text : List Char) (i : Nat) : Option Nat :=
  if text[i]? = some ',' then some (i + 1 + wsRun text (i + 1)) else none

/-- `_DELIMITER_LIST` = `[/·|]\s*`. -/
def hitDelim (text : List Char) (i : Nat) : Option Nat :=
  if text[i]? = some '/' ∨ text[i]? = some '·' ∨ text[i]? = some '|' then
    some (i + 1 + wsRun text (i + 1))
  else none

/-- `_PARALLEL_GO` = `(?<=[가-힣])고\s+(?=[가-힣])`. -/
def hitParallelGo (text : List Char) (i : Nat) : Option Nat :=
  match text[i - 1]? with
  | some p =>
    if 1 ≤ i ∧ isHangulSyl p = true ∧ text[i]? = some '고' ∧
        1 ≤ wsRun text (i + 1) ∧
        isHangulAt text (i + 1 + wsRun text (i + 1)) = true then
      some (i + 1 + wsRun text (i + 1))
    else none
  | none => none

/-- `_DISCOURSE_MARKER_SPLIT`: a zero-width position after closing
punctuation plus one whitespace, or after a newline, followed by a
discourse marker and a whitespace character. -/
def hitDiscourse (text : List Char) (i : Nat) : Option Nat :=
  let lb1 := 2 ≤ i ∧ (text[i - 2]? = some '.' ∨ text[i - 2]? = some '!' ∨
      text[i - 2]? = some '?' ∨ text[i - 2]? = some ';' ∨
      text[i - 2]? = some '…') ∧ isSpaceAt text (i - 1) = true
  let lb2 := 1 ≤ i ∧ text[i - 1]? = some '\n'
  let la := discourseMarkers.any (fun mk =>
    mk.isPrefixOf (text.drop i) && isSpaceAt text (i + mk.length))
  if (lb1 ∨ lb2) ∧ la = true then some i else none

/-- `_PAREN_PATTERN` = `\([^)]*\)`. -/
def hitParen (text : List Char) (i : Nat) : Option Nat :=
  if text[i]? = some '(' then
    match (text.drop (i + 1)).findIdx? (fun c => c = ')') with
    | some j => some (i + 1 + j + 1)
    | none => none
  else none

/-- `_QUOTE_PATTERN`: four quote styles, each scanning to its own
closing character. -/
def hitQuote (text : List Char) (i : Nat) : Option Nat :=
  let closeOf : Char → Option Char := fun c =>
    if c = '"' then some '"'
    else if c = '\'' then some '\''
    else if c = '“' then some '”'
    else if c = '‘' then some '’'
    else none
  match text[i]? with
  | some c =>
    match closeOf c with
    | some cl =>
      match (text.drop (i + 1)).findIdx? (fun d => d = cl) with
      | some j => some (i + 1 + j + 1)
      | none => none
    | none => none
  | none => none

/-- `_overlaps_placeholder`. -/
def overlapsPlaceholder (s e : Nat) (ranges : List ProtectedRange) : Bool :=
  ranges.any (fun r => decide (r.ptype = PType.PLACEHOLDER) &&
    decide (s < r.stop) && decide (e > r.start))

/-- `_collect_protected_ranges`. -/
def collectProtectedRanges (isDig : Char → Bool) (text : List Char) :
    List ProtectedRange :=
  let phs := (finditer (hitPlaceholder isDig) text).map
    (fun p => ProtectedRange.mk p.1 p.2 PType.PLACEHOLDER)
  let parens := ((finditer hitParen text).filter
    (fun p => !(overlapsPlaceholder p.1 p.2 phs))).map
    (fun p => ProtectedRange.mk p.1 p.2 PType.PARENTHETICAL)
  let quotes := ((finditer hitQuote text).filter
    (fun p => !(overlapsPlaceholder p.1 p.2 (phs ++ parens)))).map
    (fun p => ProtectedRange.mk p.1 p.2 PType.QUOTED)
  phs ++ parens ++ quotes

/-- `_is_in_protected`: inside a placeholder always protects, inside any
other range protects only non-strong boundaries. -/
def isInProtected (pos : Nat) (ranges : List ProtectedRange)
    (strongB : Bool) : Bool :=
  ranges.any (fun r => decide (r.start ≤ pos) && decide (pos < r.stop) &&
    (decide (r.ptype = PType.PLACEHOLDER) || !strongB))

/-- First position at or after `idx` where `sub` occurs in `parent`. -/
def findSubGo (parent sub : List Char) : Nat → Nat → Option Nat
  | 0, _ => none
  | fuel + 1, idx =>
    if sub.isPrefixOf (parent.drop idx) then some idx
    else if idx < parent.length then findSubGo parent sub fuel (idx + 1)
    else none

/-- `_find_substring_start`: `parent.find(trimmed, search_from)`, with
the source's fallback to `search_from` when not found. -/
def findSub (parent : List Char) (searchFrom : Nat) (sub : List Char) : Nat :=
  (findSubGo parent sub (parent.length + 1) searchFrom).getD searchFrom

/-- The emission loop shared verbatim by the splitting stages: the
stripped text between the previous match end and the next match start
becomes a unit relocated with `_find_substring_start`; also returns the
final `prev_end`. -/
def emitLoop (text : List Char) (ustart : Nat) (conf : Rat) :
    List (Nat × Nat) → Nat → List SplitUnit × Nat
  | [], prev => ([], prev)
  | (s, e) :: rest, prev =>
    let sub := pyStrip (pySlice text prev s)
    let r := emitLoop text ustart conf rest e
    if sub = [] then r
    else
      let p := findSub text prev sub
      (⟨sub, ustart + p, ustart + p + sub.length, conf⟩ :: r.1, r.2)

/-- The trailing emission `unit.text[prev_end:].strip()`. -/
def tailUnit (text : List Char) (ustart : Nat) (conf : Rat) (prev : Nat) :
    List SplitUnit :=
  let tail := pyStrip (text.drop prev)
  if tail = [] then []
  else
    let p := findSub text prev tail
    [⟨tail, ustart + p, ustart + p + tail.length, conf⟩]

/-- `_apply_split_pattern` (stages 1 and 3) for one unit: units shorter
than 3 pass through; the tail is emitted only when some piece was,
otherwise the unit passes through unchanged. -/
def applySplitPatternU (hit : List Char → Nat → Option Nat)
    (ranges : List ProtectedRange) (conf : Rat) (strongB : Bool)
    (u : SplitUnit) : List SplitUnit :=
  if u.text.length < 3 then [u]
  else
    let conf2 := min u.confidence conf
    let ms := (finditer hit u.text).filter
      (fun p => !(isInProtected (u.start + p.1) ranges strongB))
    let r := emitLoop u.text u.start conf2 ms 0
    if r.1 = [] then [u] else r.1 ++ tailUnit u.text u.start conf2 r.2

/-- `_apply_split_pattern` over a unit list. -/
def applySplitPattern (hit : List Char → Nat → Option Nat)
    (ranges : List ProtectedRange) (conf : Rat) (strongB : Bool)
    (units : List SplitUnit) : List SplitUnit :=
  units.flatMap (applySplitPatternU hit ranges conf strongB)

/-- `_split_strong_boundaries`. -/
def splitStrongBoundaries (isDig : Char → Bool)
    (ranges : List ProtectedRange)
    (units : List SplitUnit) : List SplitUnit :=
  applySplitPattern (hitNumbered isDig) ranges 1 true
    (applySplitPattern hitBullet ranges 1 true
      (applySplitPattern hitSeparator ranges 1 true
        (applySplitPattern hitBlankLine ranges 1 true units)))

/-- `_extract_ending_before`: the longest trailing candidate (3, 2, then
1 characters) that is an ambiguous ending. -/
def extractEndingBefore (text : List Char) (s : Nat) : List Char :=
  if 3 ≤ s ∧ pySlice text (s - 3) s ∈ ambiguousEndings then
    pySlice text (s - 3) s
  else if 2 ≤ s ∧ pySlice text (s - 2) s ∈ ambiguousEndings then
    pySlice text (s - 2) s
  else if 1 ≤ s ∧ pySlice text (s - 1) s ∈ ambiguousEndings then
    pySlice text (s - 1) s
  else []

/-- `_should_split_ambiguous_ending`. -/
def shouldSplitAmbiguous (chunk : List Char) (afterEnd lenBefore : Nat) :
    Bool :=
  if 250 < lenBefore then true
  else
    let remaining := pyStrip (chunk.drop afterEnd)
    if remaining = [] then true
    else
      discourseMarkers.any (fun mk =>
        (mk ++ [' ']).isPrefixOf remaining ||
        (mk ++ ['\n']).isPrefixOf remaining || decide (remaining = mk))

/-- The split-point selection of
`_apply_split_pattern_with_connective_filter`: an ambiguous ending is
kept only when `_should_split_ambiguous_ending` allows it; skipped
matches do not advance `last_end`. -/
def selectEndingPoints (text : List Char) :
    List (Nat × Nat) → Nat → List (Nat × Nat)
  | [], _ => []
  | (s, e) :: rest, lastEnd =>
    if extractEndingBefore text s ∈ ambiguousEndings ∧
        shouldSplitAmbiguous text e (s - lastEnd) = false then
      selectEndingPoints text rest lastEnd
    else (s, e) :: selectEndingPoints text rest e

/-- `_apply_split_pattern_with_connective_filter` for one ending bank
and one unit. -/
def applyWithFilterU (lits : List (List Char)) (ranges : List ProtectedRange)
    (conf : Rat) (u : SplitUnit) : List SplitUnit :=
  if u.text.length < 3 then [u]
  else
    let conf2 := min u.confidence conf
    let ms := (finditer (hitEnding lits) u.text).filter
      (fun p => !(isInProtected (u.start + p.1) ranges false))
    let pts := selectEndingPoints u.text ms 0
    if pts = [] then [u]
    else
      let r := emitLoop u.text u.start conf2 pts 0
      r.1 ++ tailUnit u.text u.start conf2 r.2

/-- `_apply_split_pattern_with_connective_filter` over a unit list. -/
def applyWithFilter (lits : List (List Char)) (ranges : List ProtectedRange)
    (conf : Rat) (units : List SplitUnit) : List SplitUnit :=
  units.flatMap (applyWithFilterU lits ranges conf)

/-- `_split_korean_endings`: the four banks in order. -/
def splitKoreanEndings (ranges : List ProtectedRange)
    (units : List SplitUnit) : List SplitUnit :=
  applyWithFilter endingNarrativeLits ranges (19/20)
    (applyWithFilter endingCasualLits ranges (19/20)
      (applyWithFilter endingPoliteLits ranges (19/20)
        (applyWithFilter endingFormalLits ranges (19/20) units)))

/-- `_is_after_postposition`. -/
def isAfterPostposition (chunk : List Char) (i : Nat) : Bool :=
  (decide (3 ≤ i) && decide (pySlice chunk (i - 3) i ∈ postpositions)) ||
  (decide (2 ≤ i) && decide (pySlice chunk (i - 2) i ∈ postpositions)) ||
  (decide (1 ≤ i) && decide (pySlice chunk (i - 1) i ∈ postpositions))

/-- The best-split search of `_force_split_long`: the candidate nearest
the midpoint (strictly closer wins, so the first of equals is kept),
over split characters outside protected ranges, optionally avoiding
postpositions. -/
def bestSplitFold (chunk : List Char) (ustart mid : Nat)
    (ranges : List ProtectedRange) (avoidPost : Bool) (idxs : List Nat) :
    Option (Nat × Nat) :=
  idxs.foldl (fun best i =>
    match chunk[i]? with
    | some c =>
      if (c = ' ' ∨ c = ',' ∨ c = '\n') ∧
          isInProtected (ustart + i) ranges false = false ∧
          (avoidPost = false ∨ isAfterPostposition chunk i = false) then
        let dist := max i mid - min i mid
        match best with
        | some bd => if dist < bd.1 then some (dist, i + 1) else best
        | none => some (dist, i + 1)
      else best
    | none => best) none

/-- One unit of `_force_split_long`: split an over-long unit at the best
space/comma/newline near its midpoint. -/
def forceSplitUnit (ranges : List ProtectedRange) (maxLen : Nat)
    (u : SplitUnit) : List SplitUnit × Bool :=
  if u.text.length ≤ maxLen then ([u], false)
  else
    let len := u.text.length
    let mid := len / 2
    let sStart := max 10 (mid - 60)
    let sEnd := min (len - 5) (mid + 60)
    let idxs := List.range' sStart (sEnd - sStart)
    let best : Option Nat :=
      match bestSplitFold u.text u.start mid ranges true idxs with
      | some p => some p.2
      | none => (bestSplitFold u.text u.start mid ranges false idxs).map
          (fun p => p.2)
    match best with
    | some bs =>
      let conf2 := min u.confidence (17/20 : Rat)
      let left := pyStrip (u.text.take bs)
      let right := pyStrip (u.text.drop bs)
      let lpart : List SplitUnit := if left = [] then []
        else
          let p := findSub u.text 0 left
          [⟨left, u.start + p, u.start + p + left.length, conf2⟩]
      let rpart : List SplitUnit := if right = [] then []
        else
          let p := findSub u.text bs right
          [⟨right, u.start + p, u.start + p + right.length, conf2⟩]
      (lpart ++ rpart, true)
    | none => ([u], false)

/-- One pass of `_force_split_long` over all units. -/
def forceSplitPass (ranges : List ProtectedRange) (maxLen : Nat)
    (units : List SplitUnit) : List SplitUnit × Bool :=
  units.foldr (fun u acc =>
    let r := forceSplitUnit ranges maxLen u
    (r.1 ++ acc.1, r.2 || acc.2)) ([], false)

/-- The bounded iteration of `_force_split_long` (5 passes, early stop
when a pass splits nothing). -/
def forceSplitLongGo (ranges : List ProtectedRange) (maxLen : Nat) :
    Nat → List SplitUnit → List SplitUnit
  | 0, us => us
  | k + 1, us =>
    let r := forceSplitPass ranges maxLen us
    if r.2 then forceSplitLongGo ranges maxLen k r.1 else r.1

/-- `_force_split_long`. -/
def forceSplitLong (ranges : List ProtectedRange) (maxLen : Nat)
    (units : List SplitUnit) : List SplitUnit :=
  forceSplitLongGo ranges maxLen 5 units

/-- `_try_split_by_delimiter` with `min_parts=3`, `min_part_length=15`. -/
def tryDelimSplit (ranges : List ProtectedRange) (u : SplitUnit)
    (hit : List Char → Nat → Option Nat) : Option (List SplitUnit) :=
  let ms := (finditer hit u.text).filter
    (fun p => !(isInProtected (u.start + p.1) ranges false))
  if ms.length < 2 then none
  else
    let conf2 := min u.confidence (9/10 : Rat)
    let r := emitLoop u.text u.start conf2 ms 0
    let parts := r.1 ++ tailUnit u.text u.start conf2 r.2
    if parts.length < 3 then none
    else if parts.any (fun p => decide (p.text.length < 15)) then none
    else some parts

/-- `_split_enumerations` for one unit: comma list, then delimiter
list, then parallel-go, first success wins. -/
def splitEnumerationsU (ranges : List ProtectedRange) (enumMin : Nat)
    (u : SplitUnit) : List SplitUnit :=
  if u.text.length ≤ enumMin then [u]
  else
    match tryDelimSplit ranges u hitComma with
    | some ps => ps
    | none =>
      match tryDelimSplit ranges u hitDelim with
      | some ps => ps
      | none =>
        match tryDelimSplit ranges u hitParallelGo with
        | some ps => ps
        | none => [u]

/-- `_split_enumerations` over a unit list. -/
def splitEnumerations (ranges : List ProtectedRange) (enumMin : Nat)
    (units : List SplitUnit) : List SplitUnit :=
  units.flatMap (splitEnumerationsU ranges enumMin)

/-- `_is_compound_marker`. -/
def isCompoundMarker (remaining : List Char) : Bool :=
  let trimmed := pyStrip remaining
  compoundSuffixes.any (fun c => c.isPrefixOf trimmed) ||
  discourseMarkers.any (fun mk =>
    mk.isPrefixOf trimmed && decide (mk.length < trimmed.length) &&
    (match trimmed[mk.length]? with
     | some nc =>
       !(decide (nc = ' ') || decide (nc = '\n')) && segIsHangul nc
     | none => false))

/-- `_split_discourse_markers` for one unit. -/
def splitDiscourseMarkersU (ranges : List ProtectedRange) (dmMin : Nat)
    (u : SplitUnit) : List SplitUnit :=
  if u.text.length ≤ dmMin then [u]
  else
    let pts := ((finditer hitDiscourse u.text).filter (fun p =>
        !(isInProtected (u.start + p.1) ranges false))).filter (fun p =>
      !(isCompoundMarker (u.text.drop p.2)) &&
      decide (4 < (pyStrip (u.text.drop p.2)).length))
    if pts = [] then [u]
    else
      let conf2 := min u.confidence (22/25 : Rat)
      let r := emitLoop u.text u.start conf2
        (pts.map (fun p => (p.2, p.2))) 0
      r.1 ++ tailUnit u.text u.start conf2 r.2

/-- `_split_discourse_markers` over a unit list. -/
def splitDiscourseMarkers (ranges : List ProtectedRange) (dmMin : Nat)
    (units : List SplitUnit) : List SplitUnit :=
  units.flatMap (splitDiscourseMarkersU ranges dmMin)

/-- `_group_by_placeholder_boundary`: a placeholder-bearing unit closes
the current group and forms its own group. -/
def groupByPH (isDig : Char → Bool) :
    List SplitUnit → List SplitUnit → List (List SplitUnit)
  | [], current => if current = [] then [] else [current]
  | u :: rest, current =>
    if containsPHB isDig u.text then
      (if current = [] then [] else [current]) ++ [[u]] ++
        groupByPH isDig rest []
    else groupByPH isDig rest (current ++ [u])

/-- `_merge_group`: texts joined with a single space, the first unit's
start, the last unit's end, the minimum confidence. -/
def mergeGroup (g : List SplitUnit) : SplitUnit :=
  match g with
  | [] => ⟨[], 0, 0, 1⟩
  | u :: _ =>
    { text := List.intercalate [' '] (g.map (fun v => v.text)),
      start := u.start,
      stop := ((g.getLast?).getD u).stop,
      confidence := g.foldl (fun m v => min m v.confidence) u.confidence }

/-- The walk of `_merge_short_units`: take the maximal run of short
units, merge its placeholder-delimited groups of 3 or more, keep the
following unit, continue. -/
def mergeGoF (isDig : Char → Bool) : Nat → List SplitUnit → List SplitUnit
  | 0, us => us
  | fuel + 1, us =>
    let p := fun (u : SplitUnit) => decide (u.text.length < segMinSegLen)
    let shorts := us.takeWhile p
    let rest := us.dropWhile p
    let processed := if segMinShortConsecutive ≤ shorts.length then
        (groupByPH isDig shorts []).flatMap (fun g =>
          if segMinShortConsecutive ≤ g.length then [mergeGroup g] else g)
      else shorts
    match rest with
    | [] => processed
    | r :: rs => processed ++ r :: mergeGoF isDig fuel rs

/-- `_merge_short_units`. -/
def mergeShortUnits (isDig : Char → Bool) (units : List SplitUnit) :
    List SplitUnit :=
  if units.length ≤ 1 then units else mergeGoF isDig units.length units

/-- The final `Segment` conversion with ids T1, T2, …. -/
def toSegmentsGo : Nat → List SplitUnit → List Segment
  | _, [] => []
  | i, u :: rest =>
    ⟨'T' :: (Nat.repr i).toList, u.text, u.start, u.stop⟩ ::
      toSegmentsGo (i + 1) rest

/-- `segment` of meaning_segmenter.py: the full 7-stage pipeline.
Python's `\d` (the Unicode decimal-digit class Nd, used by the
placeholder and numbered-list patterns) is the parameter `isDig`. -/
def segment (isDig : Char → Bool) (masked_text : List Char) :
    List Segment :=
  if masked_text = [] ∨ pyStrip masked_text = [] then []
  else
    let ranges := collectProtectedRanges isDig masked_text
    let u1 := splitStrongBoundaries isDig ranges
      [⟨masked_text, 0, masked_text.length, 1⟩]
    let u2 := splitKoreanEndings ranges u1
    let u3 := applySplitPattern hitWeak ranges (9/10) false u2
    let u4 := forceSplitLong ranges segMaxLen u3
    let u5 := splitEnumerations ranges segEnumMin u4
    let u6 := splitDiscourseMarkers ranges segDiscourseMin u5
    toSegmentsGo 1 (mergeShortUnits isDig u6)

/-- A hit function is bounded: a match starting inside the text ends at
or after its start and inside the text. -/
def HitBound (hit : List Char → Nat → Option Nat) : Prop :=
  ∀ text i e, i ≤ text.length → hit text i = some e →
    i ≤ e ∧ e ≤ text.length

/-- The invariant carried through the splitting stages 1-6: units are
pairwise disjoint in order, and each unit's text is nonempty and is
exactly the slice of the masked text at its recorded span. -/
def preU (M : List Char) (u : SplitUnit) : Prop :=
  u.text ≠ [] ∧ u.stop ≤ M.length ∧ u.text = pySlice M u.start u.stop

/-- The weaker invariant after the stage-7 merge: the recorded span is
still inside the text and nonempty, and the unit's text with spaces
removed is a subsequence of the slice at its span. -/
def postU (M : List Char) (u : SplitUnit) : Prop :=
  u.text ≠ [] ∧ u.start < u.stop ∧ u.stop ≤ M.length ∧
  List.Sublist (u.text.filter (fun c => !(decide (c = ' '))))
    (pySlice M u.start u.stop)

/-- The characters a `\{\{[A-Z]+_\d+\}\}` placeholder token can consist
of: braces, capitals, the underscore and digits. -/
def phTokChar (isDig : Char → Bool) (c : Char) : Bool :=
  decide (c = '{') || decide (c = '}') || isUpperAZ c ||
    decide (c = '_') || isDig c

/-- The characters that can immediately precede a split-pattern match
end: regex whitespace, the closing punctuation and delimiter characters
of the patterns, and the circled digits of `_NUMBERED_LIST`. -/
def endSafe (c : Char) : Bool :=
  pyIsSpace c || decide (c = '.') || decide (c = '!') ||
    decide (c = '?') || decide (c = '…') || decide (c = '~') ||
    decide (c = ';') || decide (c = ',') || decide (c = '/') ||
    decide (c = '·') || decide (c = '|') ||
    (decide (0x2460 ≤ c.toNat) && decide (c.toNat ≤ 0x2473))

/-- The digit class is disjoint from the boundary characters; this holds
of the Unicode decimal-digit class Nd that Python's `\d` matches. -/
def digOK (isDig : Char → Bool) : Prop :=
  ∀ c, isDig c = true → endSafe c = false

/-- Position `p` does not fall strictly inside any placeholder token
occurrence of the masked text. -/
def bdOK (isDig : Char → Bool) (M : List Char) (p : Nat) : Prop :=
  ∀ r ∈ collectProtectedRanges isDig M,
    r.ptype = PType.PLACEHOLDER → ¬(r.start < p ∧ p < r.stop)

/-- Both endpoints of a unit avoid placeholder interiors. -/
def unitBD (isDig : Char → Bool) (M : List Char) (u : SplitUnit) : Prop :=
  bdOK isDig M u.start ∧ bdOK isDig M u.stop

/-- A hit function whose match ends are boundary-safe: a match is empty,
runs to the end of the text, or ends right after an `endSafe`
character. -/
def HitEnd (hit : List Char → Nat → Option Nat) : Prop :=
  ∀ text i e, hit text i = some e →
    e = i ∨ e = text.length ∨
      ∃ c, text[e - 1]? = some c ∧ endSafe c = true

/-- Unicode NFC canonical composition restricted to the code points
U+0065, U+0301, U+200C and U+00E9: a combining acute accent composes
with an immediately preceding letter `e` into `é` and is otherwise left
in place (an intervening character such as the zero-width non-joiner
blocks the composition).  This agrees with
`unicodedata.normalize("NFC", ...)` on every string over these code
points. -/
def nfcAcute : List Char → List Char
  | [] => []
  | [c] => [c]
  | c :: d :: r =>
    if c = 'e' ∧ d = Char.ofNat 0x301 then Char.ofNat 0xE9 :: nfcAcute r
    else c :: nfcAcute (d :: r)

/-! Predicates used to show that the output of `normalizeSteps` is a fixed
point of every step. -/

/-- No two adjacent space-or-tab characters. -/
def noTwoSpTab : List Char → Bool
  | a :: b :: r => (!(isSpTab a && isSpTab b)) && noTwoSpTab (b :: r)
  | _ => true

/-- No three adjacent newline characters. -/
def noThreeNl : List Char → Bool
  | a :: b :: c :: r => (!(a = '\n' && b = '\n' && c = '\n')) && noThreeNl (b :: c :: r)
  | _ => true

/-! Theorems. -/

/-! Facts about the normalizer steps, leading to idempotence (C9). -/

theorem collapseSpacesGo_nil (fuel : Nat) : collapseSpacesGo fuel [] = [] := by
  cases fuel <;> rfl

theorem collapseNewlinesGo_nil (fuel : Nat) : collapseNewlinesGo fuel [] = [] := by
  cases fuel <;> rfl

theorem mem_replaceCRLF {c : Char} {l : List Char} (h : c ∈ replaceCRLF l) :
    c ∈ l ∨ c = '\n' := by
  induction l using replaceCRLF.induct with
  | case1 => simp [replaceCRLF] at h
  | case2 a =>
    rw [replaceCRLF] at h
    rcases List.mem_singleton.1 h with h1
    by_cases ha : a = '\r'
    · simp only [ha, if_true] at h1
      exact Or.inr h1
    · simp only [ha, if_false] at h1
      exact Or.inl (by simp [h1])
  | case3 r ih =>
    rw [replaceCRLF] at h
    simp only [if_pos rfl] at h
    rcases List.mem_cons.1 h with h1 | h1
    · exact Or.inr h1
    · rcases ih h1 with h2 | h2
      · exact Or.inl (by simp [h2])
      · exact Or.inr h2
  | case4 d r hd ih =>
    rw [replaceCRLF] at h
    simp only [if_pos rfl, hd, if_false] at h
    rcases List.mem_cons.1 h with h1 | h1
    · exact Or.inr h1
    · rcases ih h1 with h2 | h2
      · exact Or.inl (List.mem_cons_of_mem _ h2)
      · exact Or.inr h2
  | case5 a d r ha ih =>
    rw [replaceCRLF] at h
    simp only [ha, if_false] at h
    rcases List.mem_cons.1 h with h1 | h1
    · exact Or.inl (by simp [h1])
    · rcases ih h1 with h2 | h2
      · exact Or.inl (List.mem_cons_of_mem _ h2)
      · exact Or.inr h2

theorem replaceCRLF_no_r {l : List Char} : '\r' ∉ replaceCRLF l := by
  induction l using replaceCRLF.induct with
  | case1 => simp [replaceCRLF]
  | case2 a =>
    rw [replaceCRLF]
    intro h
    have h1 := List.mem_singleton.1 h
    by_cases ha : a = '\r'
    · rw [if_pos ha] at h1
      exact absurd h1 (by decide)
    · rw [if_neg ha] at h1
      exact ha h1.symm
  | case3 r ih =>
    rw [replaceCRLF]
    simp only [if_pos rfl]
    intro h
    rcases List.mem_cons.1 h with h1 | h1
    · exact absurd h1 (by decide)
    · exact ih h1
  | case4 d r hd ih =>
    rw [replaceCRLF]
    simp only [if_pos rfl, hd, if_false]
    intro h
    rcases List.mem_cons.1 h with h1 | h1
    · exact absurd h1 (by decide)
    · exact ih h1
  | case5 a d r ha ih =>
    rw [replaceCRLF]
    simp only [ha, if_false]
    intro h
    rcases List.mem_cons.1 h with h1 | h1
    · exact ha h1.symm
    · exact ih h1

theorem replaceCRLF_eq_self {l : List Char} (h : '\r' ∉ l) : replaceCRLF l = l := by
  induction l using replaceCRLF.induct with
  | case1 => rfl
  | case2 a =>
    rw [replaceCRLF]
    have ha : ¬ a = '\r' := fun hr => h (by simp [hr])
    simp [ha]
  | case3 r ih => exact absurd (by simp) h
  | case4 d r hd ih => exact absurd (by simp) h
  | case5 a d r ha ih =>
    rw [replaceCRLF]
    simp only [ha, if_false]
    rw [ih (fun hm => h (List.mem_cons_of_mem a hm))]

theorem mem_collapseSpacesGo {c : Char} {fuel : Nat} {l : List Char}
    (h : c ∈ collapseSpacesGo fuel l) : c ∈ l ∨ c = ' ' := by
  induction fuel generalizing l with
  | zero => exact Or.inl h
  | succ fuel ih =>
    cases l with
    | nil => simp [collapseSpacesGo] at h
    | cons a r =>
      rw [collapseSpacesGo] at h
      by_cases ha : isSpTab a
      · simp only [ha, if_true] at h
        rcases List.mem_append.1 h with h1 | h1
        · split at h1
          · exact Or.inr (List.mem_singleton.1 h1)
          · exact Or.inl (by simp [List.mem_singleton.1 h1])
        · rcases ih h1 with h2 | h2
          · exact Or.inl (List.mem_cons_of_mem a ((r.dropWhile_sublist isSpTab).mem h2))
          · exact Or.inr h2
      · simp only [ha, if_false] at h
        rcases List.mem_cons.1 h with h1 | h1
        · exact Or.inl (by simp [h1])
        · rcases ih h1 with h2 | h2
          · exact Or.inl (List.mem_cons_of_mem a h2)
          · exact Or.inr h2

theorem mem_collapseNewlinesGo {c : Char} {fuel : Nat} {l : List Char}
    (h : c ∈ collapseNewlinesGo fuel l) : c ∈ l ∨ c = '\n' := by
  induction fuel generalizing l with
  | zero => exact Or.inl h
  | succ fuel ih =>
    cases l with
    | nil => simp [collapseNewlinesGo] at h
    | cons a r =>
      rw [collapseNewlinesGo] at h
      by_cases ha : a = '\n'
      · simp only [ha, if_true] at h
        rcases List.mem_append.1 h with h1 | h1
        · split at h1
          · exact Or.inr (by simpa using h1)
          · rcases List.mem_cons.1 h1 with h2 | h2
            · exact Or.inr (by simp [h2])
            · exact Or.inl (List.mem_cons_of_mem _
                ((r.takeWhile_sublist (fun d => d = '\n')).mem h2))
        · rcases ih h1 with h2 | h2
          · exact Or.inl (List.mem_cons_of_mem _
              ((r.dropWhile_sublist (fun d => d = '\n')).mem h2))
          · exact Or.inr h2
      · simp only [ha, if_false] at h
        rcases List.mem_cons.1 h with h1 | h1
        · exact Or.inl (by simp [h1])
        · rcases ih h1 with h2 | h2
          · exact Or.inl (List.mem_cons_of_mem a h2)
          · exact Or.inr h2

theorem noTwoSpTab_tail {a : Char} {r : List Char} (h : noTwoSpTab (a :: r) = true) :
    noTwoSpTab r = true := by
  cases r with
  | nil => rfl
  | cons b r2 =>
    simp only [noTwoSpTab, Bool.and_eq_true] at h
    exact h.2

theorem noTwoSpTab_cons {a : Char} {r : List Char}
    (h1 : ∀ b, r.head? = some b → (isSpTab a && isSpTab b) = false)
    (h2 : noTwoSpTab r = true) : noTwoSpTab (a :: r) = true := by
  cases r with
  | nil => rfl
  | cons b r2 =>
    simp only [noTwoSpTab, Bool.and_eq_true, Bool.not_eq_true']
    exact ⟨h1 b rfl, h2⟩

theorem noTwoSpTab_append_left {u v : List Char} (h : noTwoSpTab (u ++ v) = true) :
    noTwoSpTab u = true := by
  induction u with
  | nil => rfl
  | cons a u2 ih =>
    cases u2 with
    | nil => rfl
    | cons b u3 =>
      have h2 : noTwoSpTab (a :: b :: (u3 ++ v)) = true := h
      simp only [noTwoSpTab, Bool.and_eq_true] at h2 ⊢
      exact ⟨h2.1, by
        have := ih (show noTwoSpTab ((b :: u3) ++ v) = true from h2.2)
        simpa [noTwoSpTab] using this⟩

theorem noTwoSpTab_append_right {u v : List Char} (h : noTwoSpTab (u ++ v) = true) :
    noTwoSpTab v = true := by
  induction u with
  | nil => exact h
  | cons a u2 ih => exact ih (noTwoSpTab_tail h)

theorem noThreeNl_tail {a : Char} {r : List Char} (h : noThreeNl (a :: r) = true) :
    noThreeNl r = true := by
  cases r with
  | nil => rfl
  | cons b r2 =>
    cases r2 with
    | nil => rfl
    | cons c r3 =>
      simp only [noThreeNl, Bool.and_eq_true] at h
      exact h.2

theorem noThreeNl_append_left {u v : List Char} (h : noThreeNl (u ++ v) = true) :
    noThreeNl u = true := by
  induction u with
  | nil => rfl
  | cons a u2 ih =>
    cases u2 with
    | nil => rfl
    | cons b u3 =>
      cases u3 with
      | nil => rfl
      | cons c u4 =>
        have h2 : noThreeNl (a :: b :: c :: (u4 ++ v)) = true := h
        simp only [noThreeNl, Bool.and_eq_true] at h2 ⊢
        exact ⟨h2.1, by
          have := ih (show noThreeNl ((b :: c :: u4) ++ v) = true from h2.2)
          simpa [noThreeNl] using this⟩

theorem noThreeNl_append_right {u v : List Char} (h : noThreeNl (u ++ v) = true) :
    noThreeNl v = true := by
  induction u with
  | nil => exact h
  | cons a u2 ih => exact ih (noThreeNl_tail h)

theorem noThreeNl_cons_of_head_ne {x : Char} {out : List Char}
    (h1 : ∀ d, out.head? = some d → d ≠ '\n')
    (h2 : noThreeNl out = true) : noThreeNl (x :: out) = true := by
  cases out with
  | nil => rfl
  | cons o1 out2 =>
    cases out2 with
    | nil => rfl
    | cons o2 out3 =>
      have ho1 : o1 ≠ '\n' := h1 o1 rfl
      simp only [noThreeNl, Bool.and_eq_true, Bool.not_eq_true'] at h2 ⊢
      exact ⟨by simp [ho1], h2⟩

theorem noThreeNl_two_nl {out : List Char}
    (h1 : ∀ d, out.head? = some d → d ≠ '\n')
    (h2 : noThreeNl out = true) : noThreeNl ('\n' :: '\n' :: out) = true := by
  cases out with
  | nil => rfl
  | cons d out2 =>
    have hd : d ≠ '\n' := h1 d rfl
    have hnext : noThreeNl ('\n' :: d :: out2) = true := by
      cases out2 with
      | nil => rfl
      | cons e out3 =>
        simp only [noThreeNl, Bool.and_eq_true, Bool.not_eq_true'] at h2 ⊢
        exact ⟨by simp [hd], h2⟩
    simp only [noThreeNl, Bool.and_eq_true, Bool.not_eq_true'] at hnext ⊢
    cases out2 with
    | nil => exact ⟨by simp [hd], hnext⟩
    | cons e out3 => exact ⟨by simp [hd], hnext⟩

theorem noThreeNl_cons_of_ne_nl {x : Char} {out : List Char} (hx : x ≠ '\n')
    (h2 : noThreeNl out = true) : noThreeNl (x :: out) = true := by
  cases out with
  | nil => rfl
  | cons o1 out2 =>
    cases out2 with
    | nil => rfl
    | cons o2 out3 =>
      simp only [noThreeNl, Bool.and_eq_true, Bool.not_eq_true'] at h2 ⊢
      exact ⟨by simp [hx], h2⟩

theorem head?_dropWhile_not {p : Char → Bool} {l : List Char} {c : Char}
    (h : (l.dropWhile p).head? = some c) : p c = false := by
  induction l with
  | nil => simp [List.dropWhile] at h
  | cons a r ih =>
    rw [List.dropWhile_cons] at h
    by_cases ha : p a
    · simp only [ha, if_true] at h
      exact ih h
    · simp only [ha, if_false] at h
      cases h
      simpa using ha

theorem getLast?_dropWhile {p : Char → Bool} {l : List Char}
    (h : l.dropWhile p ≠ []) : (l.dropWhile p).getLast? = l.getLast? := by
  induction l with
  | nil => simp [List.dropWhile] at h
  | cons a r ih =>
    rw [List.dropWhile_cons]
    by_cases ha : p a
    · rw [List.dropWhile_cons, if_pos ha] at h
      rw [if_pos ha, ih h]
      have hr : r ≠ [] := by
        intro hr
        subst hr
        simp [List.dropWhile] at h
      cases r with
      | nil => cases hr rfl
      | cons b r2 => rw [List.getLast?_cons_cons]
    · rw [if_neg ha]

theorem mem_pyStrip {c : Char} {l : List Char} (h : c ∈ pyStrip l) : c ∈ l := by
  unfold pyStrip at h
  rw [List.mem_reverse] at h
  have h1 := (@List.dropWhile_sublist Char
    ((l.dropWhile pyIsSpace).reverse) pyIsSpace).mem h
  rw [List.mem_reverse] at h1
  exact (@List.dropWhile_sublist Char l pyIsSpace).mem h1

theorem pyStrip_eq_rdropWhile (l : List Char) :
    pyStrip l = (l.dropWhile pyIsSpace).rdropWhile pyIsSpace := rfl

theorem pyStrip_head_not_space {l : List Char} {c : Char}
    (h : (pyStrip l).head? = some c) : pyIsSpace c = false := by
  unfold pyStrip at h
  rw [List.head?_reverse] at h
  have hne : (l.dropWhile pyIsSpace).reverse.dropWhile pyIsSpace ≠ [] := by
    intro he
    rw [he] at h
    simp at h
  rw [getLast?_dropWhile hne, List.getLast?_reverse] at h
  exact head?_dropWhile_not h

theorem pyStrip_getLast_not_space {l : List Char} {c : Char}
    (h : (pyStrip l).getLast? = some c) : pyIsSpace c = false := by
  unfold pyStrip at h
  rw [List.getLast?_reverse] at h
  exact head?_dropWhile_not h

theorem dropWhile_eq_self_of_head {p : Char → Bool} {l : List Char}
    (h : ∀ c, l.head? = some c → p c = false) : l.dropWhile p = l := by
  cases l with
  | nil => rfl
  | cons a r =>
    rw [List.dropWhile_cons, if_neg]
    rw [h a rfl]
    simp

theorem pyStrip_eq_self {l : List Char}
    (h1 : ∀ c, l.head? = some c → pyIsSpace c = false)
    (h2 : ∀ c, l.getLast? = some c → pyIsSpace c = false) : pyStrip l = l := by
  unfold pyStrip
  rw [dropWhile_eq_self_of_head h1]
  rw [dropWhile_eq_self_of_head (fun c hc => h2 c (by rwa [List.head?_reverse] at hc))]
  exact List.reverse_reverse l

/-- Identity of the space-collapsing pass on texts with no adjacent
space/tab pair, for every fuel value. -/
theorem collapseSpacesGo_eq_self {l : List Char} (h : noTwoSpTab l = true)
    (fuel : Nat) : collapseSpacesGo fuel l = l := by
  induction fuel generalizing l with
  | zero => rfl
  | succ fuel ih =>
    cases l with
    | nil => rfl
    | cons a r =>
      rw [collapseSpacesGo]
      by_cases ha : isSpTab a
      · have htw : r.takeWhile isSpTab = [] := by
          cases r with
          | nil => rfl
          | cons b r2 =>
            have hw := h
            simp only [noTwoSpTab, Bool.and_eq_true, Bool.not_eq_true'] at hw
            have hb : isSpTab b = false := by
              rcases Bool.and_eq_false_iff.1 hw.1 with hx | hx
              · rw [ha] at hx
                cases hx
              · exact hx
            rw [List.takeWhile_cons, hb]
            rfl
        have hdw : r.dropWhile isSpTab = r := by
          have := List.takeWhile_append_dropWhile isSpTab r
          rw [htw] at this
          simpa using this
        rw [htw, hdw]
        simp only [ha, if_true, List.length_nil]
        rw [if_neg (by omega)]
        rw [ih (noTwoSpTab_tail h)]
        rfl
      · rw [if_neg ha, ih (noTwoSpTab_tail h)]

/-- Identity of the newline-collapsing pass on texts with no triple
newline, for every fuel value. -/
theorem collapseNewlinesGo_eq_self {l : List Char} (h : noThreeNl l = true)
    (fuel : Nat) : collapseNewlinesGo fuel l = l := by
  induction fuel generalizing l with
  | zero => rfl
  | succ fuel ih =>
    cases l with
    | nil => rfl
    | cons a r =>
      rw [collapseNewlinesGo]
      by_cases ha : a = '\n'
      · have hrun : (r.takeWhile (fun d => d = '\n')).length ≤ 1 := by
          cases r with
          | nil => simp [List.takeWhile]
          | cons b r2 =>
            by_cases hb : b = '\n'
            · cases r2 with
              | nil => simp [List.takeWhile, hb]
              | cons e r3 =>
                by_cases he : e = '\n'
                · exfalso
                  have hw := h
                  simp only [noThreeNl, Bool.and_eq_true, Bool.not_eq_true'] at hw
                  have := hw.1
                  rw [ha, hb, he] at this
                  simp at this
                · rw [List.takeWhile_cons, if_pos (by simp [hb]), List.takeWhile_cons,
                    if_neg (by simp [he])]
                  simp
            · rw [List.takeWhile_cons, if_neg (by simp [hb])]
              simp
        rw [if_pos ha, if_neg (by omega)]
        rw [ih (by
          have hsuf := @List.dropWhile_suffix Char r (fun d => decide (d = '\n'))
          obtain ⟨u, hu⟩ := hsuf
          have hr : noThreeNl r = true := noThreeNl_tail h
          rw [← hu] at hr
          exact noThreeNl_append_right hr)]
        rw [List.cons_append, ← ha]
        rw [List.takeWhile_append_dropWhile]
      · rw [if_neg ha, ih (noThreeNl_tail h)]

theorem collapseSpacesGo_head_of_not {l : List Char} {c : Char} {fuel : Nat}
    (h1 : l.head? = some c) (h2 : isSpTab c = false) :
    (collapseSpacesGo fuel l).head? = some c := by
  cases fuel with
  | zero => exact h1
  | succ fuel =>
    cases l with
    | nil => cases h1
    | cons a r =>
      cases h1
      rw [collapseSpacesGo, if_neg (by rw [h2]; simp)]
      rfl

theorem collapseNewlinesGo_head_sptab {l : List Char} {c : Char} {fuel : Nat}
    (h1 : (collapseNewlinesGo fuel l).head? = some c) (h2 : isSpTab c = true) :
    l.head? = some c := by
  cases fuel with
  | zero => exact h1
  | succ fuel =>
    cases l with
    | nil => cases h1
    | cons a r =>
      rw [collapseNewlinesGo] at h1
      by_cases ha : a = '\n'
      · rw [if_pos ha] at h1
        have hc : c = '\n' := by
          split at h1
          · cases h1
            rfl
          · cases h1
            exact ha.symm ▸ rfl
        rw [hc] at h2
        cases h2
      · rw [if_neg ha] at h1
        exact h1

theorem collapseNewlinesGo_head_nl {l : List Char} {fuel : Nat}
    (h1 : (collapseNewlinesGo fuel l).head? = some '\n') :
    l.head? = some '\n' := by
  cases fuel with
  | zero => exact h1
  | succ fuel =>
    cases l with
    | nil => cases h1
    | cons a r =>
      rw [collapseNewlinesGo] at h1
      by_cases ha : a = '\n'
      · rw [ha]
        rfl
      · rw [if_neg ha] at h1
        exact h1

/-- The space-collapsing pass at adequate fuel leaves no adjacent
space/tab pair. -/
theorem noTwoSpTab_collapseSpacesGo {l : List Char} {fuel : Nat}
    (hf : l.length ≤ fuel) : noTwoSpTab (collapseSpacesGo fuel l) = true := by
  induction fuel generalizing l with
  | zero =>
    have : l = [] := List.length_eq_zero.1 (Nat.le_zero.1 hf)
    rw [this]
    rfl
  | succ fuel ih =>
    cases l with
    | nil => rfl
    | cons a r =>
      rw [collapseSpacesGo]
      have hr : r.length ≤ fuel := by
        have := hf
        simp only [List.length_cons] at this
        omega
      by_cases ha : isSpTab a
      · rw [if_pos ha]
        have hrest : (r.dropWhile isSpTab).length ≤ fuel :=
          le_trans ((r.dropWhile_sublist isSpTab).length_le) hr
        have hcons : ∀ (x : Char),
            noTwoSpTab (x :: collapseSpacesGo fuel (r.dropWhile isSpTab)) = true := by
          intro x
          apply noTwoSpTab_cons
          · intro b hb
            have hbs : isSpTab b = false := by
              by_contra hbs
              have hbs2 : isSpTab b = true := by
                cases hx : isSpTab b
                · cases hbs hx
                · rfl
              have hhead : (r.dropWhile isSpTab).head? = some b := by
                cases hd : (r.dropWhile isSpTab).head? with
                | none =>
                  cases fuel with
                  | zero => rw [List.head?_eq_none_iff.1 hd] at hb; cases hb
                  | succ fuel2 =>
                    cases hx2 : r.dropWhile isSpTab with
                    | nil => rw [hx2] at hb; simp [collapseSpacesGo] at hb
                    | cons y ys => rw [hx2] at hd; cases hd
                | some d =>
                  have hds : isSpTab d = false := head?_dropWhile_not hd
                  have heq := @collapseSpacesGo_head_of_not _ _ fuel hd hds
                  rw [heq] at hb
                  injection hb with hb2
                  rw [← hb2]
              have := head?_dropWhile_not hhead
              rw [this] at hbs2
              cases hbs2
            rw [hbs]
            simp
          · exact ih hrest
        split
        · exact hcons ' '
        · exact hcons a
      · rw [if_neg ha]
        apply noTwoSpTab_cons
        · intro b hb
          have haf : isSpTab a = false := by
            cases hx : isSpTab a
            · rfl
            · cases ha hx
          rw [haf]
          simp
        · exact ih hr

/-- Prepending characters that are not spaces or tabs preserves the
predicate. -/
theorem noTwoSpTab_append_of_all_not {u v : List Char}
    (hu : ∀ c ∈ u, isSpTab c = false) (hv : noTwoSpTab v = true) :
    noTwoSpTab (u ++ v) = true := by
  induction u with
  | nil => exact hv
  | cons a u2 ih =>
    rw [List.cons_append]
    apply noTwoSpTab_cons
    · intro b hb
      rw [hu a (by simp)]
      simp
    · exact ih (fun c hc => hu c (List.mem_cons_of_mem a hc))

/-- The newline-collapsing pass preserves the absence of adjacent
space/tab pairs. -/
theorem noTwoSpTab_collapseNewlinesGo {l : List Char} {fuel : Nat}
    (h : noTwoSpTab l = true) : noTwoSpTab (collapseNewlinesGo fuel l) = true := by
  induction fuel generalizing l with
  | zero => exact h
  | succ fuel ih =>
    cases l with
    | nil => rfl
    | cons a r =>
      rw [collapseNewlinesGo]
      have hnl : isSpTab '\n' = false := by decide
      by_cases ha : a = '\n'
      · rw [if_pos ha]
        have hrest : noTwoSpTab (r.dropWhile (fun d => d = '\n')) = true := by
          obtain ⟨u, hu⟩ := @List.dropWhile_suffix Char r
            (fun d => decide (d = '\n'))
          have hr : noTwoSpTab r = true := noTwoSpTab_tail h
          rw [← hu] at hr
          exact noTwoSpTab_append_right hr
        have hout : noTwoSpTab (collapseNewlinesGo fuel
            (r.dropWhile (fun d => d = '\n'))) = true := ih hrest
        split
        · exact noTwoSpTab_append_of_all_not
            (fun c hc => by
              have : c = '\n' := by simpa using hc
              rw [this, hnl]) hout
        · rw [ha]
          exact noTwoSpTab_append_of_all_not
            (fun c hc => by
              rcases List.mem_cons.1 hc with hc1 | hc1
              · rw [hc1, hnl]
              · have : c = '\n' := by simpa using List.mem_takeWhile_imp hc1
                rw [this, hnl]) hout
      · rw [if_neg ha]
        apply noTwoSpTab_cons
        · intro b hb
          by_cases has : isSpTab a
          · by_cases hbs : isSpTab b
            · have hrb : r.head? = some b := collapseNewlinesGo_head_sptab hb hbs
              exfalso
              cases r with
              | nil => cases hrb
              | cons b2 r2 =>
                cases hrb
                simp only [noTwoSpTab, Bool.and_eq_true, Bool.not_eq_true'] at h
                rcases Bool.and_eq_false_iff.1 h.1 with hx | hx
                · rw [has] at hx
                  cases hx
                · rw [hbs] at hx
                  cases hx
            · rw [show isSpTab b = false by cases hx : isSpTab b; rfl; cases hbs hx]
              simp
          · rw [show isSpTab a = false by cases hx : isSpTab a; rfl; cases has hx]
            simp
        · exact ih (noTwoSpTab_tail h)

/-- The newline-collapsing pass at adequate fuel leaves no triple
newline. -/
theorem noThreeNl_collapseNewlinesGo {l : List Char} {fuel : Nat}
    (hf : l.length ≤ fuel) : noThreeNl (collapseNewlinesGo fuel l) = true := by
  induction fuel generalizing l with
  | zero =>
    have : l = [] := List.length_eq_zero.1 (Nat.le_zero.1 hf)
    rw [this]
    rfl
  | succ fuel ih =>
    cases l with
    | nil => rfl
    | cons a r =>
      rw [collapseNewlinesGo]
      have hr : r.length ≤ fuel := by
        have := hf
        simp only [List.length_cons] at this
        omega
      have hrestlen : (r.dropWhile (fun d => d = '\n')).length ≤ fuel :=
        le_trans ((r.dropWhile_sublist (fun d => d = '\n')).length_le) hr
      have hout := ih hrestlen
      have hhead_ne : ∀ d,
          (collapseNewlinesGo fuel (r.dropWhile (fun d => d = '\n'))).head? = some d →
          d ≠ '\n' := by
        intro d hd hdn
        rw [hdn] at hd
        have := collapseNewlinesGo_head_nl hd
        have := head?_dropWhile_not this
        simp at this
      by_cases ha : a = '\n'
      · rw [if_pos ha]
        split
        · rw [List.cons_append, List.singleton_append]
          exact noThreeNl_two_nl hhead_ne hout
        · rename_i hlt
          cases hrw : r.takeWhile (fun d => d = '\n') with
          | nil =>
            rw [List.singleton_append, ha]
            exact noThreeNl_cons_of_head_ne hhead_ne hout
          | cons d ds =>
            have hds : ds = [] := by
              rw [hrw] at hlt
              simp only [List.length_cons] at hlt
              have : ds.length = 0 := by omega
              exact List.length_eq_zero.1 this
            have hd : d = '\n' := by
              have : d ∈ r.takeWhile (fun e => e = '\n') := by
                rw [hrw]
                simp
              simpa using List.mem_takeWhile_imp this
            rw [hds, hd, ha, List.cons_append, List.cons_append, List.nil_append]
            exact noThreeNl_two_nl hhead_ne hout
      · rw [if_neg ha]
        exact noThreeNl_cons_of_ne_nl ha (ih hr)

theorem noTwoSpTab_pyStrip {l : List Char} (h : noTwoSpTab l = true) :
    noTwoSpTab (pyStrip l) = true := by
  rw [pyStrip_eq_rdropWhile]
  obtain ⟨u, hu⟩ := @List.dropWhile_suffix Char l pyIsSpace
  have h1 : noTwoSpTab (l.dropWhile pyIsSpace) = true :=
    noTwoSpTab_append_right (hu ▸ h)
  obtain ⟨v, hv⟩ := List.rdropWhile_prefix pyIsSpace (l.dropWhile pyIsSpace)
  exact noTwoSpTab_append_left (hv ▸ h1)

theorem noThreeNl_pyStrip {l : List Char} (h : noThreeNl l = true) :
    noThreeNl (pyStrip l) = true := by
  rw [pyStrip_eq_rdropWhile]
  obtain ⟨u, hu⟩ := @List.dropWhile_suffix Char l pyIsSpace
  have h1 : noThreeNl (l.dropWhile pyIsSpace) = true :=
    noThreeNl_append_right (hu ▸ h)
  obtain ⟨v, hv⟩ := List.rdropWhile_prefix pyIsSpace (l.dropWhile pyIsSpace)
  exact noThreeNl_append_left (hv ▸ h1)

/-- Every character of the normalized text is neither invisible, nor a
stripped control character, nor a carriage return. -/
theorem normalizeSteps_mem {c : Char} {l : List Char} (h : c ∈ normalizeSteps l) :
    isInvisibleChar c = false ∧ isControlChar c = false ∧ c ≠ '\r' := by
  unfold normalizeSteps at h
  have h1 := mem_pyStrip h
  rcases mem_collapseNewlinesGo h1 with h2 | h2
  · rcases mem_collapseSpacesGo h2 with h3 | h3
    · have hner : c ≠ '\r' := fun he => replaceCRLF_no_r (he ▸ h3)
      rcases mem_replaceCRLF h3 with h4 | h4
      · rcases List.mem_filter.1 h4 with ⟨h5, h6⟩
        rcases List.mem_filter.1 h5 with ⟨h7, h8⟩
        refine ⟨by simpa using h8, by simpa using h6, hner⟩
      · rw [h4]
        exact ⟨by decide, by decide, by decide⟩
    · rw [h3]
      exact ⟨by decide, by decide, by decide⟩
  · rw [h2]
    exact ⟨by decide, by decide, by decide⟩

/-- The normalizer's steps 2–7 are a fixed point on their own output. -/
theorem normalizeSteps_idem (l : List Char) :
    normalizeSteps (normalizeSteps l) = normalizeSteps l := by
  have hsp : noTwoSpTab (normalizeSteps l) = true := by
    unfold normalizeSteps
    exact noTwoSpTab_pyStrip (noTwoSpTab_collapseNewlinesGo
      (noTwoSpTab_collapseSpacesGo (le_refl _)))
  have hnl : noThreeNl (normalizeSteps l) = true := by
    unfold normalizeSteps
    exact noThreeNl_pyStrip (noThreeNl_collapseNewlinesGo (le_refl _))
  have h1 : removeInvisible (normalizeSteps l) = normalizeSteps l := by
    apply List.filter_eq_self.mpr
    intro a ha
    simpa using (normalizeSteps_mem ha).1
  have h2 : removeControl (normalizeSteps l) = normalizeSteps l := by
    apply List.filter_eq_self.mpr
    intro a ha
    simpa using (normalizeSteps_mem ha).2.1
  have h3 : replaceCRLF (normalizeSteps l) = normalizeSteps l := by
    apply replaceCRLF_eq_self
    intro hr
    exact (normalizeSteps_mem hr).2.2 rfl
  have h4 : collapseSpaces (normalizeSteps l) = normalizeSteps l :=
    collapseSpacesGo_eq_self hsp _
  have h5 : collapseNewlines (normalizeSteps l) = normalizeSteps l :=
    collapseNewlinesGo_eq_self hnl _
  have h6 : pyStrip (normalizeSteps l) = normalizeSteps l := by
    apply pyStrip_eq_self
    · intro c hc
      exact pyStrip_head_not_space hc
    · intro c hc
      exact pyStrip_getLast_not_space hc
  conv_lhs => rw [normalizeSteps, h1, h2, h3, h4, h5, h6]

/-- The per-segment pass either keeps the label or moves it to AGGRESSION,
to PERSONAL_ATTACK, or (from GREEN only) to EMOTIONAL. -/
theorem enforceOne_label_cases (ls : LabeledSegment) :
    (enforceOne ls).label = ls.label ∨
    (enforceOne ls).label = .AGGRESSION ∨
    (enforceOne ls).label = .PERSONAL_ATTACK ∨
    ((enforceOne ls).label = .EMOTIONAL ∧ ls.label.tier = .GREEN) := by
  simp only [enforceOne]
  split
  · exact Or.inl rfl
  · split
    · exact Or.inr (Or.inl rfl)
    · split
      · exact Or.inr (Or.inr (Or.inl rfl))
      · split
        · rename_i h3
          exact Or.inr (Or.inr (Or.inr ⟨rfl, h3.1⟩))
        · exact Or.inl rfl

/-- The per-segment pass never lowers the tier rank. -/
theorem enforceOne_tier_le (ls : LabeledSegment) :
    tierRank ls.label.tier ≤ tierRank (enforceOne ls).label.tier := by
  rcases enforceOne_label_cases ls with h | h | h | ⟨h, hg⟩
  · rw [h]
  · rw [h]
    cases ls.label <;> decide
  · rw [h]
    cases ls.label <;> decide
  · rw [h, hg]
    decide

/-- The per-segment pass keeps every field except possibly the label. -/
theorem enforceOne_frame (ls : LabeledSegment) :
    (enforceOne ls).segment_id = ls.segment_id ∧
    (enforceOne ls).text = ls.text ∧
    (enforceOne ls).start = ls.start ∧
    (enforceOne ls).stop = ls.stop := by
  simp only [enforceOne]
  repeat' split
  all_goals exact ⟨rfl, rfl, rfl, rfl⟩

/-- C6: the RED label enforcer is monotone on tiers: relative to the tier
order GREEN < YELLOW < RED, every segment's output tier is at least its
input tier, so GREEN maps into {GREEN, YELLOW, RED}, YELLOW into
{YELLOW, RED}, and RED stays RED; no operation lowers a tier. -/
theorem c6_enforce_monotone_on_tiers (labeled : List LabeledSegment) :
    List.Forall₂
      (fun a b => tierRank a.label.tier ≤ tierRank b.label.tier)
      labeled (enforce labeled) := by
  induction labeled with
  | nil => exact List.Forall₂.nil
  | cons ls rest ih => exact List.Forall₂.cons (enforceOne_tier_le ls) ih

/-- C10: the RED label enforcer returns a list of the same length in the
same order, and every output element keeps the segment_id, text, start and
end of the corresponding input element; only the label may differ. -/
theorem c10_enforce_frame (labeled : List LabeledSegment) :
    List.Forall₂
      (fun a b => b.segment_id = a.segment_id ∧ b.text = a.text ∧
        b.start = a.start ∧ b.stop = a.stop)
      labeled (enforce labeled) := by
  induction labeled with
  | nil => exact List.Forall₂.nil
  | cons ls rest ih => exact List.Forall₂.cons (enforceOne_frame ls) ih

/-- C9 (amended): the text normalizer is idempotent on every input on
which the Unicode NFC pass is stable over already-normalized text.  The
external NFC step is the parameter `nfc`; the stability hypothesis is a
genuine restriction — real NFC violates it when the removal of an
invisible character unblocks a canonical composition (see
`c9_normalize_not_idempotent`), so the spec's unconditional idempotence
claim is false and holds exactly under this proviso. -/
theorem c9_normalize_idempotent (nfc : List Char → List Char)
    (h : ∀ s, nfc (normalizeSteps (nfc s)) = normalizeSteps (nfc s))
    (x : List Char) :
    normalize nfc (normalize nfc x) = normalize nfc x := by
  unfold normalize
  by_cases hx : x = []
  · simp [hx]
  · rw [if_neg hx]
    by_cases hy : normalizeSteps (nfc x) = []
    · rw [if_pos hy]
    · rw [if_neg hy, h x, normalizeSteps_idem]

/-- C9 counterexample: the unconditional idempotence claim is false of
the program.  On x = `e` + ZWNJ (U+200C) + combining acute (U+0301),
the first `normalize` leaves NFC unchanged (the ZWNJ blocks the
composition) and then deletes the ZWNJ as an invisible character,
yielding `e` + U+0301; the second `normalize`'s NFC pass composes that
pair into `é`, so normalize(normalize(x)) differs from normalize(x).
`nfcAcute` reproduces `unicodedata.normalize("NFC", ...)` on every
string over the code points involved. -/
theorem c9_normalize_not_idempotent :
    normalize nfcAcute (normalize nfcAcute
        ['e', Char.ofNat 0x200C, Char.ofNat 0x301]) ≠
      normalize nfcAcute ['e', Char.ofNat 0x200C, Char.ofNat 0x301] := by
  decide

/-- C2 counterexample: at a concrete pipeline input whose situation
analysis LLM call raises, the claim that the failure surfaces to the
caller as an AiTransformError is false: `analyze_text_only` catches the
exception and returns the empty analysis result instead of an error. -/
theorem c2_surfaces_error_counterexample :
    (∀ e, analyze_text_only [] (fun _ => emptySituationAnalysisResult) "원문".toList none
        (fun _ _ _ _ _ _ => Except.error "LLM call failed".toList) none ≠ Except.error e) ∧
    analyze_text_only [] (fun _ => emptySituationAnalysisResult) "원문".toList none
        (fun _ _ _ _ _ _ => Except.error "LLM call failed".toList) none =
      Except.ok emptySituationAnalysisResult := by
  constructor
  · intro e h
    simp [analyze_text_only] at h
  · rfl

/-- C2 amended: when the situation-analysis LLM call raises, the
exception is caught locally and both analysis entry points return the
empty SituationAnalysisResult (facts=[], intent empty, zero token
counts); no error surfaces to the caller from the analysis call. -/
theorem c2_failure_returns_empty
    (sysA sysB : List Char) (parseA parseB : LlmCallResult → SituationAnalysisResult)
    (masked : List Char) (sender uprompt : Option (List Char))
    (persona : Persona) (contexts : List SituationContext) (tone : ToneLevel)
    (topic : Option Topic) (purpose : Option Purpose) (fn : AiCallFn)
    (hfail : ∀ m s u t mt ac, ∃ e, fn m s u t mt ac = Except.error e) :
    analyze_text_only sysA parseA masked sender fn uprompt =
      Except.ok emptySituationAnalysisResult ∧
    analyze sysB parseB persona contexts tone masked uprompt sender fn topic purpose =
      Except.ok emptySituationAnalysisResult := by
  constructor
  · unfold analyze_text_only
    obtain ⟨e, he⟩ := hfail saMODEL sysA
      (textOnlyUserMessage masked sender uprompt) saTEMPERATURE saMAX_TOKENS none
    rw [he]
  · unfold analyze
    obtain ⟨e, he⟩ := hfail saMODEL sysB
      (analyzeUserMessage persona contexts tone masked uprompt sender topic purpose)
      saTEMPERATURE saMAX_TOKENS none
    rw [he]

/-- C2 witness: the amended theorem applied at a concrete failing call. -/
theorem c2_failure_returns_empty_witness :
    analyze_text_only [] (fun _ => emptySituationAnalysisResult) "서버 장애 발생".toList none
        (fun _ _ _ _ _ _ => Except.error "boom".toList) none =
      Except.ok emptySituationAnalysisResult ∧
    analyze [] (fun _ => emptySituationAnalysisResult) Persona.CLIENT
        [SituationContext.COMPLAINT] ToneLevel.POLITE "서버 장애 발생".toList none none
        (fun _ _ _ _ _ _ => Except.error "boom".toList) none none =
      Except.ok emptySituationAnalysisResult :=
  c2_failure_returns_empty [] [] (fun _ => emptySituationAnalysisResult)
    (fun _ => emptySituationAnalysisResult) "서버 장애 발생".toList none none
    Persona.CLIENT [SituationContext.COMPLAINT] ToneLevel.POLITE none none
    (fun _ _ _ _ _ _ => Except.error "boom".toList)
    (fun _ _ _ _ _ _ => ⟨"boom".toList, rfl⟩)

/-- Every template the registry can return is one of the twelve
registered values. -/
theorem registryGet_mem (tid : List Char) :
    registryGet tid ∈ registryTemplates.map Prod.snd := by
  unfold registryGet
  cases hf : registryTemplates.find? (fun kv => kv.1 = tid) with
  | none =>
    exact List.mem_map_of_mem Prod.snd
      (show ("T01_GENERAL".toList, templateT01) ∈ registryTemplates from
        List.mem_cons_self _ _)
  | some kv =>
    exact List.mem_map_of_mem Prod.snd (List.mem_of_find?_eq_some hf)

/-- Every persona rule of every registered template has an empty
skip-section set. -/
theorem registry_skip_sections_empty :
    ∀ t ∈ registryTemplates.map Prod.snd, ∀ pr ∈ t.persona_skip_rules,
      pr.2.skip_sections = [] := by
  decide

/-- Every registered template contains the greeting section S0. -/
theorem registry_has_S0 :
    ∀ t ∈ registryTemplates.map Prod.snd,
      StructureSection.S0_GREETING ∈ t.section_order := by
  decide

/-- On registry templates, persona skip rules remove nothing. -/
theorem applySkipRules_registryGet (sections : List StructureSection)
    (tid : List Char) (persona : Persona) :
    applySkipRules sections (registryGet tid) persona = sections := by
  unfold applySkipRules
  by_cases he : (registryGet tid).persona_skip_rules.isEmpty
  · rw [if_pos he]
  · rw [if_neg he]
    cases hl : lookupSkipRule (registryGet tid).persona_skip_rules persona with
    | none => rfl
    | some rule =>
      have hmem : ∃ pr ∈ (registryGet tid).persona_skip_rules, pr.2 = rule := by
        unfold lookupSkipRule at hl
        cases hf : (registryGet tid).persona_skip_rules.find? (fun pr => pr.1 = persona) with
        | none => rw [hf] at hl; cases hl
        | some pr =>
          rw [hf] at hl
          cases hl
          exact ⟨pr, List.mem_of_find?_eq_some hf, rfl⟩
      obtain ⟨pr, hpr, hpr2⟩ := hmem
      have hempty : rule.skip_sections = [] := by
        rw [← hpr2]
        exact registry_skip_sections_empty _ (registryGet_mem tid) pr hpr
      show sections.filter (fun s => decide (s ∉ rule.skip_sections)) = sections
      rw [hempty]
      simp

/-- C7: in every template selection, when the label statistics contain
ACCOUNTABILITY or NEGATIVE_FEEDBACK and the selected template's section
order lacks S2_OUR_EFFORT, the effective section list is the section
order with S2_OUR_EFFORT inserted immediately after the first
S1_ACKNOWLEDGE — or immediately after the first S0_GREETING when
S1_ACKNOWLEDGE is absent — and the result is flagged s2_enforced; when
S2_OUR_EFFORT is already present or neither label occurs, the section
order is returned unchanged and the flag is off. -/
theorem c7_select_template_s2_enforcement (persona : Persona)
    (contexts : List SituationContext) (topic : Option Topic)
    (purpose : Option Purpose) (stats : LabelStats)
    (masked : Option (List Char)) (r : TemplateSelectionResult)
    (hr : r = select_template persona contexts topic purpose stats masked) :
    ((stats.has_accountability = true ∨ stats.has_negative_feedback = true) →
      StructureSection.S2_OUR_EFFORT ∉ r.template.section_order →
      r.s2_enforced = true ∧
      ((StructureSection.S1_ACKNOWLEDGE ∈ r.template.section_order ∧
        r.effective_sections = r.template.section_order.insertIdx
          (r.template.section_order.indexOf StructureSection.S1_ACKNOWLEDGE + 1)
          StructureSection.S2_OUR_EFFORT) ∨
       (StructureSection.S1_ACKNOWLEDGE ∉ r.template.section_order ∧
        StructureSection.S0_GREETING ∈ r.template.section_order ∧
        r.effective_sections = r.template.section_order.insertIdx
          (r.template.section_order.indexOf StructureSection.S0_GREETING + 1)
          StructureSection.S2_OUR_EFFORT))) ∧
    ((StructureSection.S2_OUR_EFFORT ∈ r.template.section_order ∨
      (stats.has_accountability = false ∧ stats.has_negative_feedback = false)) →
      r.effective_sections = r.template.section_order ∧ r.s2_enforced = false) := by
  subst hr
  have htempl : (select_template persona contexts topic purpose stats masked).template =
      registryGet (selectTemplateId contexts topic purpose stats masked) := rfl
  have henf : (select_template persona contexts topic purpose stats masked).s2_enforced =
      ((stats.has_accountability || stats.has_negative_feedback) &&
        !decide (StructureSection.S2_OUR_EFFORT ∈
          (registryGet (selectTemplateId contexts topic purpose stats masked)).section_order)) := rfl
  have heff : (select_template persona contexts topic purpose stats masked).effective_sections =
      (if ((stats.has_accountability || stats.has_negative_feedback) &&
          !decide (StructureSection.S2_OUR_EFFORT ∈
            (registryGet (selectTemplateId contexts topic purpose stats masked)).section_order)) = true
       then insertS2 (registryGet (selectTemplateId contexts topic purpose stats masked)).section_order
       else (registryGet (selectTemplateId contexts topic purpose stats masked)).section_order) := by
    show applySkipRules _ (registryGet (selectTemplateId contexts topic purpose stats masked))
      persona = _
    rw [applySkipRules_registryGet]
  constructor
  · intro hlab hnot
    rw [htempl] at hnot
    have hcond : ((stats.has_accountability || stats.has_negative_feedback) &&
        !decide (StructureSection.S2_OUR_EFFORT ∈
          (registryGet (selectTemplateId contexts topic purpose stats masked)).section_order))
        = true := by
      rcases hlab with h | h <;> simp [h, hnot]
    refine ⟨by rw [henf, hcond], ?_⟩
    rw [htempl, heff, if_pos hcond]
    unfold insertS2
    by_cases h1 : StructureSection.S1_ACKNOWLEDGE ∈
        (registryGet (selectTemplateId contexts topic purpose stats masked)).section_order
    · exact Or.inl ⟨h1, by rw [if_pos h1]⟩
    · refine Or.inr ⟨h1, registry_has_S0 _ (registryGet_mem _), ?_⟩
      rw [if_neg h1, if_pos (registry_has_S0 _ (registryGet_mem _))]
  · intro hsplit
    have hcond : ((stats.has_accountability || stats.has_negative_feedback) &&
        !decide (StructureSection.S2_OUR_EFFORT ∈
          (registryGet (selectTemplateId contexts topic purpose stats masked)).section_order))
        = false := by
      rcases hsplit with h | ⟨h1, h2⟩
      · rw [htempl] at h
        simp [h]
      · rw [h1, h2]
        rfl
    constructor
    · rw [htempl, heff, if_neg (by rw [hcond]; exact Bool.false_ne_true)]
    · rw [henf, hcond]

/-- C7 witness: a concrete selection with NEGATIVE_FEEDBACK on a template
without S2 (feedback context selects T08_FEEDBACK). -/
theorem c7_select_template_s2_enforcement_witness :
    (select_template Persona.BOSS [SituationContext.FEEDBACK] none none
      { green_count := 1, yellow_count := 1, red_count := 0,
        has_accountability := false, has_negative_feedback := true,
        has_emotional := false, has_self_justification := false,
        has_aggression := false } none).s2_enforced = true ∧
    (select_template Persona.BOSS [SituationContext.FEEDBACK] none none
      { green_count := 1, yellow_count := 1, red_count := 0,
        has_accountability := false, has_negative_feedback := true,
        has_emotional := false, has_self_justification := false,
        has_aggression := false } none).effective_sections =
      [.S0_GREETING, .S1_ACKNOWLEDGE, .S2_OUR_EFFORT, .S3_FACTS, .S5_REQUEST,
       .S6_OPTIONS, .S8_CLOSING] := by
  have h := c7_select_template_s2_enforcement Persona.BOSS [SituationContext.FEEDBACK]
    none none
    { green_count := 1, yellow_count := 1, red_count := 0,
      has_accountability := false, has_negative_feedback := true,
      has_emotional := false, has_self_justification := false,
      has_aggression := false } none _ rfl
  have h1 := h.1 (Or.inr rfl) (by decide)
  refine ⟨h1.1, ?_⟩
  rcases h1.2 with ⟨hmem, heq⟩ | ⟨hmem, h0, heq⟩
  · rw [heq]
    decide
  · exact absurd (by decide) hmem

/-- C8 counterexample: the redacted text 바보야 (3 characters) reappears
verbatim in the output — its normalized form is a substring of the
normalized output — yet the rule reports no REDACTED_REENTRY ERROR,
because the code additionally requires the original to have at least 6
characters and its normalized form at least 4. -/
theorem c8_reentry_error_counterexample :
    pyContains (normalizeForReentry "바보야".toList)
      (normalizeForReentry "바보야".toList) = true ∧
    (∀ i ∈ check_redacted_reentry "바보야".toList none
        [("[REDACTED:AGGRESSION_1]".toList, "바보야".toList)],
      ¬(i.type = ValidationIssueType.REDACTED_REENTRY ∧
        i.severity = Severity.ERROR)) := by
  decide

/-- C8 amended: the redacted re-entry rule emits a REDACTED_REENTRY
ERROR whenever a redacted original of at least 6 characters has a
normalized form (Korean syllables, ASCII letters, digits only) of at
least 4 characters that reappears as a substring of the normalized
output; and it emits a REDACTED_REENTRY WARNING whenever at least 2
distinctive Korean content words (length ≥ 3, not stopwords) from a
redacted segment occur in the output (counted with multiplicity, as the
code does). -/
theorem c8_redacted_reentry_rule (final : List Char) (raw : Option (List Char))
    (redaction_map : List (List Char × List Char)) (marker orig : List Char)
    (hmem : (marker, orig) ∈ redaction_map) :
    (6 ≤ orig.length →
      4 ≤ (normalizeForReentry orig).length →
      pyContains (normalizeForReentry final) (normalizeForReentry orig) = true →
      ∃ i ∈ check_redacted_reentry final raw redaction_map,
        i.type = ValidationIssueType.REDACTED_REENTRY ∧ i.severity = Severity.ERROR ∧
        i.matched_text = some marker) ∧
    (2 ≤ (((extractMeaningWords orig).filter
          (fun w => decide (3 ≤ w.length ∧ w ∉ validatorStopwords))).filter
          (fun w => pyContains final w)).length →
      ∃ i ∈ check_redacted_reentry final raw redaction_map,
        i.type = ValidationIssueType.REDACTED_REENTRY ∧ i.severity = Severity.WARNING ∧
        i.matched_text = some marker) := by
  have hne : ¬ redaction_map.isEmpty = true := by
    cases redaction_map with
    | nil => cases hmem
    | cons a r => simp [List.isEmpty]
  constructor
  · intro h6 h4 hcont
    unfold check_redacted_reentry
    rw [if_neg hne]
    refine ⟨{ type := .REDACTED_REENTRY, severity := .ERROR,
              message := "제거된 내용 재유입: \"".toList ++ orig.take 30 ++ "...\"".toList,
              matched_text := some marker }, ?_, rfl, rfl, rfl⟩
    apply List.mem_append_left
    apply List.mem_append_left
    apply List.mem_flatMap.mpr
    refine ⟨(marker, orig), hmem, ?_⟩
    split
    · split
      · exact List.mem_singleton.mpr rfl
      · rename_i hcond
        exact absurd ⟨h4, hcont⟩ hcond
    · rename_i hcond
      exact absurd h6 hcond
  · intro h2
    have h2d : 2 ≤ ((extractMeaningWords orig).filter
        (fun w => decide (3 ≤ w.length ∧ w ∉ validatorStopwords))).length :=
      le_trans h2 (List.length_filter_le _ _)
    unfold check_redacted_reentry
    rw [if_neg hne]
    refine ⟨{ type := .REDACTED_REENTRY, severity := .WARNING,
              message := "제거된 내용 의미적 재유입 의심: \"".toList ++ orig.take 30 ++
                "...\" (키워드 ".toList ++
                (Nat.repr (((extractMeaningWords orig).filter
                  (fun w => decide (3 ≤ w.length ∧ w ∉ validatorStopwords))).filter
                  (fun w => pyContains final w)).length).toList ++
                "개 일치)".toList,
              matched_text := some marker }, ?_, rfl, rfl, rfl⟩
    apply List.mem_append_left
    apply List.mem_append_right
    apply List.mem_flatMap.mpr
    refine ⟨(marker, orig), hmem, ?_⟩
    dsimp only
    rw [if_pos h2d, if_pos h2]
    exact List.mem_singleton.mpr rfl

/-- C8 witness: the amended rule applied at a concrete redaction map and
output containing the redacted text verbatim; both the ERROR and the
WARNING clause fire. -/
theorem c8_redacted_reentry_rule_witness :
    (∃ i ∈ check_redacted_reentry "시스템이 고장났습니다".toList none
        [("[REDACTED:AGGRESSION_1]".toList, "시스템이 고장났습니다".toList)],
      i.type = ValidationIssueType.REDACTED_REENTRY ∧ i.severity = Severity.ERROR ∧
      i.matched_text = some "[REDACTED:AGGRESSION_1]".toList) ∧
    (∃ i ∈ check_redacted_reentry "시스템이 고장났습니다".toList none
        [("[REDACTED:AGGRESSION_1]".toList, "시스템이 고장났습니다".toList)],
      i.type = ValidationIssueType.REDACTED_REENTRY ∧ i.severity = Severity.WARNING ∧
      i.matched_text = some "[REDACTED:AGGRESSION_1]".toList) := by
  have h := c8_redacted_reentry_rule "시스템이 고장났습니다".toList none
    [("[REDACTED:AGGRESSION_1]".toList, "시스템이 고장났습니다".toList)]
    "[REDACTED:AGGRESSION_1]".toList "시스템이 고장났습니다".toList
    (List.mem_singleton.mpr rfl)
  exact ⟨h.1 (by decide) (by decide) (by decide), h.2 (by decide)⟩

/-- C9 witness: the idempotence theorem applied at a concrete input with
the identity in place of the NFC call. -/
theorem c9_normalize_idempotent_witness :
    normalize (fun l => l) (normalize (fun l => l) " a  b ".toList) =
      normalize (fun l => l) " a  b ".toList :=
  c9_normalize_idempotent (fun l => l) (fun _ => rfl) " a  b ".toList

/-! Lemmas about the locked span extractor, leading to C4. -/

/-- Membership in an insertion step. -/
theorem mem_insSorted (z x : _RawMatch) (l : List _RawMatch) :
    z ∈ insSorted x l ↔ z = x ∨ z ∈ l := by
  induction l with
  | nil => simp [insSorted]
  | cons y ys ih =>
    simp only [insSorted]
    split
    · simp only [List.mem_cons, ih]
      tauto
    · simp only [List.mem_cons]

/-- Membership is preserved through the sort fold. -/
theorem mem_sortRaw_foldl (z : _RawMatch) :
    ∀ (l acc : List _RawMatch),
      z ∈ l.foldl (fun a x => insSorted x a) acc → z ∈ l ∨ z ∈ acc := by
  intro l
  induction l with
  | nil => intro acc h; right; exact h
  | cons x xs ih =>
    intro acc h
    rcases ih (insSorted x acc) h with h1 | h2
    · left; exact List.mem_cons_of_mem _ h1
    · rcases (mem_insSorted z x acc).mp h2 with rfl | h3
      · left; exact List.mem_cons_self _ _
      · right; exact h3

/-- Every element of the sorted list comes from the input. -/
theorem mem_sortRaw {z : _RawMatch} {l : List _RawMatch} (h : z ∈ sortRaw l) :
    z ∈ l := by
  rcases mem_sortRaw_foldl z l [] h with h1 | h2
  · exact h1
  · cases h2

/-- The overlap sweep yields matches that are pairwise disjoint (each
kept end at or before the next kept start), all start at or after the
running last end, and all come from the input; only each match having
start at or before its end is needed. -/
theorem resolveOverlapsAux_spec :
    ∀ (ms : List _RawMatch) (lastEnd : Int),
      (∀ m ∈ ms, m.start ≤ m.stop) →
      (resolveOverlapsAux ms lastEnd).Pairwise (fun a b => a.stop ≤ b.start) ∧
      (∀ z ∈ resolveOverlapsAux ms lastEnd, lastEnd ≤ (z.start : Int)) ∧
      (∀ z ∈ resolveOverlapsAux ms lastEnd, z ∈ ms) := by
  intro ms
  induction ms with
  | nil =>
    intro lastEnd _
    refine ⟨List.Pairwise.nil, ?_, ?_⟩ <;> simp [resolveOverlapsAux]
  | cons m rest ih =>
    intro lastEnd h
    have hm : m.start ≤ m.stop := h m (List.mem_cons_self _ _)
    have hrest : ∀ x ∈ rest, x.start ≤ x.stop :=
      fun x hx => h x (List.mem_cons_of_mem _ hx)
    by_cases hge : (m.start : Int) ≥ lastEnd
    · simp only [resolveOverlapsAux, if_pos hge]
      obtain ⟨p, hall, hsub⟩ := ih (m.stop : Int) hrest
      refine ⟨List.Pairwise.cons ?_ p, ?_, ?_⟩
      · intro z hz
        exact_mod_cast hall z hz
      · intro z hz
        rcases List.mem_cons.mp hz with rfl | hz2
        · exact hge
        · have h1 : (m.stop : Int) ≤ (z.start : Int) := hall z hz2
          have h2 : (m.start : Int) ≤ (m.stop : Int) := by exact_mod_cast hm
          exact le_trans hge (le_trans h2 h1)
      · intro z hz
        rcases List.mem_cons.mp hz with rfl | hz2
        · exact List.mem_cons_self _ _
        · exact List.mem_cons_of_mem _ (hsub z hz2)
    · simp only [resolveOverlapsAux, if_neg hge]
      obtain ⟨p, hall, hsub⟩ := ih lastEnd hrest
      exact ⟨p, hall, fun z hz => List.mem_cons_of_mem _ (hsub z hz)⟩

/-- The span-building loop keeps each match's start and end verbatim. -/
theorem assignSpans_forall2 :
    ∀ (ms : List _RawMatch) (cs : List (List Char × Nat)),
      List.Forall₂ (fun (m : _RawMatch) (s : LockedSpan) =>
        s.start_pos = m.start ∧ s.end_pos = m.stop) ms (assignSpans ms cs) := by
  intro ms
  induction ms with
  | nil => intro cs; exact List.Forall₂.nil
  | cons m rest ih =>
    intro cs
    exact List.Forall₂.cons ⟨rfl, rfl⟩ (ih _)

/-- Right membership in a Forall₂ has a related left element. -/
theorem forall2_mem_right {α β : Type} {R : α → β → Prop} :
    ∀ {l : List α} {l2 : List β}, List.Forall₂ R l l2 →
      ∀ b ∈ l2, ∃ a ∈ l, R a b := by
  intro l l2 hf
  induction hf with
  | nil => intro b hb; cases hb
  | cons ha hf ih =>
    intro b hb
    rcases List.mem_cons.mp hb with rfl | hb2
    · exact ⟨_, List.mem_cons_self _ _, ha⟩
    · obtain ⟨a, ha2, hr⟩ := ih b hb2
      exact ⟨a, List.mem_cons_of_mem _ ha2, hr⟩

/-- Pairwise facts transport along a Forall₂ relation. -/
theorem pairwise_of_forall2 {α β : Type} {R : α → β → Prop}
    {P : α → α → Prop} {Q : β → β → Prop}
    (hPQ : ∀ a b a2 b2, R a a2 → R b b2 → P a b → Q a2 b2) :
    ∀ {l : List α} {l2 : List β}, List.Forall₂ R l l2 →
      l.Pairwise P → l2.Pairwise Q := by
  intro l l2 hf
  induction hf with
  | nil => intro _; exact List.Pairwise.nil
  | cons ha hf ih =>
    intro hp
    obtain ⟨hhead, htail⟩ := List.pairwise_cons.mp hp
    refine List.Pairwise.cons ?_ (ih htail)
    intro b2 hb2
    obtain ⟨b, hb, hRb⟩ := forall2_mem_right hf b2 hb2
    exact hPQ _ b _ b2 ha hRb (hhead b hb)

/-- C4: for every input text, the locked spans extracted from the
normalized text are pairwise disjoint (each span ends at or before the
next begins), sorted by start position, and individually well-formed,
provided every raw regex match has its start at or before its end — a
property every `re` match object has.  The overlap resolution embedded
in `extract` is literally the source's sort by (start ascending, length
descending) followed by the left-to-right sweep keeping a match exactly
when its start is at or after the last kept end. -/
theorem c4_extract_spans_disjoint_sorted
    (nfc : List Char → List Char)
    (matchers : List (List Char → List _RawMatch)) (x : List Char)
    (h : ∀ f ∈ matchers, ∀ m ∈ f (normalize nfc x), m.start ≤ m.stop) :
    (extract matchers (normalize nfc x)).Pairwise
      (fun a b => a.end_pos ≤ b.start_pos) ∧
    (extract matchers (normalize nfc x)).Pairwise
      (fun a b => a.start_pos ≤ b.start_pos) ∧
    ∀ s ∈ extract matchers (normalize nfc x), s.start_pos ≤ s.end_pos := by
  rw [extract]
  split
  · exact ⟨List.Pairwise.nil, List.Pairwise.nil, by intro s hs; cases hs⟩
  · have hraws : ∀ m ∈ sortRaw (matchers.flatMap
        (fun f => f (normalize nfc x))), m.start ≤ m.stop := by
      intro m hm
      obtain ⟨f, hf, hmf⟩ := List.mem_flatMap.mp (mem_sortRaw hm)
      exact h f hf m hmf
    obtain ⟨hpair, _, hsub⟩ := resolveOverlapsAux_spec
      (sortRaw (matchers.flatMap (fun f => f (normalize nfc x)))) (-1) hraws
    have hf2 := assignSpans_forall2 (resolve_overlaps
      (sortRaw (matchers.flatMap (fun f => f (normalize nfc x))))) []
    have hdisj : (assignSpans (resolve_overlaps
        (sortRaw (matchers.flatMap (fun f => f (normalize nfc x))))) []).Pairwise
        (fun a b => a.end_pos ≤ b.start_pos) := by
      refine pairwise_of_forall2 ?_ hf2 hpair
      intro a b a2 b2 ha hb hab
      rw [ha.2, hb.1]
      exact hab
    have helem : ∀ s ∈ assignSpans (resolve_overlaps
        (sortRaw (matchers.flatMap (fun f => f (normalize nfc x))))) [],
        s.start_pos ≤ s.end_pos := by
      intro s hs
      obtain ⟨m, hm, hr⟩ := forall2_mem_right hf2 s hs
      rw [hr.1, hr.2]
      exact hraws m (hsub m hm)
    refine ⟨hdisj, ?_, helem⟩
    refine List.Pairwise.imp_of_mem ?_ hdisj
    intro a b hamem _ hab
    exact le_trans (helem a hamem) hab

/-- C4 witness: the theorem applied at the identity for NFC, a single
matcher producing one raw match, and a concrete text; the hypothesis is
discharged by evaluating the matcher. -/
theorem c4_extract_spans_disjoint_sorted_witness :
    (extract [fun t => [⟨0, 2, t.take 2, LockedSpanType.DATE⟩]]
        (normalize (fun l => l) "3월 1일 회의".toList)).Pairwise
      (fun a b => a.end_pos ≤ b.start_pos) ∧
    (extract [fun t => [⟨0, 2, t.take 2, LockedSpanType.DATE⟩]]
        (normalize (fun l => l) "3월 1일 회의".toList)).Pairwise
      (fun a b => a.start_pos ≤ b.start_pos) ∧
    ∀ s ∈ extract [fun t => [⟨0, 2, t.take 2, LockedSpanType.DATE⟩]]
        (normalize (fun l => l) "3월 1일 회의".toList),
      s.start_pos ≤ s.end_pos := by
  apply c4_extract_spans_disjoint_sorted
  intro f hf m hm
  rcases List.mem_singleton.mp hf with rfl
  rcases List.mem_singleton.mp hm with rfl
  exact Nat.zero_le 2

/-! Lemmas about the placeholder parser, leading to C3. -/

/-- takeWhile passes over a block that wholly satisfies the predicate. -/
theorem takeWhile_append_all {p : Char → Bool} :
    ∀ {s t : List Char}, s.all p = true →
      (s ++ t).takeWhile p = s ++ t.takeWhile p := by
  intro s t h
  induction s with
  | nil => rfl
  | cons c cs ih =>
    simp only [List.all_cons, Bool.and_eq_true] at h
    simp [List.takeWhile_cons, h.1, ih h.2]

/-- dropWhile passes over a block that wholly satisfies the predicate. -/
theorem dropWhile_append_all {p : Char → Bool} :
    ∀ {s t : List Char}, s.all p = true →
      (s ++ t).dropWhile p = t.dropWhile p := by
  intro s t h
  induction s with
  | nil => rfl
  | cons c cs ih =>
    simp only [List.all_cons, Bool.and_eq_true] at h
    simp [List.dropWhile_cons, h.1, ih h.2]

/-- An upper-case ASCII letter is not regex whitespace. -/
theorem upper_not_space {c : Char} (h : isUpperAZ c = true) :
    pyIsSpace c = false := by
  simp only [isUpperAZ, decide_eq_true_eq] at h
  simp only [pyIsSpace, decide_eq_false_iff_not]
  omega

/-- A regex whitespace character is not an ASCII digit. -/
theorem space_not_digit {c : Char} (h : pyIsSpace c = true) :
    isDigitAscii c = false := by
  simp only [pyIsSpace, decide_eq_true_eq] at h
  simp only [isDigitAscii, decide_eq_false_iff_not]
  omega

/-- A successful placeholder parse decomposes the text into the matched
prefix — braces, spaces, letters, separator, digits, spaces, braces —
followed by the rest, with the consumed count equal to the prefix
length. -/
theorem parsePH_decomp {l a b : List Char} {n : Nat}
    (h : parsePH l = some (a, b, n)) :
    ∃ sp1 sep sp2 r,
      l = ([lb, lb] ++ sp1 ++ a ++ [sep] ++ b ++ sp2 ++ [rb, rb]) ++ r ∧
      sp1.all pyIsSpace = true ∧ a.all isUpperAZ = true ∧ a ≠ [] ∧
      (sep = '-' ∨ sep = '_') ∧ b.all isDigitAscii = true ∧ b ≠ [] ∧
      sp2.all pyIsSpace = true ∧
      n = sp1.length + a.length + b.length + sp2.length + 5 := by
  match l with
  | [] => simp [parsePH] at h
  | [c] => simp [parsePH] at h
  | c1 :: c2 :: rest =>
    simp only [parsePH] at h
    split at h
    case isTrue hbr =>
      split at h
      case isTrue => cases h
      case isFalse hlne =>
        split at h
        case h_2 => cases h
        case h_1 sep r3 heq1 =>
          split at h
          case isFalse => cases h
          case isTrue hsep =>
            split at h
            case isTrue => cases h
            case isFalse hdne =>
              split at h
              case h_2 => cases h
              case h_1 d1 d2 tail heq2 =>
                split at h
                case isFalse => cases h
                case isTrue hd =>
                  simp only [Option.some.injEq, Prod.mk.injEq] at h
                  obtain ⟨ha, hb, hn⟩ := h
                  obtain ⟨rfl, rfl⟩ := hbr
                  obtain ⟨rfl, rfl⟩ := hd
                  refine ⟨rest.takeWhile pyIsSpace, sep,
                    (r3.dropWhile isDigitAscii).takeWhile pyIsSpace, tail,
                    ?_, ?_, ?_, ?_, hsep, ?_, ?_, ?_, ?_⟩
                  · rw [← ha, ← hb]
                    have s1 : rest =
                        rest.takeWhile pyIsSpace ++ rest.dropWhile pyIsSpace :=
                      (List.takeWhile_append_dropWhile pyIsSpace rest).symm
                    have s2 : rest.dropWhile pyIsSpace =
                        (rest.dropWhile pyIsSpace).takeWhile isUpperAZ ++
                          (sep :: r3) := by
                      conv_lhs => rw [← List.takeWhile_append_dropWhile
                        isUpperAZ (rest.dropWhile pyIsSpace)]
                      rw [heq1]
                    have s3 : r3 =
                        r3.takeWhile isDigitAscii ++ r3.dropWhile isDigitAscii :=
                      (List.takeWhile_append_dropWhile isDigitAscii r3).symm
                    have s4 : r3.dropWhile isDigitAscii =
                        (r3.dropWhile isDigitAscii).takeWhile pyIsSpace ++
                          (rb :: rb :: tail) := by
                      conv_lhs => rw [← List.takeWhile_append_dropWhile
                        pyIsSpace (r3.dropWhile isDigitAscii)]
                      rw [heq2]
                    conv_lhs => rw [s1, s2]
                    conv_lhs => rw [s3]
                    conv_lhs => rw [s4]
                    simp [List.append_assoc]
                  · exact List.all_eq_true.mpr
                      (fun c hc => List.mem_takeWhile_imp hc)
                  · rw [← ha]
                    exact List.all_eq_true.mpr
                      (fun c hc => List.mem_takeWhile_imp hc)
                  · rw [← ha]; exact hlne
                  · rw [← hb]
                    exact List.all_eq_true.mpr
                      (fun c hc => List.mem_takeWhile_imp hc)
                  · rw [← hb]; exact hdne
                  · exact List.all_eq_true.mpr
                      (fun c hc => List.mem_takeWhile_imp hc)
                  · rw [← hn, ← ha, ← hb]
                    omega
    case isFalse => cases h

/-- The parser succeeds on any text beginning with a structured
placeholder, consuming exactly the structured prefix: the disjoint
character classes make the greedy runs stop exactly at the region
boundaries, whatever follows. -/
theorem parsePH_build (sp1 a : List Char) (sep : Char) (b sp2 r : List Char)
    (h1 : sp1.all pyIsSpace = true) (h2 : a.all isUpperAZ = true) (h3 : a ≠ [])
    (h4 : sep = '-' ∨ sep = '_') (h5 : b.all isDigitAscii = true) (h6 : b ≠ [])
    (h7 : sp2.all pyIsSpace = true) :
    parsePH (([lb, lb] ++ sp1 ++ a ++ [sep] ++ b ++ sp2 ++ [rb, rb]) ++ r) =
      some (a, b, sp1.length + a.length + b.length + sp2.length + 5) := by
  obtain ⟨ah, a2, rfl⟩ := List.exists_cons_of_ne_nil h3
  obtain ⟨bh, b2, rfl⟩ := List.exists_cons_of_ne_nil h6
  have hah : isUpperAZ ah = true := by
    have := List.all_eq_true.mp h2 ah (List.mem_cons_self _ _)
    exact this
  have ha2 : a2.all isUpperAZ = true := by
    refine List.all_eq_true.mpr (fun c hc => ?_)
    exact List.all_eq_true.mp h2 c (List.mem_cons_of_mem _ hc)
  have hbh : isDigitAscii bh = true :=
    List.all_eq_true.mp h5 bh (List.mem_cons_self _ _)
  have hb2 : b2.all isDigitAscii = true := by
    refine List.all_eq_true.mpr (fun c hc => ?_)
    exact List.all_eq_true.mp h5 c (List.mem_cons_of_mem _ hc)
  have hsepAZ : isUpperAZ sep = false := by
    rcases h4 with rfl | rfl <;> decide
  have e1 : ((sp1 ++ (ah :: a2) ++ [sep] ++ (bh :: b2) ++ sp2 ++
        [rb, rb]) ++ r).takeWhile pyIsSpace = sp1 := by
    simp only [List.append_assoc, List.cons_append, List.nil_append]
    rw [takeWhile_append_all h1]
    simp [List.takeWhile_cons, upper_not_space hah]
  have e2 : ((sp1 ++ (ah :: a2) ++ [sep] ++ (bh :: b2) ++ sp2 ++
        [rb, rb]) ++ r).dropWhile pyIsSpace =
      ah :: (a2 ++ sep :: (bh :: (b2 ++ sp2 ++ [rb, rb] ++ r))) := by
    simp only [List.append_assoc, List.cons_append, List.nil_append]
    rw [dropWhile_append_all h1]
    simp [List.dropWhile_cons, upper_not_space hah, List.append_assoc]
  have e3 : (ah :: (a2 ++ sep :: (bh :: (b2 ++ sp2 ++ [rb, rb] ++
        r)))).takeWhile isUpperAZ = ah :: a2 := by
    simp only [List.takeWhile_cons, hah, if_true]
    rw [takeWhile_append_all ha2]
    simp [List.takeWhile_cons, hsepAZ]
  have e4 : (ah :: (a2 ++ sep :: (bh :: (b2 ++ sp2 ++ [rb, rb] ++
        r)))).dropWhile isUpperAZ =
      sep :: (bh :: (b2 ++ sp2 ++ [rb, rb] ++ r)) := by
    simp only [List.dropWhile_cons, hah, if_true]
    rw [dropWhile_append_all ha2]
    simp [List.dropWhile_cons, hsepAZ]
  have e5 : (bh :: (b2 ++ sp2 ++ [rb, rb] ++ r)).takeWhile isDigitAscii =
      bh :: b2 := by
    simp only [List.takeWhile_cons, hbh, if_true, List.append_assoc]
    rw [takeWhile_append_all hb2]
    cases sp2 with
    | nil => simp [List.takeWhile_cons, (by decide : isDigitAscii rb = false)]
    | cons c cs =>
      have hc : pyIsSpace c = true := List.all_eq_true.mp h7 c
        (List.mem_cons_self _ _)
      simp [List.takeWhile_cons, space_not_digit hc]
  have e6 : (bh :: (b2 ++ sp2 ++ [rb, rb] ++ r)).dropWhile isDigitAscii =
      sp2 ++ [rb, rb] ++ r := by
    simp only [List.dropWhile_cons, hbh, if_true, List.append_assoc]
    rw [dropWhile_append_all hb2]
    cases sp2 with
    | nil => simp [List.dropWhile_cons, (by decide : isDigitAscii rb = false)]
    | cons c cs =>
      have hc : pyIsSpace c = true := List.all_eq_true.mp h7 c
        (List.mem_cons_self _ _)
      simp [List.dropWhile_cons, space_not_digit hc, List.append_assoc]
  have e7 : (sp2 ++ [rb, rb] ++ r).takeWhile pyIsSpace = sp2 := by
    simp only [List.append_assoc, List.cons_append, List.nil_append]
    rw [takeWhile_append_all h7]
    simp [List.takeWhile_cons, (by decide : pyIsSpace rb = false)]
  have e8 : (sp2 ++ [rb, rb] ++ r).dropWhile pyIsSpace = rb :: rb :: r := by
    simp only [List.append_assoc, List.cons_append, List.nil_append]
    rw [dropWhile_append_all h7]
    simp [List.dropWhile_cons, (by decide : pyIsSpace rb = false)]
  have hshape : ([lb, lb] ++ sp1 ++ (ah :: a2) ++ [sep] ++ (bh :: b2) ++
      sp2 ++ [rb, rb]) ++ r =
      lb :: lb :: ((sp1 ++ (ah :: a2) ++ [sep] ++ (bh :: b2) ++ sp2 ++
        [rb, rb]) ++ r) := by
    simp [List.append_assoc]
  rw [hshape]
  show parsePH (lb :: lb :: _) = _
  simp only [parsePH]
  rw [if_pos (by trivial), e2, e3, e4]
  rw [if_neg (by simp)]
  dsimp only
  rw [if_pos h4, e5]
  rw [if_neg (by simp)]
  rw [e6, e8]
  dsimp only
  rw [if_pos (by trivial), e1, e7]
  simp only [Option.some.injEq, Prod.mk.injEq, List.length_cons]
  refine ⟨by trivial, by trivial, by omega⟩

/-- A successful parse consumes at least 7 and at most all characters. -/
theorem parsePH_min {l a b : List Char} {n : Nat}
    (h : parsePH l = some (a, b, n)) : 7 ≤ n ∧ n ≤ l.length := by
  obtain ⟨sp1, sep, sp2, r, hl, _, _, ha, _, _, hb, _, hn⟩ := parsePH_decomp h
  have hla : 1 ≤ a.length := by
    cases a with
    | nil => exact absurd rfl ha
    | cons _ _ => simp
  have hlb : 1 ≤ b.length := by
    cases b with
    | nil => exact absurd rfl hb
    | cons _ _ => simp
  constructor
  · omega
  · rw [hl]
    simp [List.length_append]
    omega

/-- No consumed character after the opening braces is an open brace. -/
theorem parsePH_no_lb {l a b : List Char} {n : Nat}
    (h : parsePH l = some (a, b, n)) : lb ∉ (l.take n).drop 2 := by
  obtain ⟨sp1, sep, sp2, r, hl, hsp1, ha, _, hsep, hb, _, hsp2, hn⟩ :=
    parsePH_decomp h
  have hlen : ([lb, lb] ++ sp1 ++ a ++ [sep] ++ b ++ sp2 ++ [rb, rb]).length
      = n := by
    simp [List.length_append]
    omega
  rw [hl, List.take_left' hlen]
  intro hmem
  have hmem2 : lb ∈ sp1 ++ a ++ [sep] ++ b ++ sp2 ++ [rb, rb] := by
    simpa [List.append_assoc] using hmem
  simp only [List.mem_append, List.mem_cons, List.mem_singleton] at hmem2
  rcases hmem2 with ((((h1 | h2) | h3) | h4) | h5) | h6
  · have := List.all_eq_true.mp hsp1 lb h1
    exact absurd this (by decide)
  · have := List.all_eq_true.mp ha lb h2
    exact absurd this (by decide)
  · rcases h3 with h3 | h3
    · rcases hsep with rfl | rfl <;> exact absurd h3 (by decide)
    · cases h3
  · have := List.all_eq_true.mp hb lb h4
    exact absurd this (by decide)
  · have := List.all_eq_true.mp hsp2 lb h5
    exact absurd this (by decide)
  · rcases h6 with h6 | h6
    · exact absurd h6 (by decide)
    · rcases h6 with h6 | h6
      · exact absurd h6 (by decide)
      · cases h6

/-- A successful parse is determined by the consumed characters: the
same match happens whatever follows them. -/
theorem parsePH_extend {l a b : List Char} {n : Nat}
    (h : parsePH l = some (a, b, n)) (r2 : List Char) :
    parsePH (l.take n ++ r2) = some (a, b, n) := by
  obtain ⟨sp1, sep, sp2, r, hl, hsp1, ha, hane, hsep, hb, hbne, hsp2, hn⟩ :=
    parsePH_decomp h
  have hlen : ([lb, lb] ++ sp1 ++ a ++ [sep] ++ b ++ sp2 ++ [rb, rb]).length
      = n := by
    simp [List.length_append]
    omega
  rw [hl, List.take_left' hlen, hn]
  exact parsePH_build sp1 a sep b sp2 r2 hsp1 ha hane hsep hb hbne hsp2

/-- The scan of an empty text is empty. -/
theorem subPH_nil (S : List LockedSpan) : ∀ f, subPH S f [] = ([], []) := by
  intro f
  cases f <;> rfl

/-- The scan result does not depend on the fuel once the fuel covers the
text length, since every step consumes at least one character. -/
theorem subPH_fuel (S : List LockedSpan) :
    ∀ f1 f2 l, l.length ≤ f1 → l.length ≤ f2 → subPH S f1 l = subPH S f2 l := by
  intro f1
  induction f1 with
  | zero =>
    intro f2 l h1 _
    have : l = [] := List.eq_nil_of_length_eq_zero (Nat.le_zero.mp h1)
    subst this
    rw [subPH_nil, subPH_nil]
  | succ k ih =>
    intro f2 l h1 h2
    cases l with
    | nil => rw [subPH_nil, subPH_nil]
    | cons c cs =>
      cases f2 with
      | zero => simp at h2
      | succ j =>
        simp only [subPH]
        cases hp : parsePH (c :: cs) with
        | none =>
          dsimp only
          have he := ih j cs (by simpa using Nat.le_of_succ_le_succ h1)
            (by simpa using Nat.le_of_succ_le_succ h2)
          rw [he]
        | some t =>
          obtain ⟨a, b, n⟩ := t
          dsimp only
          have hmin := parsePH_min hp
          have hdl : ((c :: cs).drop n).length ≤ k := by
            simp only [List.length_drop]
            simp only [List.length_cons] at h1 ⊢
            omega
          have hdl2 : ((c :: cs).drop n).length ≤ j := by
            simp only [List.length_drop]
            simp only [List.length_cons] at h2 ⊢
            omega
          have he := ih j ((c :: cs).drop n) hdl hdl2
          cases hm : spanMapGet S (canonicalOf a b) with
          | some span =>
            dsimp only
            rw [he]
          | none =>
            dsimp only
            rw [he]

/-- Unpacking the cleanliness check at a particular tail. -/
theorem cleanFor_elim {S : List LockedSpan} {x : List Char}
    (H : cleanForB S x = true) {j n : Nat} {a b : List Char}
    (hj : j < x.length) (hp : parsePH (x.drop j) = some (a, b, n)) :
    spanMapGet S (canonicalOf a b) = none := by
  have h := List.all_eq_true.mp H j (List.mem_range.mpr hj)
  rw [hp] at h
  simpa using h

/-- find? on a list whose key images are distinct returns the element
itself when keyed by its own image. -/
theorem find_eq_of_nodup :
    ∀ {l : List LockedSpan} {s : LockedSpan}, s ∈ l →
      (l.map (fun t => t.placeholder)).Nodup →
      l.find? (fun t => decide (t.placeholder = s.placeholder)) = some s := by
  intro l
  induction l with
  | nil => intro s hs; cases hs
  | cons h t ih =>
    intro s hs hnd
    simp only [List.map_cons, List.nodup_cons] at hnd
    by_cases hph : h.placeholder = s.placeholder
    · have hhs : h = s := by
        rcases List.mem_cons.mp hs with rfl | hmem
        · rfl
        · exact absurd (hph ▸ List.mem_map_of_mem (fun t => t.placeholder) hmem)
            hnd.1
      rw [List.find?_cons_of_pos _ (by simp [hph])]
      rw [hhs]
    · rw [List.find?_cons_of_neg _ (by simp [hph])]
      rcases List.mem_cons.mp hs with rfl | hmem
      · exact absurd rfl hph
      · exact ih hmem hnd.2

/-- The span map resolves each span's placeholder to that span when the
placeholders are pairwise distinct. -/
theorem spanMapGet_self {S : List LockedSpan} {s : LockedSpan} (hs : s ∈ S)
    (hnd : (S.map (fun t => t.placeholder)).Nodup) :
    spanMapGet S s.placeholder = some s := by
  rw [spanMapGet]
  refine find_eq_of_nodup (List.mem_reverse.mpr hs) ?_
  rw [List.map_reverse]
  exact List.nodup_reverse.mpr hnd

/-- Every character `Nat.toDigitsCore` emits in base 10 is a digit. -/
theorem toDigitsCore_digits :
    ∀ (fuel n : Nat) (ds : List Char),
      (∀ c ∈ ds, isDigitAscii c = true) →
      ∀ c ∈ Nat.toDigitsCore 10 fuel n ds, isDigitAscii c = true := by
  intro fuel
  induction fuel with
  | zero => intro n ds hds; exact hds
  | succ k ih =>
    intro n ds hds c hc
    have hdigit : isDigitAscii (Nat.digitChar (n % 10)) = true := by
      have h10 : n % 10 < 10 := Nat.mod_lt _ (by decide)
      interval_cases h : n % 10 <;> decide
    simp only [Nat.toDigitsCore] at hc
    split at hc
    · rcases List.mem_cons.mp hc with rfl | hmem
      · exact hdigit
      · exact hds c hmem
    · refine ih (n / 10) (Nat.digitChar (n % 10) :: ds) ?_ c hc
      intro d hd
      rcases List.mem_cons.mp hd with rfl | hmem
      · exact hdigit
      · exact hds d hmem

/-- `Nat.toDigitsCore` never returns an empty list when it starts from a
nonempty accumulator. -/
theorem toDigitsCore_ne_nil_of_acc :
    ∀ (fuel n : Nat) (ds : List Char), ds ≠ [] →
      Nat.toDigitsCore 10 fuel n ds ≠ [] := by
  intro fuel
  induction fuel with
  | zero => intro n ds h; exact h
  | succ k ih =>
    intro n ds h
    simp only [Nat.toDigitsCore]
    split
    · simp
    · exact ih (n / 10) _ (by simp)

/-- The decimal rendering of a counter is a nonempty ASCII digit
string. -/
theorem repr_digits (n : Nat) :
    (Nat.repr n).toList.all isDigitAscii = true ∧ (Nat.repr n).toList ≠ [] := by
  have hshow : (Nat.repr n).toList = Nat.toDigitsCore 10 (n + 1) n [] := rfl
  rw [hshow]
  constructor
  · exact List.all_eq_true.mpr
      (toDigitsCore_digits (n + 1) n [] (fun c hc => absurd hc (by simp)))
  · simp only [Nat.toDigitsCore]
    split
    · simp
    · exact toDigitsCore_ne_nil_of_acc n (n / 10) _ (by simp)

/-- Every placeholder type prefix is a nonempty upper-case word. -/
theorem prefixOf_ok (t : LockedSpanType) :
    (placeholderPrefixOf t).all isUpperAZ = true ∧ placeholderPrefixOf t ≠ [] := by
  cases t <;> exact ⟨by decide, by decide⟩

/-- Scanning a clean chunk of the original text followed by either
nothing or a placeholder leaves the chunk unchanged: matches inside the
chunk transfer to tails of `x` and are therefore outside the span map,
and no match can cross from the chunk into the following placeholder
because an open brace can only appear in the first two consumed
positions. -/
theorem subPH_chunk (S : List LockedSpan) (x : List Char)
    (H : cleanForB S x = true) :
    ∀ fuel u v R, u ≤ v → v ≤ x.length →
      (R = [] ∨ ∃ R2, R = lb :: lb :: R2) →
      ((x.drop u).take (v - u)).length + R.length ≤ fuel →
      subPH S fuel ((x.drop u).take (v - u) ++ R) =
        ((x.drop u).take (v - u) ++ (subPH S (fuel - (v - u)) R).1,
          (subPH S (fuel - (v - u)) R).2) := by
  intro fuel
  induction fuel with
  | zero =>
    intro u v R huv hvx hR hlen
    have h1 : ((x.drop u).take (v - u)).length = 0 := by omega
    have h2 : R.length = 0 := by omega
    rw [List.eq_nil_of_length_eq_zero h1, List.eq_nil_of_length_eq_zero h2]
    simp [subPH_nil]
  | succ f ih =>
    intro u v R huv hvx hR hlen
    by_cases hce : v - u = 0
    · rw [hce]
      simp only [List.take_zero, List.nil_append, Nat.sub_zero]
    · obtain ⟨m, hm⟩ : ∃ m, v - u = m + 1 := ⟨v - u - 1, by omega⟩
      have hult : u < x.length := by omega
      obtain ⟨c, t, hxu⟩ : ∃ c d, x.drop u = c :: d := by
        cases hx0 : x.drop u with
        | nil =>
          exfalso
          have h0 : (x.drop u).length = 0 := by rw [hx0]; rfl
          rw [List.length_drop] at h0
          omega
        | cons c d => exact ⟨c, d, rfl⟩
      have htlen : m ≤ t.length := by
        have h0 : (x.drop u).length = t.length + 1 := by rw [hxu]; rfl
        rw [List.length_drop] at h0
        omega
      have hxt : x.drop (u + 1) = t := by
        have h0 : (x.drop u).drop 1 = x.drop (u + 1) := List.drop_drop 1 u x
        rw [hxu] at h0
        simpa using h0.symm
      have hchunk : (x.drop u).take (v - u) = c :: t.take m := by
        rw [hxu, hm, List.take_succ_cons]
      have hclen : (c :: t.take m).length = m + 1 := by
        simp [List.length_take, Nat.min_eq_left htlen]
      rw [hchunk, hm]
      rw [hchunk, hclen] at hlen
      have hTshape : (c :: t.take m) ++ R = c :: (t.take m ++ R) := rfl
      rw [hTshape]
      simp only [subPH]
      cases hp : parsePH (c :: (t.take m ++ R)) with
      | none =>
        dsimp only
        have hmv : v - (u + 1) = m := by omega
        have hrec := ih (u + 1) v R (by omega) hvx hR
          (by rw [hmv, hxt]; simp only [List.length_take]; omega)
        rw [hmv, hxt] at hrec
        rw [hrec]
        have hf : f - m = f + 1 - (m + 1) := by omega
        rw [hf]
        rfl
      | some t0 =>
        obtain ⟨a, b, n⟩ := t0
        dsimp only
        have hmin := parsePH_min hp
        rcases Nat.lt_or_ge (m + 1) n with hgt | hle
        · exfalso
          rcases hR with rfl | ⟨R2, rfl⟩
          · have hTlen : (c :: (t.take m ++ ([] : List Char))).length
                = m + 1 := by
              simp [List.length_take, Nat.min_eq_left htlen]
            rw [hTlen] at hmin
            omega
          · have hnolb := parsePH_no_lb hp
            refine hnolb ?_
            rw [← hTshape]
            obtain ⟨k, hk⟩ : ∃ k, n - (m + 1) = k + 1 := ⟨n - (m + 1) - 1,
              by omega⟩
            have htk : ((c :: t.take m) ++ lb :: lb :: R2).take n =
                (c :: t.take m) ++ lb :: ((lb :: R2).take k) := by
              rw [List.take_append_eq_append_take,
                List.take_of_length_le (by omega), hclen, hk,
                List.take_succ_cons]
            rw [htk]
            cases hmz : m with
            | zero =>
              subst hmz
              simp only [List.take_zero]
              obtain ⟨k2, hk2⟩ : ∃ k2, k = k2 + 1 := ⟨k - 1, by omega⟩
              rw [hk2, List.take_succ_cons]
              simp
            | succ m2 =>
              subst hmz
              cases t with
              | nil => simp at htlen
              | cons d t2 =>
                rw [List.take_succ_cons]
                simp
        · have htak : (c :: (t.take m ++ R)).take n =
              (x.drop u).take n := by
            rw [← hTshape, List.take_append_eq_append_take, hclen,
              Nat.sub_eq_zero_of_le hle, List.take_zero, List.append_nil,
              ← hchunk, List.take_take, Nat.min_eq_left (by omega)]
          have hpx : parsePH (x.drop u) = some (a, b, n) := by
            have h0 := parsePH_extend hp ((x.drop u).drop n)
            rw [htak, List.take_append_drop] at h0
            exact h0
          have hmap : spanMapGet S (canonicalOf a b) = none :=
            cleanFor_elim H hult hpx
          rw [hmap]
          dsimp only
          have hdt : (c :: (t.take m ++ R)).drop n =
              (x.drop (u + n)).take (v - (u + n)) ++ R := by
            rw [← hTshape, List.drop_append_eq_append_drop,
              Nat.sub_eq_zero_of_le (by omega), List.drop_zero]
            congr 1
            rw [hchunk.symm, List.drop_take]
            congr 1
            · rw [Nat.sub_sub]
            · rw [List.drop_drop]
          have hrec := ih (u + n) v R (by omega) hvx hR
            (by simp only [List.length_take, List.length_drop]; omega)
          rw [hdt, hrec]
          have hfr : subPH S (f - (v - (u + n))) R =
              subPH S (f + 1 - (m + 1)) R := by
            refine subPH_fuel S _ _ R ?_ ?_ <;> omega
          rw [hfr]
          rw [htak]
          simp only [Prod.mk.injEq]
          refine ⟨?_, by trivial⟩
          rw [← List.append_assoc]
          congr 1
          have h2 : (x.drop (u + n)).take (v - (u + n)) =
              ((x.drop u).drop n).take (v - u - n) := by
            rw [List.drop_drop]
            congr 1
            omega
          have h3 : (x.drop u).take n =
              ((x.drop u).take (v - u)).take n := by
            rw [List.take_take, Nat.min_eq_left (by omega)]
          rw [h2, ← List.drop_take, h3, List.take_append_drop, hchunk]

/-- A Python slice is a take of a drop. -/
theorem pySlice_eq (x : List Char) (a b : Nat) :
    pySlice x a b = (x.drop a).take (b - a) := by
  rw [pySlice, List.drop_take]

/-- Rejoining a slice with the tail it was cut from. -/
theorem take_drop_join (x : List Char) {a b : Nat} (hab : a ≤ b) :
    (x.drop a).take (b - a) ++ x.drop b = x.drop a := by
  have h1 : x.drop b = (x.drop a).drop (b - a) := by
    rw [List.drop_drop]
    congr 1
    omega
  rw [h1, List.take_append_drop]

/-- Disjoint sorted spans inside the text satisfy the mask loop's
ordering invariant from any admissible starting point. -/
theorem spansOrdered_mk (x : List Char) :
    ∀ (spans : List LockedSpan) (lastEnd : Nat),
      spans.Pairwise (fun s1 s2 => s1.end_pos ≤ s2.start_pos) →
      (∀ s ∈ spans, s.start_pos ≤ s.end_pos ∧ s.end_pos ≤ x.length) →
      lastEnd ≤ headStart x spans →
      spansOrdered x lastEnd spans := by
  intro spans
  induction spans with
  | nil =>
    intro lastEnd _ _ h
    exact h
  | cons s rest ih =>
    intro lastEnd hp hel hhead
    refine ⟨hhead, ?_⟩
    refine ih s.end_pos (List.pairwise_cons.mp hp).2
      (fun u hu => hel u (List.mem_cons_of_mem _ hu)) ?_
    cases rest with
    | nil => exact (hel s (List.mem_cons_self _ _)).2
    | cons s2 r2 =>
      exact (List.pairwise_cons.mp hp).1 s2 (List.mem_cons_self _ _)

/-- The heart of the roundtrip: scanning the masked text with the span
map restores the original from the current position on, restoring every
placeholder in order. -/
theorem subPH_maskAux (S : List LockedSpan) (x : List Char)
    (H : cleanForB S x = true)
    (hnd : (S.map (fun t => t.placeholder)).Nodup)
    (hel : ∀ s ∈ S, s.start_pos ≤ s.end_pos ∧ s.end_pos ≤ x.length ∧
      s.original_text = pySlice x s.start_pos s.end_pos ∧
      s.placeholder = mkPlaceholder (placeholderPrefixOf s.type) s.index) :
    ∀ (spans : List LockedSpan) (lastEnd fuel : Nat),
      (∀ s ∈ spans, s ∈ S) →
      spansOrdered x lastEnd spans →
      (maskAux x spans lastEnd).length ≤ fuel →
      subPH S fuel (maskAux x spans lastEnd) =
        (x.drop lastEnd, spans.map (fun s => s.placeholder)) := by
  intro spans
  induction spans with
  | nil =>
    intro lastEnd fuel hsub hord hfuel
    have hord2 : lastEnd ≤ x.length := hord
    have hslice : maskAux x [] lastEnd =
        (x.drop lastEnd).take (x.length - lastEnd) := by
      rw [maskAux, pySlice_eq]
    rw [hslice] at hfuel ⊢
    have h0 := subPH_chunk S x H fuel lastEnd x.length [] hord2 le_rfl
      (Or.inl rfl) (by simpa using hfuel)
    rw [List.append_nil, subPH_nil] at h0
    rw [h0]
    have hc : (x.drop lastEnd).take (x.length - lastEnd) = x.drop lastEnd :=
      List.take_of_length_le (le_of_eq (List.length_drop _ _))
    rw [hc]
    simp
  | cons s rest ih =>
    intro lastEnd fuel hsub hord hfuel
    have hsS : s ∈ S := hsub s (List.mem_cons_self _ _)
    obtain ⟨hse, hex, hot, hph⟩ := hel s hsS
    have hord1 : lastEnd ≤ s.start_pos := hord.1
    have hord2 : spansOrdered x s.end_pos rest := hord.2
    have hmask : maskAux x (s :: rest) lastEnd =
        (x.drop lastEnd).take (s.start_pos - lastEnd) ++
          (s.placeholder ++ maskAux x rest s.end_pos) := by
      rw [maskAux, pySlice_eq, List.append_assoc]
    rw [hmask] at hfuel ⊢
    obtain ⟨R2, hR2⟩ : ∃ R2, s.placeholder ++ maskAux x rest s.end_pos =
        lb :: lb :: R2 := by
      rw [hph, mkPlaceholder]
      exact ⟨_, rfl⟩
    have hstx : s.start_pos ≤ x.length := le_trans hse hex
    have hchlen : ((x.drop lastEnd).take (s.start_pos - lastEnd)).length =
        s.start_pos - lastEnd := by
      simp only [List.length_take, List.length_drop]
      omega
    rw [List.length_append] at hfuel
    have h0 := subPH_chunk S x H fuel lastEnd s.start_pos
      (s.placeholder ++ maskAux x rest s.end_pos) hord1 hstx
      (Or.inr ⟨R2, hR2⟩) (by omega)
    rw [h0]
    have hpfx := prefixOf_ok s.type
    have hrepr := repr_digits s.index
    have hparse : parsePH (s.placeholder ++ maskAux x rest s.end_pos) =
        some (placeholderPrefixOf s.type, (Nat.repr s.index).toList,
          (placeholderPrefixOf s.type).length +
            (Nat.repr s.index).toList.length + 5) := by
      rw [hph, mkPlaceholder]
      have hb := parsePH_build [] (placeholderPrefixOf s.type) '_'
        (Nat.repr s.index).toList [] (maskAux x rest s.end_pos)
        (by simp) hpfx.1 hpfx.2 (Or.inr rfl) hrepr.1 hrepr.2 (by simp)
      simpa using hb
    have hcanon : canonicalOf (placeholderPrefixOf s.type)
        (Nat.repr s.index).toList = s.placeholder := by
      rw [hph, mkPlaceholder, canonicalOf]
    have hmget : spanMapGet S (canonicalOf (placeholderPrefixOf s.type)
        (Nat.repr s.index).toList) = some s := by
      rw [hcanon]
      exact spanMapGet_self hsS hnd
    have hphlen : s.placeholder.length =
        (placeholderPrefixOf s.type).length +
          (Nat.repr s.index).toList.length + 5 := by
      rw [hph, mkPlaceholder]
      simp [List.length_append]
      omega
    have hRlen : (s.placeholder ++ maskAux x rest s.end_pos).length =
        s.placeholder.length + (maskAux x rest s.end_pos).length :=
      List.length_append _ _
    have hple : 1 ≤ s.placeholder.length := by omega
    have heval : subPH S (fuel - (s.start_pos - lastEnd))
        (s.placeholder ++ maskAux x rest s.end_pos) =
        (s.original_text ++ x.drop s.end_pos,
          s.placeholder :: rest.map (fun u => u.placeholder)) := by
      obtain ⟨g, hg⟩ : ∃ g, fuel - (s.start_pos - lastEnd) = g + 1 :=
        ⟨fuel - (s.start_pos - lastEnd) - 1, by omega⟩
      rw [hg, hR2]
      simp only [subPH]
      rw [← hR2] at *
      rw [hparse]
      dsimp only
      rw [hmget]
      dsimp only
      have hdropn : (s.placeholder ++ maskAux x rest s.end_pos).drop
          ((placeholderPrefixOf s.type).length +
            (Nat.repr s.index).toList.length + 5) =
          maskAux x rest s.end_pos := by
        rw [← hphlen]
        exact List.drop_left _ _
      rw [hdropn]
      have hrec := ih s.end_pos g
        (fun u hu => hsub u (List.mem_cons_of_mem _ hu)) hord2 (by omega)
      rw [hrec, hcanon]
    rw [heval]
    simp only [Prod.mk.injEq, List.map_cons]
    refine ⟨?_, by trivial⟩
    rw [hot, pySlice_eq, take_drop_join x hse, take_drop_join x hord1]

/-- C3 (amended): for every text `x` and extractor-produced span list `S`
(pairwise disjoint, sorted, covering their text, with canonical
placeholders), unmasking the masked text restores `x` exactly PROVIDED
`x` itself contains no placeholder-shaped token whose canonical form is
one of the span placeholders.  Without that proviso the claim is false:
see the counterexample. -/
theorem c3_mask_unmask_roundtrip (x : List Char) (S : List LockedSpan)
    (hS : ExtractorLike x S) (hclean : cleanForB S x = true) :
    (unmask (mask x S) S).text = x := by
  obtain ⟨hpair, hel, hnd⟩ := hS
  by_cases hS0 : S = []
  · subst hS0
    rw [mask, if_pos rfl, unmask, if_pos rfl]
  · rw [mask, if_neg hS0, unmask, if_neg hS0]
    dsimp only
    have hord : spansOrdered x 0 S := spansOrdered_mk x S 0 hpair
      (fun s hs => ⟨(hel s hs).1, (hel s hs).2.1⟩) (Nat.zero_le _)
    have hmain := subPH_maskAux S x hclean hnd hel S 0
      (maskAux x S 0).length (fun s hs => hs) hord le_rfl
    rw [hmain]
    exact List.drop_zero x

/-- C3 witness: the amended roundtrip at a concrete text and its
extracted date span, hypotheses discharged by evaluation. -/
theorem c3_mask_unmask_roundtrip_witness :
    (unmask (mask "3월 1일 회의".toList
        [⟨1, "3월 1일".toList, mkPlaceholder "DATE".toList 1,
          LockedSpanType.DATE, 0, 5⟩])
      [⟨1, "3월 1일".toList, mkPlaceholder "DATE".toList 1,
        LockedSpanType.DATE, 0, 5⟩]).text = "3월 1일 회의".toList := by
  apply c3_mask_unmask_roundtrip
  · exact ⟨by decide, by decide, by decide⟩
  · decide

/-- C3 counterexample: the claim as stated fails when the original text
already contains a span's placeholder verbatim.  On this input the real
pattern bank extracts exactly the one date span (the only other raw
match, the unit-number inside the date, is removed by the overlap
sweep, and nothing matches inside the literal placeholder), yet
unmasking the masked text replaces both placeholder occurrences, so the
roundtrip yields a different text. -/
theorem c3_roundtrip_counterexample :
    ExtractorLike "3월 1일 \x7b\x7bDATE_1\x7d\x7d".toList
      [⟨1, "3월 1일".toList, mkPlaceholder "DATE".toList 1,
        LockedSpanType.DATE, 0, 5⟩] ∧
    (unmask (mask "3월 1일 \x7b\x7bDATE_1\x7d\x7d".toList
        [⟨1, "3월 1일".toList, mkPlaceholder "DATE".toList 1,
          LockedSpanType.DATE, 0, 5⟩])
      [⟨1, "3월 1일".toList, mkPlaceholder "DATE".toList 1,
        LockedSpanType.DATE, 0, 5⟩]).text ≠
      "3월 1일 \x7b\x7bDATE_1\x7d\x7d".toList :=
  ⟨⟨by decide, by decide, by decide⟩, by decide⟩

/-! Lemmas about the segmenter, leading to C5.  First: every pattern hit
consumes forward and stays inside the text. -/

/-- A greedy character run starting inside the text stays inside it. -/
theorem run_len_bound (p : Char → Bool) (text : List Char) (i : Nat)
    (h : i ≤ text.length) :
    i + ((text.drop i).takeWhile p).length ≤ text.length := by
  have h1 := ((text.drop i).takeWhile_sublist p).length_le
  rw [List.length_drop] at h1
  omega

/-- The whitespace-run bound. -/
theorem wsRun_bound (text : List Char) (i : Nat) (h : i ≤ text.length) :
    i + wsRun text i ≤ text.length :=
  run_len_bound pyIsSpace text i h

/-- A position holding a character is inside the text. -/
theorem getElem?_lt {l : List Char} {i : Nat} {c : Char}
    (h : l[i]? = some c) : i < l.length :=
  (List.getElem?_eq_some.mp h).1

/-- A position passing `isSpaceAt` is inside the text. -/
theorem isSpaceAt_lt {text : List Char} {j : Nat}
    (h : isSpaceAt text j = true) : j < text.length := by
  rw [isSpaceAt] at h
  cases hc : text[j]? with
  | none => rw [hc] at h; cases h
  | some c => exact getElem?_lt hc

/-- A position passing `isHangulAt` is inside the text. -/
theorem isHangulAt_lt {text : List Char} {j : Nat}
    (h : isHangulAt text j = true) : j < text.length := by
  rw [isHangulAt] at h
  cases hc : text[j]? with
  | none => rw [hc] at h; cases h
  | some c => exact getElem?_lt hc

/-- Blank-line matches are bounded. -/
theorem hitBlankLine_bound : HitBound hitBlankLine := by
  intro text i e hi h
  rw [hitBlankLine] at h
  split at h
  · simp only [Option.some.injEq] at h
    subst h
    have := run_len_bound (fun c => decide (c = '\n')) text i hi
    constructor <;> omega
  · cases h

/-- `lastNlIdx` returns an index inside the list. -/
theorem lastNlIdx_lt {l : List Char} {k : Nat} (h : lastNlIdx l = some k) :
    k < l.length := by
  rw [lastNlIdx] at h
  cases hf : l.reverse.findIdx? (fun c => c = '\n') with
  | none => rw [hf] at h; cases h
  | some r =>
    rw [hf] at h
    simp only [Option.some.injEq] at h
    subst h
    have hne : l ≠ [] := by
      intro h0
      subst h0
      simp at hf
    have : 1 ≤ l.length := by
      cases l with
      | nil => exact absurd rfl hne
      | cons _ _ => simp
    omega

/-- Separator-core matches are bounded. -/
theorem sepCore_bound {text : List Char} {j e : Nat} (hj : j ≤ text.length)
    (h : sepCore text j = some e) : j ≤ e ∧ e ≤ text.length := by
  rw [sepCore] at h
  dsimp only at h
  split at h
  · cases h
  · have ha : j + ((text.drop j).takeWhile
        (fun c => decide (c = '-' ∨ c = '=' ∨ c = '_'))).length ≤ text.length :=
      run_len_bound _ text j hj
    split at h
    · simp only [Option.some.injEq] at h
      subst h
      constructor <;> omega
    · split at h
      case h_1 k hk =>
        simp only [Option.some.injEq] at h
        subst h
        have hkl := lastNlIdx_lt hk
        simp only [List.length_take, List.length_drop] at hkl
        have hw := wsRun_bound text
          (j + ((text.drop j).takeWhile
            (fun c => decide (c = '-' ∨ c = '=' ∨ c = '_'))).length) (by omega)
        constructor <;> omega
      case h_2 => cases h

/-- Separator matches are bounded. -/
theorem hitSeparator_bound : HitBound hitSeparator := by
  intro text i e hi h
  rw [hitSeparator] at h
  split at h
  case isTrue hc =>
    have hlt : i < text.length := getElem?_lt hc
    have := sepCore_bound (by omega : i + 1 ≤ text.length) h
    constructor <;> omega
  case isFalse =>
    split at h
    · have := sepCore_bound hi h
      exact this
    · cases h

/-- Bullet matches are bounded. -/
theorem hitBullet_bound : HitBound hitBullet := by
  intro text i e hi h
  rw [hitBullet] at h
  split at h
  case isTrue hc =>
    simp only [Option.some.injEq] at h
    subst h
    have := isSpaceAt_lt hc.2.2.2
    constructor <;> omega
  case isFalse => cases h

/-- Numbered-list matches are bounded. -/
theorem hitNumbered_bound (isDig : Char → Bool) :
    HitBound (hitNumbered isDig) := by
  intro text i e hi h
  rw [hitNumbered] at h
  split at h
  case isFalse => cases h
  case isTrue =>
    dsimp only at h
    split at h
    case isTrue hc =>
      simp only [Option.some.injEq] at h
      subst h
      have := isSpaceAt_lt hc.2.2.2
      constructor <;> omega
    case isFalse =>
      split at h
      case h_2 => cases h
      case h_1 c hc =>
        split at h
        case isFalse => cases h
        case isTrue =>
          have hlt : i < text.length := getElem?_lt hc
          split at h
          case h_1 c2 hc2 =>
            have hlt2 : i + 1 < text.length := getElem?_lt hc2
            split at h <;>
              (simp only [Option.some.injEq] at h; subst h;
                constructor <;> omega)
          case h_2 =>
            simp only [Option.some.injEq] at h
            subst h
            constructor <;> omega

/-- Ending-follower matches are bounded. -/
theorem endingFollower_bound {text : List Char} {i e : Nat}
    (hi : i ≤ text.length) (h : endingFollower text i = some e) :
    i ≤ e ∧ e ≤ text.length := by
  rw [endingFollower] at h
  split at h
  · simp only [Option.some.injEq] at h
    subst h
    have := wsRun_bound text i hi
    constructor <;> omega
  · split at h
    case h_2 => cases h
    case h_1 c hc =>
      split at h
      case isFalse => cases h
      case isTrue =>
        simp only [Option.some.injEq] at h
        subst h
        have hlt : i < text.length := getElem?_lt hc
        have := wsRun_bound text (i + 1) (by omega)
        constructor <;> omega

/-- Ending-bank matches are bounded. -/
theorem hitEnding_bound (lits : List (List Char)) :
    HitBound (hitEnding lits) := by
  intro text i e hi h
  rw [hitEnding] at h
  split at h
  · exact endingFollower_bound hi h
  · cases h

/-- Weak-boundary matches are bounded. -/
theorem hitWeak_bound : HitBound hitWeak := by
  intro text i e hi h
  rw [hitWeak] at h
  have hw := wsRun_bound text i hi
  split at h
  · simp only [Option.some.injEq] at h; subst h; constructor <;> omega
  · split at h
    · simp only [Option.some.injEq] at h; subst h; constructor <;> omega
    · split at h
      · simp only [Option.some.injEq] at h; subst h; constructor <;> omega
      · split at h
        · simp only [Option.some.injEq] at h; subst h
          constructor <;> omega
        · split at h
          · simp only [Option.some.injEq] at h; subst h
            constructor <;> omega
          · cases h

/-- Comma matches are bounded. -/
theorem hitComma_bound : HitBound hitComma := by
  intro text i e hi h
  rw [hitComma] at h
  split at h
  case isTrue hc =>
    simp only [Option.some.injEq] at h
    subst h
    have hlt : i < text.length := getElem?_lt hc
    have := wsRun_bound text (i + 1) (by omega)
    constructor <;> omega
  case isFalse => cases h

/-- Delimiter matches are bounded. -/
theorem hitDelim_bound : HitBound hitDelim := by
  intro text i e hi h
  rw [hitDelim] at h
  split at h
  case isTrue hc =>
    simp only [Option.some.injEq] at h
    subst h
    have hlt : i < text.length := by
      rcases hc with hc | hc | hc <;> exact getElem?_lt hc
    have := wsRun_bound text (i + 1) (by omega)
    constructor <;> omega
  case isFalse => cases h

/-- Parallel-go matches are bounded. -/
theorem hitParallelGo_bound : HitBound hitParallelGo := by
  intro text i e hi h
  rw [hitParallelGo] at h
  split at h
  case h_2 => cases h
  case h_1 p hp =>
    split at h
    case isFalse => cases h
    case isTrue hc =>
      simp only [Option.some.injEq] at h
      subst h
      have := isHangulAt_lt hc.2.2.2.2
      constructor <;> omega

/-- Discourse-marker split positions are bounded. -/
theorem hitDiscourse_bound : HitBound hitDiscourse := by
  intro text i e hi h
  rw [hitDiscourse] at h
  split at h
  · simp only [Option.some.injEq] at h
    subst h
    exact ⟨le_rfl, hi⟩
  · cases h

/-- The bump-along scanner yields bounded matches in strictly advancing
order: every match starts at or after the scan position and ends at or
before every later match's start. -/
theorem finditerGo_spec (hit : List Char → Nat → Option Nat)
    (hb : HitBound hit) (text : List Char) :
    ∀ fuel i,
      (∀ p ∈ finditerGo hit text fuel i,
        i ≤ p.1 ∧ p.1 ≤ p.2 ∧ p.2 ≤ text.length) ∧
      List.Pairwise (fun p q => p.2 ≤ q.1) (finditerGo hit text fuel i) := by
  intro fuel
  induction fuel with
  | zero =>
    intro i
    constructor
    · intro p hp; cases hp
    · exact List.Pairwise.nil
  | succ f ih =>
    intro i
    rw [finditerGo]
    split
    case isTrue hi =>
      cases hh : hit text i with
      | none =>
        obtain ⟨hB, hP⟩ := ih (i + 1)
        refine ⟨fun p hp => ?_, hP⟩
        have := hB p hp
        exact ⟨by omega, this.2.1, this.2.2⟩
      | some e =>
        have hbe := hb text i e hi hh
        obtain ⟨hB, hP⟩ := ih (if i < e then e else i + 1)
        have hnext : i ≤ (if i < e then e else i + 1) ∧
            e ≤ (if i < e then e else i + 1) := by
          split <;> omega
        constructor
        · intro p hp
          rcases List.mem_cons.mp hp with rfl | hp2
          · exact ⟨le_rfl, hbe.1, hbe.2⟩
          · have := hB p hp2
            exact ⟨by omega, this.2.1, this.2.2⟩
        · refine List.Pairwise.cons ?_ hP
          intro q hq
          have := (hB q hq).1
          omega
    case isFalse =>
      constructor
      · intro p hp; cases hp
      · exact List.Pairwise.nil

/-- `finditer` matches are well-formed, bounded, and ordered. -/
theorem finditer_spec (hit : List Char → Nat → Option Nat)
    (hb : HitBound hit) (text : List Char) :
    (∀ p ∈ finditer hit text, p.1 ≤ p.2 ∧ p.2 ≤ text.length) ∧
    List.Pairwise (fun p q => p.2 ≤ q.1) (finditer hit text) := by
  obtain ⟨hB, hP⟩ := finditerGo_spec hit hb text (text.length + 1) 0
  exact ⟨fun p hp => ⟨(hB p hp).2.1, (hB p hp).2.2⟩, hP⟩

/-- dropWhile is a drop by the takeWhile length. -/
theorem dropWhile_eq_drop (p : Char → Bool) (l : List Char) :
    l.dropWhile p = l.drop (l.takeWhile p).length := by
  induction l with
  | nil => rfl
  | cons c cs ih =>
    by_cases h : p c <;>
      simp [List.dropWhile_cons, List.takeWhile_cons, h, ih]

/-- The stripped text occurs inside the original at the
leading-whitespace offset. -/
theorem pyStrip_occurs (l : List Char) :
    (pyStrip l).isPrefixOf (l.drop (l.takeWhile pyIsSpace).length) = true := by
  rw [← dropWhile_eq_drop]
  refine List.isPrefixOf_iff_prefix.mpr ?_
  show List.rdropWhile pyIsSpace (l.dropWhile pyIsSpace) <+: _
  exact List.rdropWhile_prefix _ _

/-- The stripped text fits between the leading whitespace and the end. -/
theorem pyStrip_length_le (l : List Char) :
    (l.takeWhile pyIsSpace).length + (pyStrip l).length ≤ l.length := by
  have h1 : (pyStrip l).length ≤ (l.dropWhile pyIsSpace).length := by
    have h2 : pyStrip l <+: l.dropWhile pyIsSpace :=
      List.rdropWhile_prefix _ _
    exact h2.length_le
  rw [dropWhile_eq_drop, List.length_drop] at h1
  have h3 := (l.takeWhile_sublist pyIsSpace).length_le
  omega

/-- The search loop of `findSub` finds the first occurrence at or after
the start, hence one at or before any known occurrence. -/
theorem findSubGo_spec (parent sub : List Char) (hs : sub ≠ []) :
    ∀ fuel idx q, idx ≤ q → q + sub.length ≤ parent.length →
      sub.isPrefixOf (parent.drop q) = true →
      q + 1 ≤ idx + fuel →
      ∃ p, findSubGo parent sub fuel idx = some p ∧ idx ≤ p ∧ p ≤ q ∧
        sub.isPrefixOf (parent.drop p) = true := by
  intro fuel
  induction fuel with
  | zero =>
    intro idx q h1 _ _ h4
    omega
  | succ f ih =>
    intro idx q h1 h2 h3 h4
    rw [findSubGo]
    split
    case isTrue hp => exact ⟨idx, rfl, le_rfl, h1, hp⟩
    case isFalse hp =>
      have hne : idx ≠ q := fun h0 => hp (h0 ▸ h3)
      have hq1 : 1 ≤ sub.length := by
        cases sub with
        | nil => exact absurd rfl hs
        | cons _ _ => simp
      have hidx : idx < parent.length := by omega
      rw [if_pos hidx]
      obtain ⟨p, h5, h6, h7, h8⟩ := ih (idx + 1) q (by omega) h2 h3 (by omega)
      exact ⟨p, h5, by omega, h7, h8⟩

/-- `_find_substring_start` returns a genuine occurrence at or after the
search start and at or before any known occurrence. -/
theorem findSub_spec (parent : List Char) {sub : List Char} (hs : sub ≠ [])
    (sf q : Nat) (h1 : sf ≤ q) (h2 : q + sub.length ≤ parent.length)
    (h3 : sub.isPrefixOf (parent.drop q) = true) :
    sf ≤ findSub parent sf sub ∧ findSub parent sf sub ≤ q ∧
      sub.isPrefixOf (parent.drop (findSub parent sf sub)) = true := by
  obtain ⟨p, h5, h6, h7, h8⟩ := findSubGo_spec parent sub hs
    (parent.length + 1) sf q h1 h2 h3 (by omega)
  rw [findSub, h5]
  exact ⟨h6, h7, h8⟩

/-- A prefix of a tail is the corresponding slice. -/
theorem prefixOf_slice {parent sub : List Char} {p : Nat}
    (h : sub.isPrefixOf (parent.drop p) = true) :
    sub = pySlice parent p (p + sub.length) := by
  obtain ⟨t, ht⟩ := List.isPrefixOf_iff_prefix.mp h
  rw [pySlice_eq]
  have h0 : p + sub.length - p = sub.length := by omega
  rw [h0, ← ht, List.take_left]

/-- A slice of a slice is a slice. -/
theorem pySlice_nest (M : List Char) {a b p len : Nat}
    (h : a + p + len ≤ b) :
    pySlice (pySlice M a b) p (p + len) = pySlice M (a + p) (a + p + len) := by
  rw [pySlice_eq, pySlice_eq, pySlice_eq]
  have h0 : p + len - p = len := by omega
  have h1 : a + p + len - (a + p) = len := by omega
  rw [h0, h1, List.drop_take, List.drop_drop, List.take_take]
  congr 1
  omega

/-- Consecutive slices concatenate. -/
theorem pySlice_append (M : List Char) {a b c : Nat} (h1 : a ≤ b)
    (h2 : b ≤ c) :
    pySlice M a c = pySlice M a b ++ pySlice M b c := by
  rw [pySlice_eq, pySlice_eq, pySlice_eq]
  have h3 : c - a = (b - a) + (c - b) := by omega
  rw [h3, List.take_add, List.drop_drop]
  have h4 : a + (b - a) = b := by omega
  rw [h4]

/-- Length of an in-bounds slice. -/
theorem pySlice_length (M : List Char) {a b : Nat} (h : b ≤ M.length) :
    (pySlice M a b).length = b - a := by
  rw [pySlice]
  simp only [List.length_drop, List.length_take]
  omega

/-- A unit satisfying the stage invariant has its stop equal to start
plus text length, with start strictly below stop. -/
theorem preU_span {M : List Char} {u : SplitUnit} (h : preU M u) :
    u.start < u.stop ∧ u.stop = u.start + u.text.length := by
  obtain ⟨hne, hstop, htext⟩ := h
  have hlen : u.text.length = u.stop - u.start := by
    rw [htext, pySlice_length M hstop]
  have h1 : 1 ≤ u.text.length := by
    cases h0 : u.text with
    | nil => exact absurd h0 hne
    | cons _ _ => simp [h0]
  constructor <;> omega

/-- Pairwise facts lift through flatMap when related parents give
related children. -/
theorem pairwise_flatMap_mem {β γ : Type} {R : β → β → Prop}
    {S : γ → γ → Prop} (f : β → List γ) :
    ∀ {l : List β}, List.Pairwise R l →
      (∀ g ∈ l, List.Pairwise S (f g)) →
      (∀ g ∈ l, ∀ h2 ∈ l, R g h2 → ∀ a ∈ f g, ∀ b ∈ f h2, S a b) →
      List.Pairwise S (l.flatMap f) := by
  intro l
  induction l with
  | nil => intro _ _ _; exact List.Pairwise.nil
  | cons g rest ih =>
    intro hp hall hc
    rw [List.flatMap_cons, List.pairwise_append]
    obtain ⟨hgh, hrest⟩ := List.pairwise_cons.mp hp
    refine ⟨hall g (List.mem_cons_self _ _),
      ih hrest (fun h hh => hall h (List.mem_cons_of_mem _ hh))
        (fun a ha b hb hr => hc a (List.mem_cons_of_mem _ ha) b
          (List.mem_cons_of_mem _ hb) hr), ?_⟩
    intro a ha b hb
    obtain ⟨h2, hh2, hb2⟩ := List.mem_flatMap.mp hb
    exact hc g (List.mem_cons_self _ _) h2 (List.mem_cons_of_mem _ hh2)
      (hgh h2 hh2) a ha b hb2

/-- A piece occurring inside a slice-exact text is itself the
corresponding slice of the underlying text. -/
theorem slice_in_M (M text : List Char) (ustart : Nat)
    (htext : text = pySlice M ustart (ustart + text.length))
    {sub : List Char} {p : Nat}
    (hpre : sub.isPrefixOf (text.drop p) = true)
    (hbound : p + sub.length ≤ text.length) :
    sub = pySlice M (ustart + p) (ustart + p + sub.length) := by
  obtain ⟨n, hn⟩ : ∃ n, sub.length = n := ⟨_, rfl⟩
  rw [hn] at hbound ⊢
  have h0 := prefixOf_slice hpre
  rw [hn] at h0
  conv_lhs => rw [h0]
  conv_lhs => rw [htext]
  exact pySlice_nest M (by omega)

/-- The emission loop produces disjoint, exactly-sliced, nonempty units
between the running previous end and the final one. -/
theorem emitLoop_spec (M text : List Char) (ustart : Nat) (conf : Rat)
    (htext : text = pySlice M ustart (ustart + text.length)) :
    ∀ pts prev,
      (∀ p ∈ pts, p.1 ≤ p.2 ∧ p.2 ≤ text.length) →
      List.Pairwise (fun p q => p.2 ≤ q.1) pts →
      prev ≤ text.length →
      (∀ p ∈ pts, prev ≤ p.1) →
      prev ≤ (emitLoop text ustart conf pts prev).2 ∧
      (emitLoop text ustart conf pts prev).2 ≤ text.length ∧
      List.Pairwise (fun a b => a.stop ≤ b.start)
        (emitLoop text ustart conf pts prev).1 ∧
      ∀ c ∈ (emitLoop text ustart conf pts prev).1,
        ustart + prev ≤ c.start ∧
        c.stop ≤ ustart + (emitLoop text ustart conf pts prev).2 ∧
        c.text ≠ [] ∧ c.text = pySlice M c.start c.stop := by
  intro pts
  induction pts with
  | nil =>
    intro prev _ _ h3 _
    refine ⟨le_rfl, h3, List.Pairwise.nil, ?_⟩
    intro c hc
    cases hc
  | cons pt rest ih =>
    obtain ⟨s, e⟩ := pt
    intro prev h1 h2 h3 h4
    have hse : s ≤ e ∧ e ≤ text.length := h1 (s, e) (List.mem_cons_self _ _)
    have hprevs : prev ≤ s := h4 (s, e) (List.mem_cons_self _ _)
    have hrest1 : ∀ p ∈ rest, p.1 ≤ p.2 ∧ p.2 ≤ text.length :=
      fun p hp => h1 p (List.mem_cons_of_mem _ hp)
    have hrest4 : ∀ p ∈ rest, e ≤ p.1 := (List.pairwise_cons.mp h2).1
    have ihh := ih e hrest1 (List.pairwise_cons.mp h2).2 hse.2 hrest4
    rw [emitLoop]
    dsimp only
    split
    case isTrue hsub =>
      refine ⟨by omega, ihh.2.1, ihh.2.2.1, ?_⟩
      intro c hc
      have := ihh.2.2.2 c hc
      exact ⟨by omega, this.2.1, this.2.2⟩
    case isFalse hsub =>
      -- the stripped piece occurs inside [prev, s)
      have hslicelen : (pySlice text prev s).length ≤ s - prev := by
        rw [pySlice]
        simp only [List.length_drop, List.length_take]
        omega
      have hocc0 := pyStrip_occurs (pySlice text prev s)
      have hlen0 := pyStrip_length_le (pySlice text prev s)
      have hdropdrop : (pySlice text prev s).drop
          (((pySlice text prev s).takeWhile pyIsSpace).length) =
          (text.take s).drop
            (prev + ((pySlice text prev s).takeWhile pyIsSpace).length) := by
        rw [pySlice, List.drop_drop]
      rw [hdropdrop] at hocc0
      have htransfer : (pyStrip (pySlice text prev s)).isPrefixOf
          (text.drop
            (prev + ((pySlice text prev s).takeWhile pyIsSpace).length))
          = true := by
        have hpfx := List.isPrefixOf_iff_prefix.mp hocc0
        refine List.isPrefixOf_iff_prefix.mpr ?_
        refine hpfx.trans ?_
        rw [List.drop_take]
        exact List.take_prefix _ _
      have hq : prev + ((pySlice text prev s).takeWhile pyIsSpace).length +
          (pyStrip (pySlice text prev s)).length ≤ s := by omega
      have harg1 : prev ≤ prev +
          ((pySlice text prev s).takeWhile pyIsSpace).length :=
        Nat.le_add_right _ _
      have harg2 : prev + ((pySlice text prev s).takeWhile pyIsSpace).length +
          (pyStrip (pySlice text prev s)).length ≤ text.length := by omega
      obtain ⟨hp1, hp2, hp3⟩ := findSub_spec text hsub prev
        (prev + ((pySlice text prev s).takeWhile pyIsSpace).length)
        harg1 harg2 htransfer
      have hpend : findSub text prev (pyStrip (pySlice text prev s)) +
          (pyStrip (pySlice text prev s)).length ≤ s := by omega
      have hexact : pyStrip (pySlice text prev s) =
          pySlice M (ustart + findSub text prev (pyStrip (pySlice text prev s)))
            (ustart + findSub text prev (pyStrip (pySlice text prev s)) +
              (pyStrip (pySlice text prev s)).length) :=
        slice_in_M M text ustart htext hp3 (by omega)
      refine ⟨by omega, ihh.2.1, ?_, ?_⟩
      · refine List.Pairwise.cons ?_ ihh.2.2.1
        intro b hb
        have := (ihh.2.2.2 b hb).1
        dsimp only
        omega
      · intro c hc
        rcases List.mem_cons.mp hc with rfl | hc2
        · refine ⟨by dsimp only; omega, ?_, hsub, hexact⟩
          dsimp only
          have : e ≤ (emitLoop text ustart conf rest e).2 := ihh.1
          omega
        · have := ihh.2.2.2 c hc2
          exact ⟨by omega, this.2.1, this.2.2⟩

/-- The tail emission produces at most one disjoint, exactly-sliced,
nonempty unit after the final previous end. -/
theorem tailUnit_spec (M text : List Char) (ustart : Nat) (conf : Rat)
    (htext : text = pySlice M ustart (ustart + text.length))
    (prev : Nat) (hprev : prev ≤ text.length) :
    ∀ c ∈ tailUnit text ustart conf prev,
      ustart + prev ≤ c.start ∧ c.stop ≤ ustart + text.length ∧
      c.text ≠ [] ∧ c.text = pySlice M c.start c.stop := by
  intro c hc
  rw [tailUnit] at hc
  dsimp only at hc
  split at hc
  · cases hc
  case isFalse hsub =>
    have hocc0 := pyStrip_occurs (text.drop prev)
    have hlen0 := pyStrip_length_le (text.drop prev)
    rw [List.drop_drop] at hocc0
    have hdl : (text.drop prev).length = text.length - prev :=
      List.length_drop _ _
    have hq : prev + ((text.drop prev).takeWhile pyIsSpace).length +
        (pyStrip (text.drop prev)).length ≤ text.length := by omega
    have harg1 : prev ≤ prev +
        ((text.drop prev).takeWhile pyIsSpace).length :=
      Nat.le_add_right _ _
    have harg2 : prev + ((text.drop prev).takeWhile pyIsSpace).length +
        (pyStrip (text.drop prev)).length ≤ text.length := hq
    obtain ⟨hp1, hp2, hp3⟩ := findSub_spec text hsub prev
      (prev + ((text.drop prev).takeWhile pyIsSpace).length)
      harg1 harg2 hocc0
    have hexact : pyStrip (text.drop prev) =
        pySlice M (ustart + findSub text prev (pyStrip (text.drop prev)))
          (ustart + findSub text prev (pyStrip (text.drop prev)) +
            (pyStrip (text.drop prev)).length) :=
      slice_in_M M text ustart htext hp3 (by omega)
    rcases List.mem_singleton.mp hc with rfl
    refine ⟨by dsimp only; omega, by dsimp only; omega, hsub, hexact⟩

/-- A slice-exact unit's text is the slice at start of its own length. -/
theorem preU_htext {M : List Char} {u : SplitUnit} (h : preU M u) :
    u.text = pySlice M u.start (u.start + u.text.length) := by
  rw [← (preU_span h).2]
  exact h.2.2

/-- The common split-emission body (pieces plus tail) yields disjoint
children inside the parent that keep the stage invariant. -/
theorem split_body_ok (M : List Char) (u : SplitUnit) (hu : preU M u)
    (conf : Rat) (pts : List (Nat × Nat))
    (hb : ∀ p ∈ pts, p.1 ≤ p.2 ∧ p.2 ≤ u.text.length)
    (hp : List.Pairwise (fun p q => p.2 ≤ q.1) pts) :
    List.Pairwise (fun a b => a.stop ≤ b.start)
      ((emitLoop u.text u.start conf pts 0).1 ++
        tailUnit u.text u.start conf (emitLoop u.text u.start conf pts 0).2) ∧
    ∀ c ∈ (emitLoop u.text u.start conf pts 0).1 ++
        tailUnit u.text u.start conf (emitLoop u.text u.start conf pts 0).2,
      u.start ≤ c.start ∧ c.stop ≤ u.stop ∧ preU M c := by
  have htext := preU_htext hu
  have hspan := preU_span hu
  have hMstop : u.stop ≤ M.length := hu.2.1
  obtain ⟨h1, h2, h3, h4⟩ := emitLoop_spec M u.text u.start conf htext pts 0
    hb hp (Nat.zero_le _) (fun p _ => Nat.zero_le _)
  have htail := tailUnit_spec M u.text u.start conf htext
    (emitLoop u.text u.start conf pts 0).2 h2
  constructor
  · rw [List.pairwise_append]
    refine ⟨h3, ?_, ?_⟩
    · rw [tailUnit]
      dsimp only
      split
      · exact List.Pairwise.nil
      · simp
    · intro a ha b hb2
      have hA := h4 a ha
      have hB := htail b hb2
      omega
  · intro c hc
    rcases List.mem_append.mp hc with hc1 | hc2
    · obtain ⟨hcs, hcst, hcne, hcex⟩ := h4 c hc1
      exact ⟨by omega, by omega, hcne, by omega, hcex⟩
    · obtain ⟨hcs, hcst, hcne, hcex⟩ := htail c hc2
      exact ⟨by omega, by omega, hcne, by omega, hcex⟩

/-- Any stage whose per-unit splitter keeps children disjoint, inside
the parent, and slice-exact preserves the stage invariant over lists. -/
theorem stage_lift (M : List Char) (f : SplitUnit → List SplitUnit)
    (hf : ∀ u, preU M u →
      List.Pairwise (fun a b => a.stop ≤ b.start) (f u) ∧
      ∀ c ∈ f u, u.start ≤ c.start ∧ c.stop ≤ u.stop ∧ preU M c) :
    ∀ us, List.Pairwise (fun a b => a.stop ≤ b.start) us →
      (∀ u ∈ us, preU M u) →
      List.Pairwise (fun a b => a.stop ≤ b.start) (us.flatMap f) ∧
      ∀ c ∈ us.flatMap f, preU M c := by
  intro us hp hall
  constructor
  · refine pairwise_flatMap_mem f hp (fun g hg => (hf g (hall g hg)).1) ?_
    intro g hg h2 hh2 hr a ha b hb
    have hA := (hf g (hall g hg)).2 a ha
    have hB := (hf h2 (hall h2 hh2)).2 b hb
    omega
  · intro c hc
    obtain ⟨u, hu, hcu⟩ := List.mem_flatMap.mp hc
    exact ((hf u (hall u hu)).2 c hcu).2.2

/-- The trivial children facts for a pass-through unit. -/
theorem passthrough_ok (M : List Char) (u : SplitUnit) (hu : preU M u) :
    List.Pairwise (fun a b => a.stop ≤ b.start) [u] ∧
    ∀ c ∈ [u], u.start ≤ c.start ∧ c.stop ≤ u.stop ∧ preU M c := by
  constructor
  · simp
  · intro c hc
    rcases List.mem_singleton.mp hc with rfl
    exact ⟨le_rfl, le_rfl, hu⟩

/-- The filtered finditer matches of a bounded hit are bounded and
ordered. -/
theorem filtered_finditer_ok {hit : List Char → Nat → Option Nat}
    (hb : HitBound hit) (text : List Char)
    (pred : Nat × Nat → Bool) :
    (∀ p ∈ (finditer hit text).filter pred,
      p.1 ≤ p.2 ∧ p.2 ≤ text.length) ∧
    List.Pairwise (fun p q => p.2 ≤ q.1)
      ((finditer hit text).filter pred) := by
  obtain ⟨hB, hP⟩ := finditer_spec hit hb text
  exact ⟨fun p hp => hB p (List.mem_of_mem_filter hp),
    hP.sublist (List.filter_sublist _)⟩

/-- `_apply_split_pattern` children facts for one unit. -/
theorem applySplitPatternU_ok (M : List Char)
    {hit : List Char → Nat → Option Nat} (hb : HitBound hit)
    (ranges : List ProtectedRange) (conf : Rat) (strongB : Bool)
    (u : SplitUnit) (hu : preU M u) :
    List.Pairwise (fun a b => a.stop ≤ b.start)
      (applySplitPatternU hit ranges conf strongB u) ∧
    ∀ c ∈ applySplitPatternU hit ranges conf strongB u,
      u.start ≤ c.start ∧ c.stop ≤ u.stop ∧ preU M c := by
  rw [applySplitPatternU]
  dsimp only
  split
  · exact passthrough_ok M u hu
  · obtain ⟨hmb, hmp⟩ := filtered_finditer_ok hb u.text
      (fun p => !(isInProtected (u.start + p.1) ranges strongB))
    split
    · exact passthrough_ok M u hu
    · exact split_body_ok M u hu _ _ hmb hmp

/-- The connective filter selects a sublist of the matches. -/
theorem selectEndingPoints_sublist (text : List Char) :
    ∀ ms lastEnd,
      List.Sublist (selectEndingPoints text ms lastEnd) ms := by
  intro ms
  induction ms with
  | nil =>
    intro lastEnd
    rw [selectEndingPoints]
  | cons pt rest ih =>
    obtain ⟨s, e⟩ := pt
    intro lastEnd
    rw [selectEndingPoints]
    split
    · exact List.Sublist.cons _ (ih lastEnd)
    · exact List.Sublist.cons₂ _ (ih e)

/-- `_apply_split_pattern_with_connective_filter` children facts for one
unit. -/
theorem applyWithFilterU_ok (M : List Char) (lits : List (List Char))
    (ranges : List ProtectedRange) (conf : Rat)
    (u : SplitUnit) (hu : preU M u) :
    List.Pairwise (fun a b => a.stop ≤ b.start)
      (applyWithFilterU lits ranges conf u) ∧
    ∀ c ∈ applyWithFilterU lits ranges conf u,
      u.start ≤ c.start ∧ c.stop ≤ u.stop ∧ preU M c := by
  rw [applyWithFilterU]
  dsimp only
  split
  · exact passthrough_ok M u hu
  · obtain ⟨hmb, hmp⟩ := filtered_finditer_ok (hitEnding_bound lits) u.text
      (fun p => !(isInProtected (u.start + p.1) ranges false))
    have hsel := selectEndingPoints_sublist u.text
      (((finditer (hitEnding lits) u.text)).filter
        (fun p => !(isInProtected (u.start + p.1) ranges false))) 0
    have hpb : ∀ p ∈ selectEndingPoints u.text
        (((finditer (hitEnding lits) u.text)).filter
          (fun p => !(isInProtected (u.start + p.1) ranges false))) 0,
        p.1 ≤ p.2 ∧ p.2 ≤ u.text.length :=
      fun p hp => hmb p (hsel.subset hp)
    have hpp := hmp.sublist hsel
    split
    · exact passthrough_ok M u hu
    · exact split_body_ok M u hu _ _ hpb hpp

/-- `_try_split_by_delimiter` children facts on success. -/
theorem tryDelimSplit_ok (M : List Char)
    {hit : List Char → Nat → Option Nat} (hb : HitBound hit)
    (ranges : List ProtectedRange) (u : SplitUnit) (hu : preU M u)
    {ps : List SplitUnit} (h : tryDelimSplit ranges u hit = some ps) :
    List.Pairwise (fun a b => a.stop ≤ b.start) ps ∧
    ∀ c ∈ ps, u.start ≤ c.start ∧ c.stop ≤ u.stop ∧ preU M c := by
  rw [tryDelimSplit] at h
  dsimp only at h
  split at h
  · cases h
  · obtain ⟨hmb, hmp⟩ := filtered_finditer_ok hb u.text
      (fun p => !(isInProtected (u.start + p.1) ranges false))
    split at h
    · cases h
    · split at h
      · cases h
      · simp only [Option.some.injEq] at h
        subst h
        exact split_body_ok M u hu _ _ hmb hmp

/-- `_split_enumerations` children facts for one unit. -/
theorem splitEnumerationsU_ok (M : List Char)
    (ranges : List ProtectedRange) (enumMin : Nat)
    (u : SplitUnit) (hu : preU M u) :
    List.Pairwise (fun a b => a.stop ≤ b.start)
      (splitEnumerationsU ranges enumMin u) ∧
    ∀ c ∈ splitEnumerationsU ranges enumMin u,
      u.start ≤ c.start ∧ c.stop ≤ u.stop ∧ preU M c := by
  rw [splitEnumerationsU]
  split
  · exact passthrough_ok M u hu
  · split
    case h_1 ps hps => exact tryDelimSplit_ok M hitComma_bound ranges u hu hps
    case h_2 =>
      split
      case h_1 ps hps => exact tryDelimSplit_ok M hitDelim_bound ranges u hu hps
      case h_2 =>
        split
        case h_1 ps hps =>
          exact tryDelimSplit_ok M hitParallelGo_bound ranges u hu hps
        case h_2 => exact passthrough_ok M u hu

/-- `_split_discourse_markers` children facts for one unit. -/
theorem splitDiscourseMarkersU_ok (M : List Char)
    (ranges : List ProtectedRange) (dmMin : Nat)
    (u : SplitUnit) (hu : preU M u) :
    List.Pairwise (fun a b => a.stop ≤ b.start)
      (splitDiscourseMarkersU ranges dmMin u) ∧
    ∀ c ∈ splitDiscourseMarkersU ranges dmMin u,
      u.start ≤ c.start ∧ c.stop ≤ u.stop ∧ preU M c := by
  rw [splitDiscourseMarkersU]
  dsimp only
  split
  · exact passthrough_ok M u hu
  · obtain ⟨hmb0, hmp0⟩ := filtered_finditer_ok hitDiscourse_bound u.text
      (fun p => !(isInProtected (u.start + p.1) ranges false))
    have hmb : ∀ p ∈ (((finditer hitDiscourse u.text).filter (fun p =>
        !(isInProtected (u.start + p.1) ranges false))).filter (fun p =>
          !(isCompoundMarker (u.text.drop p.2)) &&
          decide (4 < (pyStrip (u.text.drop p.2)).length))),
        p.1 ≤ p.2 ∧ p.2 ≤ u.text.length :=
      fun p hp => hmb0 p (List.mem_of_mem_filter hp)
    have hmp := hmp0.sublist (@List.filter_sublist (Nat × Nat)
      (fun p => !(isCompoundMarker (u.text.drop p.2)) &&
        decide (4 < (pyStrip (u.text.drop p.2)).length)) _)
    have hmapb : ∀ q ∈ ((((finditer hitDiscourse u.text).filter (fun p =>
        !(isInProtected (u.start + p.1) ranges false))).filter (fun p =>
          !(isCompoundMarker (u.text.drop p.2)) &&
          decide (4 < (pyStrip (u.text.drop p.2)).length))).map
            (fun p => (p.2, p.2))),
        q.1 ≤ q.2 ∧ q.2 ≤ u.text.length := by
      intro q hq
      obtain ⟨p, hp, rfl⟩ := List.mem_map.mp hq
      exact ⟨le_rfl, (hmb p hp).2⟩
    have hmapp : List.Pairwise (fun p q => p.2 ≤ q.1)
        ((((finditer hitDiscourse u.text).filter (fun p =>
          !(isInProtected (u.start + p.1) ranges false))).filter (fun p =>
            !(isCompoundMarker (u.text.drop p.2)) &&
            decide (4 < (pyStrip (u.text.drop p.2)).length))).map
              (fun p => (p.2, p.2))) := by
      rw [List.pairwise_map]
      refine List.Pairwise.imp_of_mem ?_ hmp
      intro a b ha hb hr
      have := (hmb b hb).1
      dsimp only
      omega
    split
    · exact passthrough_ok M u hu
    · exact split_body_ok M u hu _ _ hmapb hmapp

/-- The best-split search only ever returns a cut point one past one of
the candidate indices. -/
theorem bestSplitFold_mem (chunk : List Char) (ustart mid : Nat)
    (ranges : List ProtectedRange) (avoidPost : Bool) (idxs : List Nat)
    (p : Nat × Nat)
    (h : bestSplitFold chunk ustart mid ranges avoidPost idxs = some p) :
    ∃ i ∈ idxs, p.2 = i + 1 := by
  rw [bestSplitFold] at h
  suffices hgen : ∀ (l : List Nat) (acc : Option (Nat × Nat)),
      l.foldl (fun best i =>
        match chunk[i]? with
        | some c =>
          if (c = ' ' ∨ c = ',' ∨ c = '\n') ∧
              isInProtected (ustart + i) ranges false = false ∧
              (avoidPost = false ∨ isAfterPostposition chunk i = false) then
            let dist := max i mid - min i mid
            match best with
            | some bd => if dist < bd.1 then some (dist, i + 1) else best
            | none => some (dist, i + 1)
          else best
        | none => best) acc = some p →
      acc = some p ∨ ∃ i ∈ l, p.2 = i + 1 by
    rcases hgen idxs none h with h1 | h2
    · cases h1
    · exact h2
  intro l
  induction l with
  | nil =>
    intro acc h0
    exact Or.inl h0
  | cons i rest ih =>
    intro acc h0
    rw [List.foldl_cons] at h0
    rcases ih _ h0 with h1 | ⟨j, hj, hjp⟩
    · dsimp only at h1
      split at h1
      case h_1 c hc =>
        split at h1
        · split at h1
          case h_1 bd hbd =>
            split at h1
            · right
              refine ⟨i, List.mem_cons_self _ _, ?_⟩
              injection h1 with h2
              rw [← h2]
            · exact Or.inl h1
          case h_2 hbd =>
            right
            refine ⟨i, List.mem_cons_self _ _, ?_⟩
            injection h1 with h2
            rw [← h2]
        · exact Or.inl h1
      case h_2 hc => exact Or.inl h1
    · exact Or.inr ⟨j, List.mem_cons_of_mem _ hj, hjp⟩

/-- `_force_split_long` children facts for one unit. -/
theorem forceSplitUnit_ok (M : List Char) (ranges : List ProtectedRange)
    (maxLen : Nat) (u : SplitUnit) (hu : preU M u) :
    List.Pairwise (fun a b => a.stop ≤ b.start)
      (forceSplitUnit ranges maxLen u).1 ∧
    ∀ c ∈ (forceSplitUnit ranges maxLen u).1,
      u.start ≤ c.start ∧ c.stop ≤ u.stop ∧ preU M c := by
  have htext := preU_htext hu
  have hspan := preU_span hu
  have hMstop : u.stop ≤ M.length := hu.2.1
  rw [forceSplitUnit]
  dsimp only
  split
  · exact passthrough_ok M u hu
  case isFalse hlen =>
    split
    case h_2 => exact passthrough_ok M u hu
    case h_1 bs heq =>
      have hbs_mem : ∃ i ∈ List.range'
          (max 10 (u.text.length / 2 - 60))
          (min (u.text.length - 5) (u.text.length / 2 + 60) -
            max 10 (u.text.length / 2 - 60)), bs = i + 1 := by
        split at heq
        case h_1 q hq =>
          obtain ⟨i, hi, h2⟩ := bestSplitFold_mem _ _ _ _ _ _ _ hq
          refine ⟨i, hi, ?_⟩
          injection heq with h3
          omega
        case h_2 hq =>
          obtain ⟨q, hq1, hq2⟩ := Option.map_eq_some'.mp heq
          obtain ⟨i, hi, h2⟩ := bestSplitFold_mem _ _ _ _ _ _ _ hq1
          refine ⟨i, hi, ?_⟩
          omega
      obtain ⟨i, hi, hbsi⟩ := hbs_mem
      have hir := List.mem_range'_1.mp hi
      have hminle : min (u.text.length - 5) (u.text.length / 2 + 60) ≤
          u.text.length - 5 := Nat.min_le_left _ _
      have hmaxge : 10 ≤ max 10 (u.text.length / 2 - 60) :=
        Nat.le_max_left _ _
      have hbsle : bs + 4 ≤ u.text.length := by omega
      have htake_len : (u.text.take bs).length = bs := by
        rw [List.length_take]
        omega
      have hdrop_len : (u.text.drop bs).length = u.text.length - bs :=
        List.length_drop _ _
      have hLf : pyStrip (u.text.take bs) ≠ [] →
          findSub u.text 0 (pyStrip (u.text.take bs)) +
            (pyStrip (u.text.take bs)).length ≤ bs ∧
          pyStrip (u.text.take bs) =
            pySlice M (u.start + findSub u.text 0 (pyStrip (u.text.take bs)))
              (u.start + findSub u.text 0 (pyStrip (u.text.take bs)) +
                (pyStrip (u.text.take bs)).length) := by
        intro hL
        have hocc := pyStrip_occurs (u.text.take bs)
        have hlenL := pyStrip_length_le (u.text.take bs)
        rw [htake_len] at hlenL
        have hocc2 : (pyStrip (u.text.take bs)).isPrefixOf
            (u.text.drop
              ((u.text.take bs).takeWhile pyIsSpace).length) = true := by
          rw [List.isPrefixOf_iff_prefix] at hocc ⊢
          rw [List.drop_take] at hocc
          exact hocc.trans (List.take_prefix _ _)
        obtain ⟨h1, h2, h3⟩ := findSub_spec u.text hL 0
          ((u.text.take bs).takeWhile pyIsSpace).length (Nat.zero_le _)
          (by omega) hocc2
        exact ⟨by omega, slice_in_M M u.text u.start htext h3 (by omega)⟩
      have hRf : pyStrip (u.text.drop bs) ≠ [] →
          bs ≤ findSub u.text bs (pyStrip (u.text.drop bs)) ∧
          findSub u.text bs (pyStrip (u.text.drop bs)) +
            (pyStrip (u.text.drop bs)).length ≤ u.text.length ∧
          pyStrip (u.text.drop bs) =
            pySlice M (u.start + findSub u.text bs (pyStrip (u.text.drop bs)))
              (u.start + findSub u.text bs (pyStrip (u.text.drop bs)) +
                (pyStrip (u.text.drop bs)).length) := by
        intro hR
        have hocc := pyStrip_occurs (u.text.drop bs)
        have hlenR := pyStrip_length_le (u.text.drop bs)
        rw [hdrop_len] at hlenR
        rw [List.drop_drop] at hocc
        obtain ⟨h1, h2, h3⟩ := findSub_spec u.text hR bs
          (bs + ((u.text.drop bs).takeWhile pyIsSpace).length)
          (Nat.le_add_right _ _) (by omega) hocc
        exact ⟨h1, by omega,
          slice_in_M M u.text u.start htext h3 (by omega)⟩
      constructor
      · split
        case isTrue => split <;> simp
        case isFalse hL =>
          obtain ⟨hl1, hl2⟩ := hLf hL
          split
          case isTrue => simp
          case isFalse hR =>
            obtain ⟨hr1, hr2, hr3⟩ := hRf hR
            simp only [List.singleton_append]
            refine List.pairwise_cons.mpr ⟨?_, by simp⟩
            intro b hb
            rcases List.mem_singleton.mp hb with rfl
            dsimp only
            omega
      · intro c hc
        rw [List.mem_append] at hc
        rcases hc with hc | hc
        · split at hc
          · cases hc
          case isFalse hL =>
            obtain ⟨hl1, hl2⟩ := hLf hL
            rcases List.mem_singleton.mp hc with rfl
            refine ⟨by dsimp only; omega, by dsimp only; omega,
              hL, by dsimp only; omega, hl2⟩
        · split at hc
          · cases hc
          case isFalse hR =>
            obtain ⟨hr1, hr2, hr3⟩ := hRf hR
            rcases List.mem_singleton.mp hc with rfl
            refine ⟨by dsimp only; omega, by dsimp only; omega,
              hR, by dsimp only; omega, hr3⟩

/-- One force-split pass is the flat map of its per-unit action. -/
theorem forceSplitPass_fst (ranges : List ProtectedRange) (maxLen : Nat) :
    ∀ us : List SplitUnit, (forceSplitPass ranges maxLen us).1 =
      us.flatMap (fun u => (forceSplitUnit ranges maxLen u).1) := by
  intro us
  induction us with
  | nil => rfl
  | cons u rest ih =>
    rw [forceSplitPass, List.foldr_cons, List.flatMap_cons]
    dsimp only
    rw [forceSplitPass] at ih
    rw [ih]

/-- One force-split pass preserves the stage invariant. -/
theorem forceSplitPass_ok (M : List Char) (ranges : List ProtectedRange)
    (maxLen : Nat) (us : List SplitUnit)
    (hp : List.Pairwise (fun a b => a.stop ≤ b.start) us)
    (hall : ∀ u ∈ us, preU M u) :
    List.Pairwise (fun a b => a.stop ≤ b.start)
      (forceSplitPass ranges maxLen us).1 ∧
    ∀ c ∈ (forceSplitPass ranges maxLen us).1, preU M c := by
  rw [forceSplitPass_fst]
  exact stage_lift M _ (fun u hu => forceSplitUnit_ok M ranges maxLen u hu)
    us hp hall

/-- The bounded force-split iteration preserves the stage invariant. -/
theorem forceSplitLongGo_ok (M : List Char) (ranges : List ProtectedRange)
    (maxLen : Nat) :
    ∀ (k : Nat) (us : List SplitUnit),
      List.Pairwise (fun a b => a.stop ≤ b.start) us →
      (∀ u ∈ us, preU M u) →
      List.Pairwise (fun a b => a.stop ≤ b.start)
        (forceSplitLongGo ranges maxLen k us) ∧
      ∀ c ∈ forceSplitLongGo ranges maxLen k us, preU M c := by
  intro k
  induction k with
  | zero =>
    intro us hp hall
    rw [forceSplitLongGo]
    exact ⟨hp, hall⟩
  | succ n ih =>
    intro us hp hall
    rw [forceSplitLongGo]
    obtain ⟨h1, h2⟩ := forceSplitPass_ok M ranges maxLen us hp hall
    split
    · exact ih _ h1 h2
    · exact ⟨h1, h2⟩

/-- The full slice is the whole text. -/
theorem pySlice_full (M : List Char) : pySlice M 0 M.length = M := by
  rw [pySlice]
  simp

/-- Unfolding `intercalate` on two or more pieces. -/
theorem intercalate_two (sep x y : List Char) (zs : List (List Char)) :
    List.intercalate sep (x :: y :: zs) =
      x ++ sep ++ List.intercalate sep (y :: zs) := by
  simp [List.intercalate]

/-- Unfolding `intercalate` on one piece. -/
theorem intercalate_one (sep x : List Char) :
    List.intercalate sep [x] = x := by
  simp [List.intercalate]

/-- Filtering out the joiner turns a space-join into a plain join. -/
theorem intercalate_space_filter (q : Char → Bool) (hq : q ' ' = false) :
    ∀ ts : List (List Char),
      (List.intercalate [' '] ts).filter q =
        (ts.map (List.filter q)).join := by
  intro ts
  induction ts with
  | nil => simp [List.intercalate]
  | cons x rest ih =>
    cases rest with
    | nil => simp [intercalate_one]
    | cons y zs =>
      rw [intercalate_two, List.filter_append, List.filter_append, ih]
      simp [hq]

/-- Ordered filtered pieces inside a window concatenate to a sublist of
the window's slice. -/
theorem catSubSlice (M : List Char) (q : Char → Bool) :
    ∀ (g : List SplitUnit) (z y : Nat),
      List.Pairwise (fun a b => a.stop ≤ b.start) g →
      (∀ v ∈ g, List.Sublist (v.text.filter q) (pySlice M v.start v.stop) ∧
        z ≤ v.start ∧ v.start ≤ v.stop ∧ v.stop ≤ y) →
      List.Sublist ((g.map (fun v => v.text.filter q)).join)
        (pySlice M z y) := by
  intro g
  induction g with
  | nil =>
    intro z y _ _
    exact List.nil_sublist _
  | cons v rest ih =>
    intro z y hp hall
    obtain ⟨hsub, hzv, hvv, hvy⟩ := hall v (List.mem_cons_self _ _)
    obtain ⟨hhead, hrest⟩ := List.pairwise_cons.mp hp
    have hrec := ih v.stop y hrest (fun w hw =>
      ⟨(hall w (List.mem_cons_of_mem _ hw)).1, hhead w hw,
        (hall w (List.mem_cons_of_mem _ hw)).2.2.1,
        (hall w (List.mem_cons_of_mem _ hw)).2.2.2⟩)
    have hsplit : pySlice M z y = pySlice M z v.start ++
        (pySlice M v.start v.stop ++ pySlice M v.stop y) := by
      rw [← pySlice_append M hvv hvy, ← pySlice_append M hzv (by omega)]
    rw [hsplit]
    exact (List.Sublist.append hsub hrec).trans
      (List.sublist_append_right _ _)

/-- The pre-merge stage invariant implies the post-merge one. -/
theorem preU_to_postU {M : List Char} {u : SplitUnit} (h : preU M u) :
    postU M u := by
  obtain ⟨h1, h2⟩ := preU_span h
  refine ⟨h.1, h1, h.2.1, ?_⟩
  rw [← h.2.2]
  exact List.filter_sublist _

/-- In a disjoint ordered run, every stop is at most the last stop. -/
theorem pairwise_last_bound :
    ∀ (l : List SplitUnit) (h : l ≠ []),
      List.Pairwise (fun a b => a.stop ≤ b.start) l →
      (∀ v ∈ l, v.start ≤ v.stop) →
      ∀ v ∈ l, v.stop ≤ (l.getLast h).stop := by
  intro l
  induction l with
  | nil => intro h; exact absurd rfl h
  | cons u rest ih =>
    intro h hp hss v hv
    cases rest with
    | nil =>
      rcases List.mem_singleton.mp hv with rfl
      exact le_rfl
    | cons y ys =>
      have hrne : (y :: ys) ≠ [] := by simp
      have hlast : (u :: y :: ys).getLast h = (y :: ys).getLast hrne :=
        List.getLast_cons hrne
      rw [hlast]
      obtain ⟨hhead, hrp⟩ := List.pairwise_cons.mp hp
      rcases List.mem_cons.mp hv with rfl | hv2
      · have hm : (y :: ys).getLast hrne ∈ y :: ys :=
          List.getLast_mem hrne
        have h1 := hhead _ hm
        have h2 := hss _ (List.mem_cons_of_mem _ hm)
        omega
      · exact ih hrne hrp
          (fun w hw => hss w (List.mem_cons_of_mem _ hw)) v hv2

/-- `_merge_group` of a disjoint ordered nonempty group of valid units
is a valid unit spanning from a member's start to a member's stop. -/
theorem mergeGroup_ok (M : List Char) (g : List SplitUnit) (hg : g ≠ [])
    (hp : List.Pairwise (fun a b => a.stop ≤ b.start) g)
    (hall : ∀ v ∈ g, postU M v) :
    postU M (mergeGroup g) ∧
    (∃ v ∈ g, (mergeGroup g).start = v.start ∧
      ∀ w ∈ g, v.start ≤ w.start) ∧
    (∃ w ∈ g, (mergeGroup g).stop = w.stop) := by
  cases g with
  | nil => exact absurd rfl hg
  | cons u gs =>
    have hcne : (u :: gs) ≠ [] := by simp
    have hlq : (u :: gs).getLast? = some ((u :: gs).getLast hcne) :=
      List.getLast?_eq_getLast _ hcne
    have hLmem : (u :: gs).getLast hcne ∈ u :: gs := List.getLast_mem hcne
    have hustart : ∀ w ∈ u :: gs, u.start ≤ w.start := by
      intro w hw
      rcases List.mem_cons.mp hw with rfl | hw2
      · exact le_rfl
      · have h1 := (List.pairwise_cons.mp hp).1 w hw2
        have h2 := (hall u (List.mem_cons_self _ _)).2.1
        omega
    have hss : ∀ v ∈ u :: gs, v.start ≤ v.stop :=
      fun v hv => le_of_lt (hall v hv).2.1
    have hlastb := pairwise_last_bound (u :: gs) hcne hp hss
    have hmg : mergeGroup (u :: gs) =
        { text := List.intercalate [' '] ((u :: gs).map (fun v => v.text)),
          start := u.start,
          stop := ((u :: gs).getLast?).getD u |>.stop,
          confidence := (u :: gs).foldl (fun m v => min m v.confidence)
            u.confidence } := by
      rw [mergeGroup]
    have hstop : (((u :: gs).getLast?).getD u).stop =
        ((u :: gs).getLast hcne).stop := by
      rw [hlq]
      rfl
    have htne : List.intercalate [' '] ((u :: gs).map (fun v => v.text)) ≠
        [] := by
      have hune := (hall u (List.mem_cons_self _ _)).1
      cases gs with
      | nil =>
        rw [List.map_cons, List.map_nil, intercalate_one]
        exact hune
      | cons y ys =>
        rw [List.map_cons, List.map_cons, intercalate_two]
        simp [hune]
    have hfil : (List.intercalate [' ']
          ((u :: gs).map (fun v => v.text))).filter
            (fun c => !(decide (c = ' '))) =
        ((u :: gs).map (fun v => v.text.filter
          (fun c => !(decide (c = ' '))))).join := by
      rw [intercalate_space_filter (fun c => !(decide (c = ' ')))
        (by decide) _, List.map_map]
      rfl
    have hcat := catSubSlice M (fun c => !(decide (c = ' ')))
      (u :: gs) u.start (((u :: gs).getLast hcne).stop) hp
      (fun v hv => ⟨(hall v hv).2.2.2, hustart v hv, hss v hv,
        hlastb v hv⟩)
    refine ⟨?_, ⟨u, List.mem_cons_self _ _, by rw [hmg], hustart⟩,
      ⟨(u :: gs).getLast hcne, hLmem, by rw [hmg]; exact hstop⟩⟩
    rw [hmg]
    refine ⟨htne, ?_, ?_, ?_⟩
    · show u.start < (((u :: gs).getLast?).getD u).stop
      rw [hstop]
      have h1 := (hall u (List.mem_cons_self _ _)).2.1
      have h2 := hlastb u (List.mem_cons_self _ _)
      omega
    · show (((u :: gs).getLast?).getD u).stop ≤ M.length
      rw [hstop]
      exact (hall _ hLmem).2.2.1
    · show List.Sublist _ (pySlice M u.start
        ((((u :: gs).getLast?).getD u).stop))
      rw [hstop, hfil]
      exact hcat

/-- Every group emitted by the placeholder grouping is an infix of the
pending units. -/
theorem groupByPH_infix (isDig : Char → Bool) :
    ∀ (us current g : List SplitUnit), g ∈ groupByPH isDig us current →
      ∃ pre post, current ++ us = pre ++ (g ++ post) := by
  intro us
  induction us with
  | nil =>
    intro current g hg
    rw [groupByPH] at hg
    split at hg
    · cases hg
    · rcases List.mem_singleton.mp hg with rfl
      exact ⟨[], [], by simp⟩
  | cons u rest ih =>
    intro current g hg
    rw [groupByPH] at hg
    split at hg
    · rw [List.mem_append, List.mem_append] at hg
      rcases hg with (hg | hg) | hg
      · split at hg
        · cases hg
        · rcases List.mem_singleton.mp hg with rfl
          exact ⟨[], u :: rest, by simp⟩
      · rcases List.mem_singleton.mp hg with rfl
        exact ⟨current, rest, by simp⟩
      · obtain ⟨pre, post, hpp⟩ := ih [] g hg
        rw [List.nil_append] at hpp
        refine ⟨current ++ [u] ++ pre, post, ?_⟩
        rw [List.append_assoc, List.append_assoc, ← hpp]
        simp
    · obtain ⟨pre, post, hpp⟩ := ih (current ++ [u]) g hg
      refine ⟨pre, post, ?_⟩
      rw [← hpp]
      simp

/-- Group members come from the pending units. -/
theorem groupByPH_subset (isDig : Char → Bool)
    (us current g : List SplitUnit)
    (hg : g ∈ groupByPH isDig us current) :
    List.Sublist g (current ++ us) := by
  obtain ⟨pre, post, hpp⟩ := groupByPH_infix isDig us current g hg
  rw [hpp]
  exact ((List.sublist_append_left g post).trans
    (List.sublist_append_right pre _))

/-- Emitted groups are nonempty. -/
theorem groupByPH_ne (isDig : Char → Bool) :
    ∀ (us current g : List SplitUnit), g ∈ groupByPH isDig us current →
      g ≠ [] := by
  intro us
  induction us with
  | nil =>
    intro current g hg
    rw [groupByPH] at hg
    split at hg
    · cases hg
    case isFalse hc =>
      rcases List.mem_singleton.mp hg with rfl
      exact hc
  | cons u rest ih =>
    intro current g hg
    rw [groupByPH] at hg
    split at hg
    · rw [List.mem_append, List.mem_append] at hg
      rcases hg with (hg | hg) | hg
      · split at hg
        · cases hg
        case isFalse hc =>
          rcases List.mem_singleton.mp hg with rfl
          exact hc
      · rcases List.mem_singleton.mp hg with rfl
        simp
      · exact ih [] g hg
    · exact ih (current ++ [u]) g hg

/-- Groups of disjoint ordered units are pairwise disjoint blockwise. -/
theorem groupByPH_pairwise (isDig : Char → Bool) :
    ∀ (us current : List SplitUnit),
      List.Pairwise (fun a b => a.stop ≤ b.start) (current ++ us) →
      List.Pairwise (fun g1 g2 => ∀ a ∈ g1, ∀ b ∈ g2, a.stop ≤ b.start)
        (groupByPH isDig us current) := by
  intro us
  induction us with
  | nil =>
    intro current hp
    rw [groupByPH]
    split
    · exact List.Pairwise.nil
    · simp
  | cons u rest ih =>
    intro current hp
    rw [groupByPH]
    split
    · rw [List.append_assoc, List.pairwise_append]
      have hcross : ∀ a ∈ current, ∀ b ∈ u :: rest, a.stop ≤ b.start := by
        rw [List.pairwise_append] at hp
        exact hp.2.2
      have hurest : ∀ b ∈ rest, u.stop ≤ b.start := by
        rw [List.pairwise_append] at hp
        exact (List.pairwise_cons.mp hp.2.1).1
      refine ⟨?_, ?_, ?_⟩
      · split
        · exact List.Pairwise.nil
        · simp
      · rw [List.pairwise_append]
        refine ⟨by simp, ih [] ?_, ?_⟩
        · rw [List.nil_append]
          rw [List.pairwise_append] at hp
          exact (List.pairwise_cons.mp hp.2.1).2
        · intro g1 hg1 g2 hg2 a ha b hb
          rcases List.mem_singleton.mp hg1 with rfl
          rcases List.mem_singleton.mp ha with rfl
          have hbmem : b ∈ rest :=
            (groupByPH_subset isDig rest [] g2 hg2).subset hb
          exact hurest b hbmem
      · intro g1 hg1 g2 hg2
        split at hg1
        · cases hg1
        · rcases List.mem_singleton.mp hg1 with rfl
          intro a ha b hb
          rw [List.mem_append] at hg2
          rcases hg2 with hg2 | hg2
          · rcases List.mem_singleton.mp hg2 with rfl
            rcases List.mem_singleton.mp hb with rfl
            exact hcross a ha b (List.mem_cons_self _ _)
          · have hbmem : b ∈ rest :=
              (groupByPH_subset isDig rest [] g2 hg2).subset hb
            exact hcross a ha b (List.mem_cons_of_mem _ hbmem)
    · refine ih (current ++ [u]) ?_
      rw [List.append_assoc]
      exact hp

/-- The merged groups of a disjoint ordered short run are disjoint valid
units, each starting at or after the run's lower bound and stopping at
or before some member's stop. -/
theorem mergedGroups_ok (isDig : Char → Bool) (M : List Char)
    (shorts : List SplitUnit) (z : Nat)
    (hp : List.Pairwise (fun a b => a.stop ≤ b.start) shorts)
    (hall : ∀ s ∈ shorts, postU M s)
    (hz : ∀ s ∈ shorts, z ≤ s.start) :
    List.Pairwise (fun a b => a.stop ≤ b.start)
      ((groupByPH isDig shorts []).flatMap (fun g =>
        if segMinShortConsecutive ≤ g.length then [mergeGroup g] else g)) ∧
    ∀ c ∈ (groupByPH isDig shorts []).flatMap (fun g =>
        if segMinShortConsecutive ≤ g.length then [mergeGroup g] else g),
      postU M c ∧ z ≤ c.start ∧ ∃ s ∈ shorts, c.stop ≤ s.stop := by
  have hgsub : ∀ g ∈ groupByPH isDig shorts [],
      List.Sublist g shorts := by
    intro g hg
    have := groupByPH_subset isDig shorts [] g hg
    rwa [List.nil_append] at this
  have hgp : ∀ g ∈ groupByPH isDig shorts [],
      List.Pairwise (fun a b => a.stop ≤ b.start) g :=
    fun g hg => hp.sublist (hgsub g hg)
  have hgall : ∀ g ∈ groupByPH isDig shorts [], ∀ v ∈ g, postU M v :=
    fun g hg v hv => hall v ((hgsub g hg).subset hv)
  have hblocks := groupByPH_pairwise isDig shorts []
    (by rwa [List.nil_append])
  have hchild : ∀ g ∈ groupByPH isDig shorts [],
      ∀ c ∈ (if segMinShortConsecutive ≤ g.length then [mergeGroup g]
        else g),
      postU M c ∧ (∃ v ∈ g, c.start = v.start) ∧
        ∃ w ∈ g, c.stop ≤ w.stop := by
    intro g hg c hc
    split at hc
    · rcases List.mem_singleton.mp hc with rfl
      obtain ⟨h1, ⟨v, hv, hv1, _⟩, ⟨w, hw, hw1⟩⟩ :=
        mergeGroup_ok M g (groupByPH_ne isDig shorts [] g hg) (hgp g hg)
          (hgall g hg)
      exact ⟨h1, ⟨v, hv, hv1⟩, ⟨w, hw, le_of_eq hw1⟩⟩
    · exact ⟨hgall g hg c hc, ⟨c, hc, rfl⟩, ⟨c, hc, le_rfl⟩⟩
  constructor
  · refine pairwise_flatMap_mem _ hblocks ?_ ?_
    · intro g hg
      split
      · simp
      · exact hgp g hg
    · intro g hg h2 hh2 hr a ha b hb
      obtain ⟨_, ⟨v, hv, hv1⟩, ⟨w, hw, hw1⟩⟩ := hchild g hg a ha
      obtain ⟨_, ⟨v2, hv2, hv21⟩, _⟩ := hchild h2 hh2 b hb
      have := hr w hw v2 hv2
      omega
  · intro c hc
    obtain ⟨g, hg, hcg⟩ := List.mem_flatMap.mp hc
    obtain ⟨h1, ⟨v, hv, hv1⟩, ⟨w, hw, hw1⟩⟩ := hchild g hg c hcg
    refine ⟨h1, ?_, ⟨w, (hgsub g hg).subset hw, hw1⟩⟩
    have := hz v ((hgsub g hg).subset hv)
    omega

/-- The run-preserving walk of `_merge_short_units` keeps units disjoint
and valid above a lower bound. -/
theorem mergeGoF_ok (isDig : Char → Bool) (M : List Char) :
    ∀ (fuel : Nat) (us : List SplitUnit) (z : Nat),
      List.Pairwise (fun a b => a.stop ≤ b.start) us →
      (∀ u ∈ us, postU M u) →
      (∀ u ∈ us, z ≤ u.start) →
      List.Pairwise (fun a b => a.stop ≤ b.start)
        (mergeGoF isDig fuel us) ∧
      (∀ c ∈ mergeGoF isDig fuel us, postU M c) ∧
      (∀ c ∈ mergeGoF isDig fuel us, z ≤ c.start) := by
  intro fuel
  induction fuel with
  | zero =>
    intro us z hp hall hz
    rw [mergeGoF]
    exact ⟨hp, hall, hz⟩
  | succ n ih =>
    intro us z hp hall hz
    rw [mergeGoF]
    have hsplit := (List.takeWhile_append_dropWhile
      (fun u : SplitUnit => decide (u.text.length < segMinSegLen)) us).symm
    have htws : List.Sublist (us.takeWhile
        (fun u => decide (u.text.length < segMinSegLen))) us :=
      List.takeWhile_sublist _
    have hdws : List.Sublist (us.dropWhile
        (fun u => decide (u.text.length < segMinSegLen))) us :=
      List.dropWhile_sublist _
    have hps : List.Pairwise (fun a b => a.stop ≤ b.start)
        (us.takeWhile (fun u => decide (u.text.length < segMinSegLen))) :=
      hp.sublist htws
    have hcross : ∀ s ∈ us.takeWhile
        (fun u => decide (u.text.length < segMinSegLen)),
        ∀ v ∈ us.dropWhile
          (fun u => decide (u.text.length < segMinSegLen)),
        s.stop ≤ v.start := by
      have hp2 := hsplit ▸ hp
      rw [List.pairwise_append] at hp2
      exact hp2.2.2
    have hproc :
        List.Pairwise (fun a b => a.stop ≤ b.start)
          (if segMinShortConsecutive ≤ (us.takeWhile
              (fun u => decide (u.text.length < segMinSegLen))).length then
            (groupByPH isDig (us.takeWhile
              (fun u => decide (u.text.length < segMinSegLen))) []).flatMap
              (fun g => if segMinShortConsecutive ≤ g.length then
                [mergeGroup g] else g)
          else us.takeWhile
            (fun u => decide (u.text.length < segMinSegLen))) ∧
        ∀ c ∈ (if segMinShortConsecutive ≤ (us.takeWhile
              (fun u => decide (u.text.length < segMinSegLen))).length then
            (groupByPH isDig (us.takeWhile
              (fun u => decide (u.text.length < segMinSegLen))) []).flatMap
              (fun g => if segMinShortConsecutive ≤ g.length then
                [mergeGroup g] else g)
          else us.takeWhile
            (fun u => decide (u.text.length < segMinSegLen))),
          postU M c ∧ z ≤ c.start ∧
            ∃ s ∈ us.takeWhile
              (fun u => decide (u.text.length < segMinSegLen)),
              c.stop ≤ s.stop := by
      split
      · obtain ⟨h1, h2⟩ := mergedGroups_ok isDig M
          (us.takeWhile (fun u => decide (u.text.length < segMinSegLen)))
          z hps (fun s hs => hall s (htws.subset hs))
          (fun s hs => hz s (htws.subset hs))
        exact ⟨h1, h2⟩
      · exact ⟨hps, fun c hc => ⟨hall c (htws.subset hc),
          hz c (htws.subset hc), ⟨c, hc, le_rfl⟩⟩⟩
    obtain ⟨hprocP, hprocM⟩ := hproc
    split
    case h_1 hrest =>
      exact ⟨hprocP, fun c hc => (hprocM c hc).1,
        fun c hc => (hprocM c hc).2.1⟩
    case h_2 r rs hrest =>
      have hrmem : r ∈ us := hdws.subset (by rw [hrest]; simp)
      have hrsp : List.Pairwise (fun a b => a.stop ≤ b.start) (r :: rs) :=
        hrest ▸ hp.sublist hdws
      have hrall : ∀ v ∈ r :: rs, postU M v := by
        intro v hv
        exact hall v (hdws.subset (hrest ▸ hv))
      obtain ⟨hrr, hrsP⟩ := List.pairwise_cons.mp hrsp
      obtain ⟨ih1, ih2, ih3⟩ := ih rs r.stop hrsP
        (fun v hv => hrall v (List.mem_cons_of_mem _ hv))
        (fun v hv => hrr v hv)
      have hrpost := hrall r (List.mem_cons_self _ _)
      have hcstop : ∀ c ∈ (if segMinShortConsecutive ≤ (us.takeWhile
              (fun u => decide (u.text.length < segMinSegLen))).length then
            (groupByPH isDig (us.takeWhile
              (fun u => decide (u.text.length < segMinSegLen))) []).flatMap
              (fun g => if segMinShortConsecutive ≤ g.length then
                [mergeGroup g] else g)
          else us.takeWhile
            (fun u => decide (u.text.length < segMinSegLen))),
          c.stop ≤ r.start := by
        intro c hc
        obtain ⟨s, hs, hss⟩ := (hprocM c hc).2.2
        have := hcross s hs r (by rw [hrest]; simp)
        omega
      refine ⟨?_, ?_, ?_⟩
      · rw [List.pairwise_append]
        refine ⟨hprocP, ?_, ?_⟩
        · refine List.pairwise_cons.mpr ⟨fun d hd => ?_, ih1⟩
          have := ih3 d hd
          have := hrpost.2.1
          omega
        · intro a ha b hb
          have h1 := hcstop a ha
          rcases List.mem_cons.mp hb with rfl | hb2
          · exact h1
          · have h2 := ih3 b hb2
            have := hrpost.2.1
            omega
      · intro c hc
        rw [List.mem_append] at hc
        rcases hc with hc | hc
        · exact (hprocM c hc).1
        · rcases List.mem_cons.mp hc with rfl | hc2
          · exact hrpost
          · exact ih2 c hc2
      · intro c hc
        rw [List.mem_append] at hc
        have hzr : z ≤ r.start := hz r hrmem
        rcases hc with hc | hc
        · exact (hprocM c hc).2.1
        · rcases List.mem_cons.mp hc with rfl | hc2
          · exact hzr
          · have := ih3 c hc2
            have := hrpost.2.1
            omega

/-- `_merge_short_units` keeps units disjoint and valid. -/
theorem mergeShortUnits_ok (isDig : Char → Bool) (M : List Char)
    (us : List SplitUnit)
    (hp : List.Pairwise (fun a b => a.stop ≤ b.start) us)
    (hall : ∀ u ∈ us, postU M u) :
    List.Pairwise (fun a b => a.stop ≤ b.start)
      (mergeShortUnits isDig us) ∧
    ∀ c ∈ mergeShortUnits isDig us, postU M c := by
  rw [mergeShortUnits]
  split
  · exact ⟨hp, hall⟩
  · obtain ⟨h1, h2, _⟩ := mergeGoF_ok isDig M us.length us 0 hp hall
      (fun u _ => Nat.zero_le _)
    exact ⟨h1, h2⟩

/-- The id-assigning conversion pairs each segment with its unit. -/
theorem toSegmentsGo_forall2 :
    ∀ (i : Nat) (us : List SplitUnit),
      List.Forall₂ (fun (s : Segment) (u : SplitUnit) =>
        s.text = u.text ∧ s.start = u.start ∧ s.stop = u.stop)
        (toSegmentsGo i us) us := by
  intro i us
  induction us generalizing i with
  | nil => exact List.Forall₂.nil
  | cons u rest ih =>
    rw [toSegmentsGo]
    exact List.Forall₂.cons ⟨rfl, rfl, rfl⟩ (ih (i + 1))

/-- The id-assigning conversion keeps the concatenated text. -/
theorem toSegmentsGo_flat :
    ∀ (i : Nat) (us : List SplitUnit),
      (toSegmentsGo i us).flatMap (fun s => s.text) =
        us.flatMap (fun u => u.text) := by
  intro i us
  induction us generalizing i with
  | nil => rfl
  | cons u rest ih =>
    rw [toSegmentsGo, List.flatMap_cons, List.flatMap_cons, ih (i + 1)]

/-- Filtering a flat map is the join of the filtered pieces. -/
theorem filter_flatMap (q : Char → Bool) :
    ∀ us : List SplitUnit,
      ((us.flatMap (fun u => u.text)).filter q) =
        (us.map (fun u => u.text.filter q)).join := by
  intro us
  induction us with
  | nil => rfl
  | cons u rest ih =>
    rw [List.flatMap_cons, List.filter_append, ih]
    rfl

/-- `_apply_split_pattern` preserves the stage invariant. -/
theorem applySplitPattern_ok (M : List Char)
    {hit : List Char → Nat → Option Nat} (hb : HitBound hit)
    (ranges : List ProtectedRange) (conf : Rat) (strongB : Bool)
    (us : List SplitUnit)
    (hp : List.Pairwise (fun a b => a.stop ≤ b.start) us)
    (hall : ∀ u ∈ us, preU M u) :
    List.Pairwise (fun a b => a.stop ≤ b.start)
      (applySplitPattern hit ranges conf strongB us) ∧
    ∀ c ∈ applySplitPattern hit ranges conf strongB us, preU M c := by
  rw [applySplitPattern]
  exact stage_lift M _
    (fun u hu => applySplitPatternU_ok M hb ranges conf strongB u hu)
    us hp hall

/-- `_apply_split_pattern_with_connective_filter` preserves the stage
invariant. -/
theorem applyWithFilter_ok (M : List Char) (lits : List (List Char))
    (ranges : List ProtectedRange) (conf : Rat) (us : List SplitUnit)
    (hp : List.Pairwise (fun a b => a.stop ≤ b.start) us)
    (hall : ∀ u ∈ us, preU M u) :
    List.Pairwise (fun a b => a.stop ≤ b.start)
      (applyWithFilter lits ranges conf us) ∧
    ∀ c ∈ applyWithFilter lits ranges conf us, preU M c := by
  rw [applyWithFilter]
  exact stage_lift M _
    (fun u hu => applyWithFilterU_ok M lits ranges conf u hu) us hp hall

/-- `_split_enumerations` preserves the stage invariant. -/
theorem splitEnumerations_ok (M : List Char)
    (ranges : List ProtectedRange) (enumMin : Nat) (us : List SplitUnit)
    (hp : List.Pairwise (fun a b => a.stop ≤ b.start) us)
    (hall : ∀ u ∈ us, preU M u) :
    List.Pairwise (fun a b => a.stop ≤ b.start)
      (splitEnumerations ranges enumMin us) ∧
    ∀ c ∈ splitEnumerations ranges enumMin us, preU M c := by
  rw [splitEnumerations]
  exact stage_lift M _
    (fun u hu => splitEnumerationsU_ok M ranges enumMin u hu) us hp hall

/-- `_split_discourse_markers` preserves the stage invariant. -/
theorem splitDiscourseMarkers_ok (M : List Char)
    (ranges : List ProtectedRange) (dmMin : Nat) (us : List SplitUnit)
    (hp : List.Pairwise (fun a b => a.stop ≤ b.start) us)
    (hall : ∀ u ∈ us, preU M u) :
    List.Pairwise (fun a b => a.stop ≤ b.start)
      (splitDiscourseMarkers ranges dmMin us) ∧
    ∀ c ∈ splitDiscourseMarkers ranges dmMin us, preU M c := by
  rw [splitDiscourseMarkers]
  exact stage_lift M _
    (fun u hu => splitDiscourseMarkersU_ok M ranges dmMin u hu) us hp hall

/-- `_split_strong_boundaries` preserves the stage invariant. -/
theorem splitStrongBoundaries_ok (isDig : Char → Bool) (M : List Char)
    (ranges : List ProtectedRange) (us : List SplitUnit)
    (hp : List.Pairwise (fun a b => a.stop ≤ b.start) us)
    (hall : ∀ u ∈ us, preU M u) :
    List.Pairwise (fun a b => a.stop ≤ b.start)
      (splitStrongBoundaries isDig ranges us) ∧
    ∀ c ∈ splitStrongBoundaries isDig ranges us, preU M c := by
  rw [splitStrongBoundaries]
  obtain ⟨h1, h2⟩ := applySplitPattern_ok M hitBlankLine_bound ranges 1
    true us hp hall
  obtain ⟨h3, h4⟩ := applySplitPattern_ok M hitSeparator_bound ranges 1
    true _ h1 h2
  obtain ⟨h5, h6⟩ := applySplitPattern_ok M hitBullet_bound ranges 1
    true _ h3 h4
  exact applySplitPattern_ok M (hitNumbered_bound isDig) ranges 1
    true _ h5 h6

/-- `_split_korean_endings` preserves the stage invariant. -/
theorem splitKoreanEndings_ok (M : List Char)
    (ranges : List ProtectedRange) (us : List SplitUnit)
    (hp : List.Pairwise (fun a b => a.stop ≤ b.start) us)
    (hall : ∀ u ∈ us, preU M u) :
    List.Pairwise (fun a b => a.stop ≤ b.start)
      (splitKoreanEndings ranges us) ∧
    ∀ c ∈ splitKoreanEndings ranges us, preU M c := by
  rw [splitKoreanEndings]
  obtain ⟨h1, h2⟩ := applyWithFilter_ok M endingFormalLits ranges (19/20)
    us hp hall
  obtain ⟨h3, h4⟩ := applyWithFilter_ok M endingPoliteLits ranges (19/20)
    _ h1 h2
  obtain ⟨h5, h6⟩ := applyWithFilter_ok M endingCasualLits ranges (19/20)
    _ h3 h4
  exact applyWithFilter_ok M endingNarrativeLits ranges (19/20) _ h5 h6

/-- A list splits as its right-drop and right-take. -/
theorem rdrop_rtake (p : Char → Bool) (l : List Char) :
    l.rdropWhile p ++ l.rtakeWhile p = l := by
  have h := (List.takeWhile_append_dropWhile p l.reverse).symm
  rw [List.rdropWhile, List.rtakeWhile, ← List.reverse_append,
    ← h, List.reverse_reverse]

/-- Characters of a `takeWhile` prefix, by position. -/
theorem takeWhile_get_sat (p : Char → Bool) (l : List Char) (j : Nat)
    (hj : j < (l.takeWhile p).length) :
    ∃ c, l[j]? = some c ∧ p c = true := by
  obtain ⟨t, ht⟩ := @List.takeWhile_prefix Char l p
  have h1 : l[j]? = (l.takeWhile p)[j]? := by
    conv_lhs => rw [← ht]
    rw [List.getElem?_append, if_pos hj]
  have hc : (l.takeWhile p)[j]? = some ((l.takeWhile p).get ⟨j, hj⟩) :=
    List.getElem?_eq_getElem hj
  exact ⟨(l.takeWhile p).get ⟨j, hj⟩, h1 ▸ hc,
    List.mem_takeWhile_imp (List.getElem?_mem hc)⟩

/-- Position transfer through a slice-exact text. -/
theorem slice_get {M text : List Char} {ustart : Nat}
    (htext : text = pySlice M ustart (ustart + text.length))
    {j : Nat} (hj : j < text.length) :
    M[ustart + j]? = text[j]? := by
  conv_rhs => rw [htext]
  rw [pySlice, List.getElem?_drop, List.getElem?_take, if_pos (by omega)]

/-- A strict placeholder match consumes at most the text and consists
only of placeholder token characters. -/
theorem parsePHStrict_chars (isDig : Char → Bool) (l : List Char)
    (n : Nat) (h : parsePHStrict isDig l = some n) :
    1 ≤ n ∧ n ≤ l.length ∧ ∀ c ∈ l.take n, phTokChar isDig c = true := by
  cases l with
  | nil =>
    simp [parsePHStrict] at h
  | cons c1 l1 =>
  cases l1 with
  | nil =>
    simp [parsePHStrict] at h
  | cons c2 rest =>
    rw [parsePHStrict] at h
    split at h
    case isFalse => cases h
    case isTrue hbr =>
      obtain ⟨rfl, rfl⟩ := hbr
      split at h
      · cases h
      case isFalse hU =>
        split at h
        case h_2 => cases h
        case h_1 sep r2 hsep =>
          split at h
          case isFalse => cases h
          case isTrue hsep2 =>
            subst hsep2
            split at h
            · cases h
            case isFalse hD =>
              split at h
              case h_2 => cases h
              case h_1 e1 e2 tail he =>
                split at h
                case isFalse => cases h
                case isTrue hbr2 =>
                  obtain ⟨rfl, rfl⟩ := hbr2
                  simp only [Option.some.injEq] at h
                  subst h
                  have hrest : rest = rest.takeWhile isUpperAZ ++
                      '_' :: r2 := by
                    conv_lhs => rw [← List.takeWhile_append_dropWhile
                      isUpperAZ rest]
                    rw [hsep]
                  have hr2 : r2 = r2.takeWhile isDig ++
                      rb :: rb :: tail := by
                    conv_lhs => rw [← List.takeWhile_append_dropWhile
                      isDig r2]
                    rw [he]
                  have hP : lb :: lb :: rest =
                      (lb :: lb :: rest.takeWhile isUpperAZ ++
                        '_' :: r2.takeWhile isDig ++ [rb, rb]) ++ tail := by
                    conv_lhs => rw [hrest]
                    conv_lhs => rw [hr2]
                    simp
                  have hPlen : (lb :: lb :: rest.takeWhile isUpperAZ ++
                      '_' :: r2.takeWhile isDig ++ [rb, rb]).length =
                      2 + (rest.takeWhile isUpperAZ).length + 1 +
                        (r2.takeWhile isDig).length + 2 := by
                    simp
                    omega
                  refine ⟨by omega, ?_, ?_⟩
                  · have := congrArg List.length hP
                    simp at this
                    simp
                    omega
                  · intro c hc
                    rw [hP, List.take_left' hPlen] at hc
                    rw [phTokChar]
                    simp only [Bool.or_eq_true]
                    rcases List.mem_cons.mp hc with rfl | hc
                    · exact Or.inl (Or.inl (Or.inl (Or.inl (by decide))))
                    rcases List.mem_cons.mp hc with rfl | hc
                    · exact Or.inl (Or.inl (Or.inl (Or.inl (by decide))))
                    rcases List.mem_append.mp hc with hc | hc
                    · rcases List.mem_append.mp hc with hc | hc
                      · exact Or.inl (Or.inl (Or.inr
                          (List.mem_takeWhile_imp hc)))
                      rcases List.mem_cons.mp hc with rfl | hc
                      · exact Or.inl (Or.inr (by decide))
                      exact Or.inr (List.mem_takeWhile_imp hc)
                    · rcases List.mem_cons.mp hc with rfl | hc
                      · exact Or.inl (Or.inl (Or.inl (Or.inr (by decide))))
                      rcases List.mem_singleton.mp hc with rfl
                      exact Or.inl (Or.inl (Or.inl (Or.inr (by decide))))

/-- Members of the finditer scan are genuine hits. -/
theorem finditerGo_mem (hit : List Char → Nat → Option Nat)
    (text : List Char) :
    ∀ fuel i p, p ∈ finditerGo hit text fuel i →
      hit text p.1 = some p.2 := by
  intro fuel
  induction fuel with
  | zero =>
    intro i p hp
    cases hp
  | succ f ih =>
    intro i p hp
    rw [finditerGo] at hp
    split at hp
    · split at hp
      case h_1 e he =>
        rcases List.mem_cons.mp hp with rfl | hp2
        · exact he
        · exact ih _ p hp2
      case h_2 => exact ih _ p hp
    · cases hp

/-- Members of `finditer` are genuine hits. -/
theorem finditer_mem {hit : List Char → Nat → Option Nat}
    {text : List Char} {p : Nat × Nat} (hp : p ∈ finditer hit text) :
    hit text p.1 = some p.2 :=
  finditerGo_mem hit text _ 0 p hp

/-- Placeholder entries of the protected ranges are strict placeholder
matches. -/
theorem collectPH_elim (isDig : Char → Bool) (M : List Char)
    (r : ProtectedRange) (hr : r ∈ collectProtectedRanges isDig M)
    (hph : r.ptype = PType.PLACEHOLDER) :
    ∃ n, parsePHStrict isDig (M.drop r.start) = some n ∧
      r.stop = r.start + n := by
  rw [collectProtectedRanges] at hr
  rw [List.mem_append, List.mem_append] at hr
  rcases hr with (hr | hr) | hr
  · obtain ⟨p, hp, hmk⟩ := List.mem_map.mp hr
    have hhit := finditer_mem hp
    rw [hitPlaceholder] at hhit
    obtain ⟨n, hn, he⟩ := Option.map_eq_some'.mp hhit
    subst hmk
    exact ⟨n, hn, he.symm⟩
  · obtain ⟨p, hp, hmk⟩ := List.mem_map.mp hr
    rw [← hmk] at hph
    cases hph
  · obtain ⟨p, hp, hmk⟩ := List.mem_map.mp hr
    rw [← hmk] at hph
    cases hph

/-- Placeholder ranges lie inside the text and consist of placeholder
token characters. -/
theorem phRange_chars (isDig : Char → Bool) (M : List Char)
    (r : ProtectedRange) (hr : r ∈ collectProtectedRanges isDig M)
    (hph : r.ptype = PType.PLACEHOLDER) :
    r.stop ≤ M.length ∧ ∀ j, r.start ≤ j → j < r.stop →
      ∃ c, M[j]? = some c ∧ phTokChar isDig c = true := by
  obtain ⟨n, hn, hstop⟩ := collectPH_elim isDig M r hr hph
  obtain ⟨hn1, hle, hchars⟩ := parsePHStrict_chars isDig (M.drop r.start)
    n hn
  rw [List.length_drop] at hle
  constructor
  · omega
  · intro j hj1 hj2
    have hjn : j - r.start < n := by omega
    have hget : (M.drop r.start)[j - r.start]? = M[j]? := by
      rw [List.getElem?_drop]
      congr 1
      omega
    have hlt : j - r.start < (M.drop r.start).length := by
      rw [List.length_drop]
      omega
    obtain ⟨c, hc⟩ : ∃ c, (M.drop r.start)[j - r.start]? = some c := by
      have := List.getElem?_eq_some.mpr ⟨hlt, rfl⟩
      exact ⟨_, this⟩
    refine ⟨c, hget ▸ hc, hchars c ?_⟩
    have htake : ((M.drop r.start).take n)[j - r.start]? =
        (M.drop r.start)[j - r.start]? := by
      rw [List.getElem?_take, if_pos hjn]
    exact List.getElem?_mem (htake ▸ hc)

/-- Position 0 is never strictly inside a placeholder. -/
theorem bdOK_zero (isDig : Char → Bool) (M : List Char) :
    bdOK isDig M 0 := by
  intro r _ _ h
  omega

/-- Positions at or beyond the text end are never strictly inside a
placeholder. -/
theorem bdOK_ge (isDig : Char → Bool) (M : List Char) (p : Nat)
    (hp : M.length ≤ p) : bdOK isDig M p := by
  intro r hr hph h
  have := (phRange_chars isDig M r hr hph).1
  omega

/-- A position whose predecessor is not a placeholder character is not
strictly inside a placeholder. -/
theorem bdOK_pred (isDig : Char → Bool) (M : List Char) (p : Nat)
    (c : Char) (hc : M[p - 1]? = some c)
    (hpc : phTokChar isDig c = false) : bdOK isDig M p := by
  intro r hr hph h
  obtain ⟨_, hchars⟩ := phRange_chars isDig M r hr hph
  obtain ⟨d, hd, hdc⟩ := hchars (p - 1) (by omega) (by omega)
  rw [hc] at hd
  injection hd with hd
  rw [hd] at hpc
  rw [hdc] at hpc
  cases hpc

/-- A position carrying a non-placeholder character is not strictly
inside a placeholder. -/
theorem bdOK_at (isDig : Char → Bool) (M : List Char) (p : Nat)
    (c : Char) (hc : M[p]? = some c)
    (hpc : phTokChar isDig c = false) : bdOK isDig M p := by
  intro r hr hph h
  obtain ⟨_, hchars⟩ := phRange_chars isDig M r hr hph
  obtain ⟨d, hd, hdc⟩ := hchars p (by omega) (by omega)
  rw [hc] at hd
  injection hd with hd
  rw [hd] at hpc
  rw [hdc] at hpc
  cases hpc

/-- An unprotected position is not strictly inside a placeholder, for
either boundary strength. -/
theorem bdOK_notProt (isDig : Char → Bool) (M : List Char) (p : Nat)
    (sb : Bool)
    (h : isInProtected p (collectProtectedRanges isDig M) sb = false) :
    bdOK isDig M p := by
  intro r hr hph hin
  rw [isInProtected] at h
  rw [List.any_eq_false] at h
  have h2 := h r hr
  simp only [Bool.and_eq_true, Bool.or_eq_true, decide_eq_true_eq] at h2
  exact h2 ⟨⟨by omega, by omega⟩, Or.inl hph⟩

/-- Boundary-safe characters are not placeholder characters. -/
theorem endSafe_phTok {isDig : Char → Bool} (hd : digOK isDig)
    {c : Char} (hc : endSafe c = true) : phTokChar isDig c = false := by
  by_contra h0
  rw [Bool.not_eq_false] at h0
  rw [phTokChar] at h0
  simp only [Bool.or_eq_true, decide_eq_true_eq] at h0
  rcases h0 with ((((h0 | h0) | h0) | h0) | h0)
  · subst h0
    exact absurd hc (by decide)
  · subst h0
    exact absurd hc (by decide)
  · rw [endSafe] at hc
    simp only [Bool.or_eq_true, Bool.and_eq_true, decide_eq_true_eq]
      at hc
    rw [isUpperAZ] at h0
    simp only [decide_eq_true_eq] at h0
    rcases hc with ((((((((((hc | rfl) | rfl) | rfl) | rfl) | rfl) |
        rfl) | rfl) | rfl) | rfl) | rfl) | hc
    · rw [pyIsSpace] at hc
      simp only [decide_eq_true_eq] at hc
      omega
    · exact absurd h0 (by decide)
    · exact absurd h0 (by decide)
    · exact absurd h0 (by decide)
    · exact absurd h0 (by decide)
    · exact absurd h0 (by decide)
    · exact absurd h0 (by decide)
    · exact absurd h0 (by decide)
    · exact absurd h0 (by decide)
    · exact absurd h0 (by decide)
    · exact absurd h0 (by decide)
    · omega
  · subst h0
    exact absurd hc (by decide)
  · rw [hd c h0] at hc
    cases hc

/-- Whitespace characters are boundary-safe. -/
theorem endSafe_of_ws {c : Char} (h : pyIsSpace c = true) :
    endSafe c = true := by
  simp [endSafe, h]

/-- The last character of a nonempty whitespace run is whitespace. -/
theorem wsRun_last (text : List Char) (i : Nat)
    (h : 1 ≤ wsRun text i) :
    ∃ c, text[i + wsRun text i - 1]? = some c ∧ pyIsSpace c = true := by
  obtain ⟨c, hc, hp⟩ := takeWhile_get_sat pyIsSpace (text.drop i)
    (wsRun text i - 1) (by rw [wsRun] at h ⊢; omega)
  refine ⟨c, ?_, hp⟩
  rw [List.getElem?_drop] at hc
  have he : i + (wsRun text i - 1) = i + wsRun text i - 1 := by omega
  rw [he] at hc
  exact hc

/-- A true space test yields the whitespace character. -/
theorem isSpaceAt_true {text : List Char} {j : Nat}
    (h : isSpaceAt text j = true) :
    ∃ c, text[j]? = some c ∧ pyIsSpace c = true := by
  rw [isSpaceAt] at h
  split at h
  case h_1 c hc => exact ⟨c, hc, h⟩
  case h_2 => cases h

/-- The index search returns a position whose character satisfies the
predicate. -/
theorem findIdx?_char (p : Char → Bool) :
    ∀ (l : List Char) (s i : Nat), List.findIdx? p l s = some i →
      s ≤ i ∧ ∃ c, l[i - s]? = some c ∧ p c = true := by
  intro l
  induction l with
  | nil =>
    intro s i h
    cases h
  | cons a as ih =>
    intro s i h
    rw [List.findIdx?_cons] at h
    split at h
    case isTrue hpa =>
      injection h with h
      subst h
      exact ⟨le_rfl, a, by simp, hpa⟩
    case isFalse =>
      obtain ⟨hle, c, hc, hpc⟩ := ih (s + 1) i h
      refine ⟨by omega, c, ?_, hpc⟩
      have hsplit : i - s = (i - (s + 1)) + 1 := by omega
      rw [hsplit, List.getElem?_cons_succ]
      exact hc

/-- The last-newline search returns a newline position. -/
theorem lastNlIdx_char {l : List Char} {k : Nat}
    (h : lastNlIdx l = some k) : l[k]? = some '\n' := by
  have hk := lastNlIdx_lt h
  rw [lastNlIdx] at h
  cases hf : l.reverse.findIdx? (fun c => decide (c = '\n')) with
  | none => rw [hf] at h; cases h
  | some r =>
    rw [hf] at h
    simp only [Option.some.injEq] at h
    subst h
    obtain ⟨_, c, hc, hcn⟩ := findIdx?_char _ _ _ _ hf
    rw [Nat.sub_zero] at hc
    have hlt : r < l.length := by
      obtain ⟨h1, _⟩ := List.getElem?_eq_some.mp hc
      rw [List.length_reverse] at h1
      exact h1
    rw [List.getElem?_reverse hlt] at hc
    simp only [decide_eq_true_eq] at hcn
    subst hcn
    exact hc

/-- `_find_substring_start` returns exactly the known occurrence when
everything before it (from the search start) is whitespace and the
sought text starts with a non-space character. -/
theorem findSub_eq (parent sub : List Char) (hs : sub ≠ [])
    (hhead : ∀ c, sub.head? = some c → pyIsSpace c = false)
    (sf q : Nat) (h1 : sf ≤ q) (h2 : q + sub.length ≤ parent.length)
    (h3 : sub.isPrefixOf (parent.drop q) = true)
    (hws : ∀ j, sf ≤ j → j < q →
      ∃ c, parent[j]? = some c ∧ pyIsSpace c = true) :
    findSub parent sf sub = q := by
  obtain ⟨hp1, hp2, hp3⟩ := findSub_spec parent hs sf q h1 h2 h3
  by_contra hne
  have hlt : findSub parent sf sub < q := by omega
  obtain ⟨c0, t, rfl⟩ : ∃ c0 t, sub = c0 :: t := by
    cases sub with
    | nil => exact absurd rfl hs
    | cons a b => exact ⟨a, b, rfl⟩
  obtain ⟨u, hu⟩ := List.isPrefixOf_iff_prefix.mp hp3
  have hc0 : parent[findSub parent sf (c0 :: t)]? = some c0 := by
    have h0 : (parent.drop (findSub parent sf (c0 :: t)))[0]? =
        some c0 := by
      rw [← hu]
      exact List.getElem?_cons_zero
    rw [List.getElem?_drop] at h0
    rw [← h0]
    congr 1
  obtain ⟨c, hc, hcw⟩ := hws (findSub parent sf (c0 :: t)) hp1 hlt
  rw [hc0] at hc
  injection hc with hc
  subst hc
  have := hhead c0 rfl
  rw [hcw] at this
  cases this

/-- Blank-line matches end after a newline. -/
theorem hitBlankLine_end : HitEnd hitBlankLine := by
  intro text i e h
  rw [hitBlankLine] at h
  split at h
  case isFalse => cases h
  case isTrue hrun =>
    simp only [Option.some.injEq] at h
    subst h
    right; right
    obtain ⟨c, hc, hcn⟩ := takeWhile_get_sat
      (fun c => decide (c = '\n')) (text.drop i)
      (((text.drop i).takeWhile (fun c => decide (c = '\n'))).length - 1)
      (by omega)
    rw [List.getElem?_drop] at hc
    simp only [decide_eq_true_eq] at hcn
    subst hcn
    refine ⟨'\n', ?_, by decide⟩
    rw [← hc]
    congr 1
    omega

/-- The separator core ends at the text end or right after a newline. -/
theorem sepCore_end {text : List Char} {j e : Nat}
    (h : sepCore text j = some e) :
    e = text.length ∨ ∃ c, text[e - 1]? = some c ∧ endSafe c = true := by
  rw [sepCore] at h
  dsimp only at h
  split at h
  · cases h
  · split at h
    case isTrue hlen =>
      simp only [Option.some.injEq] at h
      omega
    case isFalse hlen =>
      split at h
      case h_2 => cases h
      case h_1 k hk =>
        simp only [Option.some.injEq] at h
        subst h
        right
        have hkc := lastNlIdx_char hk
        have hklt := lastNlIdx_lt hk
        rw [List.getElem?_take] at hkc
        rw [List.length_take, List.length_drop] at hklt
        rw [if_pos (by omega)] at hkc
        rw [List.getElem?_drop] at hkc
        refine ⟨'\n', ?_, by decide⟩
        convert hkc using 2 <;> omega

/-- Separator matches end at the text end or after a newline. -/
theorem hitSeparator_end : HitEnd hitSeparator := by
  intro text i e h
  rw [hitSeparator] at h
  split at h
  · rcases sepCore_end h with h1 | h1
    · exact Or.inr (Or.inl h1)
    · exact Or.inr (Or.inr h1)
  · split at h
    · rcases sepCore_end h with h1 | h1
      · exact Or.inr (Or.inl h1)
      · exact Or.inr (Or.inr h1)
    · cases h

/-- Bullet matches end after whitespace. -/
theorem hitBullet_end : HitEnd hitBullet := by
  intro text i e h
  rw [hitBullet] at h
  split at h
  case isFalse => cases h
  case isTrue hc =>
    simp only [Option.some.injEq] at h
    subst h
    right; right
    obtain ⟨c, hcs, hcw⟩ := isSpaceAt_true hc.2.2.2
    exact ⟨c, by convert hcs using 2 <;> omega, endSafe_of_ws hcw⟩

/-- Numbered-list matches end after whitespace or a circled digit. -/
theorem hitNumbered_end (isDig : Char → Bool) :
    HitEnd (hitNumbered isDig) := by
  intro text i e h
  rw [hitNumbered] at h
  split at h
  case isFalse => cases h
  case isTrue =>
    dsimp only at h
    split at h
    case isTrue hc =>
      simp only [Option.some.injEq] at h
      subst h
      right; right
      obtain ⟨c, hcs, hcw⟩ := isSpaceAt_true hc.2.2.2
      exact ⟨c, by convert hcs using 2 <;> omega, endSafe_of_ws hcw⟩
    case isFalse =>
      split at h
      case h_2 => cases h
      case h_1 c hc =>
        split at h
        case isFalse => cases h
        case isTrue hcirc =>
          have hce : endSafe c = true := by
            rw [endSafe]
            simp only [Bool.or_eq_true, Bool.and_eq_true,
              decide_eq_true_eq]
            exact Or.inr ⟨hcirc.1, hcirc.2⟩
          split at h
          case h_1 c2 hc2 =>
            split at h
            case isTrue hw =>
              simp only [Option.some.injEq] at h
              subst h
              right; right
              exact ⟨c2, by convert hc2 using 2 <;> omega,
                endSafe_of_ws hw⟩
            case isFalse =>
              simp only [Option.some.injEq] at h
              subst h
              right; right
              exact ⟨c, by convert hc using 2 <;> omega, hce⟩
          case h_2 =>
            simp only [Option.some.injEq] at h
            subst h
            right; right
            exact ⟨c, by convert hc using 2 <;> omega, hce⟩

/-- The ending follower ends after whitespace or closing punctuation. -/
theorem endingFollower_end {text : List Char} {i e : Nat}
    (h : endingFollower text i = some e) :
    e = i ∨ e = text.length ∨
      ∃ c, text[e - 1]? = some c ∧ endSafe c = true := by
  rw [endingFollower] at h
  split at h
  case isTrue hw =>
    simp only [Option.some.injEq] at h
    subst h
    right; right
    obtain ⟨c, hc, hcw⟩ := wsRun_last text i hw
    exact ⟨c, by convert hc using 2 <;> omega, endSafe_of_ws hcw⟩
  case isFalse =>
    split at h
    case h_2 => cases h
    case h_1 c hc =>
      split at h
      case isFalse => cases h
      case isTrue hpunct =>
        simp only [Option.some.injEq] at h
        subst h
        right; right
        by_cases hw : 1 ≤ wsRun text (i + 1)
        · obtain ⟨d, hd, hdw⟩ := wsRun_last text (i + 1) hw
          refine ⟨d, ?_, endSafe_of_ws hdw⟩
          convert hd using 2 <;> omega
        · have hw0 : wsRun text (i + 1) = 0 := by omega
          refine ⟨c, by convert hc using 2 <;> omega, ?_⟩
          rcases hpunct with rfl | rfl | rfl | rfl | rfl | rfl <;> decide

/-- Ending-bank matches end after whitespace or closing punctuation. -/
theorem hitEnding_end (lits : List (List Char)) :
    HitEnd (hitEnding lits) := by
  intro text i e h
  rw [hitEnding] at h
  split at h
  · exact endingFollower_end h
  · cases h

/-- Weak-boundary matches are empty or end after whitespace. -/
theorem hitWeak_end : HitEnd hitWeak := by
  intro text i e h
  rw [hitWeak] at h
  have hws : ∀ e0, some (i + wsRun text i) = some e0 →
      e0 = i ∨ e0 = text.length ∨
        ∃ c, text[e0 - 1]? = some c ∧ endSafe c = true := by
    intro e0 h0
    simp only [Option.some.injEq] at h0
    subst h0
    by_cases hw : 1 ≤ wsRun text i
    · obtain ⟨c, hc, hcw⟩ := wsRun_last text i hw
      exact Or.inr (Or.inr ⟨c, hc, endSafe_of_ws hcw⟩)
    · left
      omega
  split at h
  · exact hws e h
  · split at h
    · simp only [Option.some.injEq] at h
      omega
    · split at h
      · exact hws e h
      · split at h
        · exact hws e h
        · split at h
          · exact hws e h
          · cases h

/-- Comma matches end after whitespace or the comma itself. -/
theorem hitComma_end : HitEnd hitComma := by
  intro text i e h
  rw [hitComma] at h
  split at h
  case isFalse => cases h
  case isTrue hc =>
    simp only [Option.some.injEq] at h
    subst h
    right; right
    by_cases hw : 1 ≤ wsRun text (i + 1)
    · obtain ⟨d, hd, hdw⟩ := wsRun_last text (i + 1) hw
      refine ⟨d, ?_, endSafe_of_ws hdw⟩
      convert hd using 2 <;> omega
    · have hw0 : wsRun text (i + 1) = 0 := by omega
      exact ⟨',', by convert hc using 2 <;> omega, by decide⟩

/-- Delimiter matches end after whitespace or the delimiter itself. -/
theorem hitDelim_end : HitEnd hitDelim := by
  intro text i e h
  rw [hitDelim] at h
  split at h
  case isFalse => cases h
  case isTrue hc =>
    simp only [Option.some.injEq] at h
    subst h
    right; right
    by_cases hw : 1 ≤ wsRun text (i + 1)
    · obtain ⟨d, hd, hdw⟩ := wsRun_last text (i + 1) hw
      refine ⟨d, ?_, endSafe_of_ws hdw⟩
      convert hd using 2 <;> omega
    · have hw0 : wsRun text (i + 1) = 0 := by omega
      rcases hc with hc | hc | hc
      · exact ⟨'/', by convert hc using 2 <;> omega, by decide⟩
      · exact ⟨'·', by convert hc using 2 <;> omega, by decide⟩
      · exact ⟨'|', by convert hc using 2 <;> omega, by decide⟩

/-- Parallel-go matches end after whitespace. -/
theorem hitParallelGo_end : HitEnd hitParallelGo := by
  intro text i e h
  rw [hitParallelGo] at h
  split at h
  case h_2 => cases h
  case h_1 p hp =>
    split at h
    case isFalse => cases h
    case isTrue hc =>
      simp only [Option.some.injEq] at h
      subst h
      right; right
      obtain ⟨d, hd, hdw⟩ := wsRun_last text (i + 1) hc.2.2.2.1
      refine ⟨d, ?_, endSafe_of_ws hdw⟩
      convert hd using 2 <;> omega

/-- Discourse-marker matches are empty. -/
theorem hitDiscourse_end : HitEnd hitDiscourse := by
  intro text i e h
  rw [hitDiscourse] at h
  split at h
  case isFalse => cases h
  case isTrue =>
    simp only [Option.some.injEq] at h
    exact Or.inl h.symm

/-- The full-length slice is the drop. -/
theorem pySlice_len (text : List Char) (prev : Nat) :
    pySlice text prev text.length = text.drop prev := by
  rw [pySlice, List.take_length]

/-- A stripped piece of a slice-exact text is emitted with both
endpoints outside placeholder interiors: its start continues the
previous cut or follows whitespace, and its stop precedes the next cut
or whitespace. -/
theorem piece_bd (isDig : Char → Bool) (M text : List Char)
    (ustart : Nat) (hd : digOK isDig)
    (htext : text = pySlice M ustart (ustart + text.length))
    (prev s : Nat) (hps : prev ≤ s) (hsl : s ≤ text.length)
    (hbdprev : bdOK isDig M (ustart + prev))
    (hbds : bdOK isDig M (ustart + s))
    (hne : pyStrip (pySlice text prev s) ≠ []) :
    bdOK isDig M
      (ustart + findSub text prev (pyStrip (pySlice text prev s))) ∧
    bdOK isDig M
      (ustart + findSub text prev (pyStrip (pySlice text prev s)) +
        (pyStrip (pySlice text prev s)).length) := by
  obtain ⟨raw, hraw_def⟩ : ∃ raw, pySlice text prev s = raw := ⟨_, rfl⟩
  rw [hraw_def] at hne ⊢
  have hraw : raw = (text.drop prev).take (s - prev) := by
    rw [← hraw_def, pySlice, List.drop_take]
  have hlenraw : raw.length = s - prev := by
    rw [← hraw_def]
    exact pySlice_length text hsl
  obtain ⟨sub, hsub_def⟩ : ∃ su, pyStrip raw = su := ⟨_, rfl⟩
  rw [hsub_def] at hne ⊢
  obtain ⟨wsL, hwsL⟩ : ∃ w, (raw.takeWhile pyIsSpace).length = w :=
    ⟨_, rfl⟩
  have hws_len : wsL + sub.length ≤ s - prev := by
    have := pyStrip_length_le raw
    rw [hwsL, hsub_def, hlenraw] at this
    omega
  have hrawget : ∀ j, j < s - prev → raw[j]? = text[prev + j]? := by
    intro j hj
    rw [hraw, List.getElem?_take, if_pos hj, List.getElem?_drop]
  have hocc2 : sub.isPrefixOf (text.drop (prev + wsL)) = true := by
    have h0 := pyStrip_occurs raw
    rw [hwsL, hsub_def] at h0
    rw [List.isPrefixOf_iff_prefix] at h0 ⊢
    have hdrop : raw.drop wsL =
        (text.drop (prev + wsL)).take (s - prev - wsL) := by
      rw [hraw, List.drop_take, List.drop_drop]
    rw [hdrop] at h0
    exact h0.trans (List.take_prefix _ _)
  have hhead : ∀ c, sub.head? = some c → pyIsSpace c = false := by
    intro c hc
    rw [← hsub_def] at hc
    exact pyStrip_head_not_space hc
  have hfind : findSub text prev sub = prev + wsL := by
    refine findSub_eq text sub hne hhead prev (prev + wsL)
      (Nat.le_add_right _ _) (by omega) hocc2 ?_
    intro j hj1 hj2
    obtain ⟨c, hc, hcw⟩ := takeWhile_get_sat pyIsSpace raw (j - prev)
      (by rw [hwsL]; omega)
    refine ⟨c, ?_, hcw⟩
    rw [hrawget (j - prev) (by omega)] at hc
    have he : prev + (j - prev) = j := by omega
    rw [he] at hc
    exact hc
  rw [hfind]
  constructor
  · rcases Nat.eq_zero_or_pos wsL with h0 | h0
    · rw [h0, Nat.add_zero]
      exact hbdprev
    · obtain ⟨c, hc, hcw⟩ := takeWhile_get_sat pyIsSpace raw (wsL - 1)
        (by rw [hwsL]; omega)
      rw [hrawget (wsL - 1) (by omega)] at hc
      have hM : M[ustart + (prev + (wsL - 1))]? =
          text[prev + (wsL - 1)]? :=
        slice_get htext (by omega)
      refine bdOK_pred isDig M _ c ?_
        (endSafe_phTok hd (endSafe_of_ws hcw))
      rw [show ustart + (prev + wsL) - 1 = ustart + (prev + (wsL - 1))
        from by omega, hM]
      exact hc
  · rcases Nat.lt_or_ge (wsL + sub.length) (s - prev) with hcase | hcase
    · have hdw : raw.dropWhile pyIsSpace = raw.drop wsL := by
        rw [dropWhile_eq_drop, hwsL]
      have hsplit : sub ++ (raw.dropWhile pyIsSpace).rtakeWhile
          pyIsSpace = raw.drop wsL := by
        rw [← hsub_def, pyStrip_eq_rdropWhile, rdrop_rtake, hdw]
      have hlens : (raw.drop wsL).length = s - prev - wsL := by
        rw [List.length_drop, hlenraw]
      have htrlen : ((raw.dropWhile pyIsSpace).rtakeWhile
          pyIsSpace).length = s - prev - wsL - sub.length := by
        have := congrArg List.length hsplit
        rw [List.length_append, hlens] at this
        omega
      obtain ⟨c0, hc0⟩ : ∃ c0, ((raw.dropWhile pyIsSpace).rtakeWhile
          pyIsSpace)[0]? = some c0 := by
        refine ⟨_, List.getElem?_eq_getElem ?_⟩
        rw [htrlen]
        omega
      have hc0w : pyIsSpace c0 = true :=
        List.mem_rtakeWhile_imp (List.getElem?_mem hc0)
      have hrawc : raw[wsL + sub.length]? = some c0 := by
        have h1 : (raw.drop wsL)[sub.length]? = some c0 := by
          rw [← hsplit, List.getElem?_append, if_neg (by omega),
            Nat.sub_self]
          exact hc0
        rw [List.getElem?_drop] at h1
        exact h1
      rw [hrawget (wsL + sub.length) hcase] at hrawc
      have hM : M[ustart + (prev + (wsL + sub.length))]? =
          text[prev + (wsL + sub.length)]? :=
        slice_get htext (by omega)
      refine bdOK_at isDig M _ c0 ?_
        (endSafe_phTok hd (endSafe_of_ws hc0w))
      rw [show ustart + (prev + wsL) + sub.length =
        ustart + (prev + (wsL + sub.length)) from by omega, hM]
      exact hrawc
    · have heq : ustart + (prev + wsL) + sub.length = ustart + s := by
        omega
      rw [heq]
      exact hbds

/-- The emission loop keeps both endpoints of every piece outside
placeholder interiors, and its final cut position stays safe. -/
theorem emitLoop_bd (isDig : Char → Bool) (M text : List Char)
    (ustart : Nat) (conf : Rat) (hd : digOK isDig)
    (htext : text = pySlice M ustart (ustart + text.length)) :
    ∀ pts prev,
      (∀ p ∈ pts, p.1 ≤ p.2 ∧ p.2 ≤ text.length) →
      (∀ p ∈ pts, prev ≤ p.1) →
      (∀ p ∈ pts, bdOK isDig M (ustart + p.1) ∧
        bdOK isDig M (ustart + p.2)) →
      List.Pairwise (fun p q => p.2 ≤ q.1) pts →
      bdOK isDig M (ustart + prev) →
      bdOK isDig M (ustart + (emitLoop text ustart conf pts prev).2) ∧
      ∀ c ∈ (emitLoop text ustart conf pts prev).1,
        bdOK isDig M c.start ∧ bdOK isDig M c.stop := by
  intro pts
  induction pts with
  | nil =>
    intro prev _ _ _ _ hprev
    exact ⟨hprev, fun c hc => absurd hc (List.not_mem_nil c)⟩
  | cons pr rest ih =>
    obtain ⟨s, e⟩ := pr
    intro prev hb hst hbd hp hprev
    have hb1 := hb (s, e) (List.mem_cons_self _ _)
    have hst1 := hst (s, e) (List.mem_cons_self _ _)
    have hbd1 := hbd (s, e) (List.mem_cons_self _ _)
    obtain ⟨hhead2, hp2⟩ := List.pairwise_cons.mp hp
    have hrec := ih e
      (fun q hq => hb q (List.mem_cons_of_mem _ hq))
      (fun q hq => hhead2 q hq)
      (fun q hq => hbd q (List.mem_cons_of_mem _ hq))
      hp2 hbd1.2
    rw [emitLoop]
    dsimp only
    split
    · exact hrec
    case isFalse hne =>
      refine ⟨hrec.1, ?_⟩
      intro c hc
      rcases List.mem_cons.mp hc with rfl | hc2
      · exact piece_bd isDig M text ustart hd htext prev s hst1
          (by omega) hprev hbd1.1 hne
      · exact hrec.2 c hc2

/-- The tail emission keeps both endpoints outside placeholder
interiors. -/
theorem tailUnit_bd (isDig : Char → Bool) (M text : List Char)
    (ustart : Nat) (conf : Rat) (hd : digOK isDig)
    (htext : text = pySlice M ustart (ustart + text.length))
    (prev : Nat) (hprevle : prev ≤ text.length)
    (hprev : bdOK isDig M (ustart + prev))
    (hlen : bdOK isDig M (ustart + text.length)) :
    ∀ c ∈ tailUnit text ustart conf prev,
      bdOK isDig M c.start ∧ bdOK isDig M c.stop := by
  intro c hc
  rw [tailUnit] at hc
  dsimp only at hc
  split at hc
  · cases hc
  case isFalse hne =>
    rcases List.mem_singleton.mp hc with rfl
    have hne2 : pyStrip (pySlice text prev text.length) ≠ [] := by
      rw [pySlice_len]
      exact hne
    have := piece_bd isDig M text ustart hd htext prev text.length
      hprevle le_rfl hprev hlen hne2
    rw [pySlice_len] at this
    exact this

/-- The common split-emission body keeps every child's endpoints
outside placeholder interiors. -/
theorem split_body_bd (isDig : Char → Bool) (M : List Char)
    (hd : digOK isDig) (u : SplitUnit) (hu : preU M u)
    (hub : unitBD isDig M u) (conf : Rat) (pts : List (Nat × Nat))
    (hb : ∀ p ∈ pts, p.1 ≤ p.2 ∧ p.2 ≤ u.text.length)
    (hp : List.Pairwise (fun p q => p.2 ≤ q.1) pts)
    (hbd : ∀ p ∈ pts, bdOK isDig M (u.start + p.1) ∧
      bdOK isDig M (u.start + p.2)) :
    ∀ c ∈ (emitLoop u.text u.start conf pts 0).1 ++
        tailUnit u.text u.start conf (emitLoop u.text u.start conf pts 0).2,
      bdOK isDig M c.start ∧ bdOK isDig M c.stop := by
  have htext := preU_htext hu
  have hspan := preU_span hu
  have hlenbd : bdOK isDig M (u.start + u.text.length) := by
    rw [← hspan.2]
    exact hub.2
  obtain ⟨hfin, hpieces⟩ := emitLoop_bd isDig M u.text u.start conf hd
    htext pts 0 hb (fun p _ => Nat.zero_le _) hbd hp
    (by rw [Nat.add_zero]; exact hub.1)
  obtain ⟨_, hfinle, _, _⟩ := emitLoop_spec M u.text u.start conf htext
    pts 0 hb hp (Nat.zero_le _) (fun p _ => Nat.zero_le _)
  have htail := tailUnit_bd isDig M u.text u.start conf hd htext
    (emitLoop u.text u.start conf pts 0).2 hfinle hfin hlenbd
  intro c hc
  rcases List.mem_append.mp hc with hc1 | hc2
  · exact hpieces c hc1
  · exact htail c hc2

/-- Kept matches of a bounded, end-safe hit have both endpoints outside
placeholder interiors. -/
theorem matches_bd (isDig : Char → Bool) (M : List Char)
    (hd : digOK isDig) {hit : List Char → Nat → Option Nat}
    (hB : HitBound hit) (hE : HitEnd hit) (u : SplitUnit)
    (hu : preU M u) (hub : unitBD isDig M u) (strongB : Bool) :
    ∀ p ∈ (finditer hit u.text).filter (fun p =>
        !(isInProtected (u.start + p.1)
          (collectProtectedRanges isDig M) strongB)),
      bdOK isDig M (u.start + p.1) ∧ bdOK isDig M (u.start + p.2) := by
  intro p hp
  have htext := preU_htext hu
  have hmem := List.mem_of_mem_filter hp
  have hfil := (List.mem_filter.mp hp).2
  rw [Bool.not_eq_true'] at hfil
  have h1 : bdOK isDig M (u.start + p.1) :=
    bdOK_notProt isDig M _ strongB hfil
  have hhit := finditer_mem hmem
  have hbound := (finditer_spec hit hB u.text).1 p hmem
  refine ⟨h1, ?_⟩
  rcases hE u.text p.1 p.2 hhit with he | he | ⟨c, hc, hcs⟩
  · rw [he]
    exact h1
  · rw [he, ← (preU_span hu).2]
    exact hub.2
  · by_cases h0 : p.2 = 0
    · have hp1 : p.1 = 0 := by omega
      rw [h0, ← hp1]
      exact h1
    · have hlt : p.2 - 1 < u.text.length := by
        obtain ⟨hl, _⟩ := List.getElem?_eq_some.mp hc
        exact hl
      have hM := slice_get htext hlt
      refine bdOK_pred isDig M _ c ?_ (endSafe_phTok hd hcs)
      rw [show u.start + p.2 - 1 = u.start + (p.2 - 1) from by omega,
        hM]
      exact hc

/-- `_apply_split_pattern` keeps endpoints outside placeholder
interiors, for one unit. -/
theorem applySplitPatternU_bd (isDig : Char → Bool) (M : List Char)
    (hd : digOK isDig) {hit : List Char → Nat → Option Nat}
    (hB : HitBound hit) (hE : HitEnd hit) (conf : Rat) (strongB : Bool)
    (u : SplitUnit) (hu : preU M u) (hub : unitBD isDig M u) :
    ∀ c ∈ applySplitPatternU hit (collectProtectedRanges isDig M) conf
      strongB u, bdOK isDig M c.start ∧ bdOK isDig M c.stop := by
  intro c hc
  rw [applySplitPatternU] at hc
  dsimp only at hc
  split at hc
  · rcases List.mem_singleton.mp hc with rfl
    exact hub
  · obtain ⟨hmb, hmp⟩ := filtered_finditer_ok hB u.text
      (fun p => !(isInProtected (u.start + p.1)
        (collectProtectedRanges isDig M) strongB))
    split at hc
    · rcases List.mem_singleton.mp hc with rfl
      exact hub
    · exact split_body_bd isDig M hd u hu hub _ _ hmb hmp
        (matches_bd isDig M hd hB hE u hu hub strongB) c hc

/-- `_apply_split_pattern_with_connective_filter` keeps endpoints
outside placeholder interiors, for one unit. -/
theorem applyWithFilterU_bd (isDig : Char → Bool) (M : List Char)
    (hd : digOK isDig) (lits : List (List Char)) (conf : Rat)
    (u : SplitUnit) (hu : preU M u) (hub : unitBD isDig M u) :
    ∀ c ∈ applyWithFilterU lits (collectProtectedRanges isDig M) conf
      u, bdOK isDig M c.start ∧ bdOK isDig M c.stop := by
  intro c hc
  rw [applyWithFilterU] at hc
  dsimp only at hc
  split at hc
  · rcases List.mem_singleton.mp hc with rfl
    exact hub
  · obtain ⟨hmb, hmp⟩ := filtered_finditer_ok (hitEnding_bound lits)
      u.text (fun p => !(isInProtected (u.start + p.1)
        (collectProtectedRanges isDig M) false))
    have hsel := selectEndingPoints_sublist u.text
      (((finditer (hitEnding lits) u.text)).filter
        (fun p => !(isInProtected (u.start + p.1)
          (collectProtectedRanges isDig M) false))) 0
    split at hc
    · rcases List.mem_singleton.mp hc with rfl
      exact hub
    · exact split_body_bd isDig M hd u hu hub _ _
        (fun p hp => hmb p (hsel.subset hp)) (hmp.sublist hsel)
        (fun p hp => matches_bd isDig M hd (hitEnding_bound lits)
          (hitEnding_end lits) u hu hub false p (hsel.subset hp)) c hc

/-- `_try_split_by_delimiter` keeps endpoints outside placeholder
interiors on success. -/
theorem tryDelimSplit_bd (isDig : Char → Bool) (M : List Char)
    (hd : digOK isDig) {hit : List Char → Nat → Option Nat}
    (hB : HitBound hit) (hE : HitEnd hit) (u : SplitUnit)
    (hu : preU M u) (hub : unitBD isDig M u) {ps : List SplitUnit}
    (h : tryDelimSplit (collectProtectedRanges isDig M) u hit =
      some ps) :
    ∀ c ∈ ps, bdOK isDig M c.start ∧ bdOK isDig M c.stop := by
  rw [tryDelimSplit] at h
  dsimp only at h
  split at h
  · cases h
  · obtain ⟨hmb, hmp⟩ := filtered_finditer_ok hB u.text
      (fun p => !(isInProtected (u.start + p.1)
        (collectProtectedRanges isDig M) false))
    split at h
    · cases h
    · split at h
      · cases h
      · simp only [Option.some.injEq] at h
        subst h
        exact split_body_bd isDig M hd u hu hub _ _ hmb hmp
          (matches_bd isDig M hd hB hE u hu hub false)

/-- `_split_enumerations` keeps endpoints outside placeholder
interiors, for one unit. -/
theorem splitEnumerationsU_bd (isDig : Char → Bool) (M : List Char)
    (hd : digOK isDig) (enumMin : Nat) (u : SplitUnit)
    (hu : preU M u) (hub : unitBD isDig M u) :
    ∀ c ∈ splitEnumerationsU (collectProtectedRanges isDig M) enumMin
      u, bdOK isDig M c.start ∧ bdOK isDig M c.stop := by
  intro c hc
  rw [splitEnumerationsU] at hc
  split at hc
  · rcases List.mem_singleton.mp hc with rfl
    exact hub
  · split at hc
    case h_1 ps hps =>
      exact tryDelimSplit_bd isDig M hd hitComma_bound hitComma_end u
        hu hub hps c hc
    case h_2 =>
      split at hc
      case h_1 ps hps =>
        exact tryDelimSplit_bd isDig M hd hitDelim_bound hitDelim_end u
          hu hub hps c hc
      case h_2 =>
        split at hc
        case h_1 ps hps =>
          exact tryDelimSplit_bd isDig M hd hitParallelGo_bound
            hitParallelGo_end u hu hub hps c hc
        case h_2 =>
          rcases List.mem_singleton.mp hc with rfl
          exact hub

/-- `_split_discourse_markers` keeps endpoints outside placeholder
interiors, for one unit. -/
theorem splitDiscourseMarkersU_bd (isDig : Char → Bool) (M : List Char)
    (hd : digOK isDig) (dmMin : Nat) (u : SplitUnit)
    (hu : preU M u) (hub : unitBD isDig M u) :
    ∀ c ∈ splitDiscourseMarkersU (collectProtectedRanges isDig M) dmMin
      u, bdOK isDig M c.start ∧ bdOK isDig M c.stop := by
  intro c hc
  rw [splitDiscourseMarkersU] at hc
  dsimp only at hc
  split at hc
  · rcases List.mem_singleton.mp hc with rfl
    exact hub
  · obtain ⟨hmb0, hmp0⟩ := filtered_finditer_ok hitDiscourse_bound
      u.text (fun p => !(isInProtected (u.start + p.1)
        (collectProtectedRanges isDig M) false))
    have hmb : ∀ p ∈ (((finditer hitDiscourse u.text).filter (fun p =>
        !(isInProtected (u.start + p.1)
          (collectProtectedRanges isDig M) false))).filter (fun p =>
          !(isCompoundMarker (u.text.drop p.2)) &&
          decide (4 < (pyStrip (u.text.drop p.2)).length))),
        p.1 ≤ p.2 ∧ p.2 ≤ u.text.length :=
      fun p hp => hmb0 p (List.mem_of_mem_filter hp)
    have hmp := hmp0.sublist (@List.filter_sublist (Nat × Nat)
      (fun p => !(isCompoundMarker (u.text.drop p.2)) &&
        decide (4 < (pyStrip (u.text.drop p.2)).length)) _)
    have hmapb : ∀ q ∈ ((((finditer hitDiscourse u.text).filter (fun p =>
        !(isInProtected (u.start + p.1)
          (collectProtectedRanges isDig M) false))).filter (fun p =>
          !(isCompoundMarker (u.text.drop p.2)) &&
          decide (4 < (pyStrip (u.text.drop p.2)).length))).map
            (fun p => (p.2, p.2))),
        q.1 ≤ q.2 ∧ q.2 ≤ u.text.length := by
      intro q hq
      obtain ⟨p, hp, rfl⟩ := List.mem_map.mp hq
      exact ⟨le_rfl, (hmb p hp).2⟩
    have hmapp : List.Pairwise (fun p q => p.2 ≤ q.1)
        ((((finditer hitDiscourse u.text).filter (fun p =>
          !(isInProtected (u.start + p.1)
            (collectProtectedRanges isDig M) false))).filter (fun p =>
            !(isCompoundMarker (u.text.drop p.2)) &&
            decide (4 < (pyStrip (u.text.drop p.2)).length))).map
              (fun p => (p.2, p.2))) := by
      rw [List.pairwise_map]
      refine List.Pairwise.imp_of_mem ?_ hmp
      intro a b ha hb hr
      have := (hmb b hb).1
      dsimp only
      omega
    have hmapbd : ∀ q ∈ ((((finditer hitDiscourse u.text).filter
        (fun p => !(isInProtected (u.start + p.1)
          (collectProtectedRanges isDig M) false))).filter (fun p =>
          !(isCompoundMarker (u.text.drop p.2)) &&
          decide (4 < (pyStrip (u.text.drop p.2)).length))).map
            (fun p => (p.2, p.2))),
        bdOK isDig M (u.start + q.1) ∧ bdOK isDig M (u.start + q.2) := by
      intro q hq
      obtain ⟨p, hp, rfl⟩ := List.mem_map.mp hq
      have := (matches_bd isDig M hd hitDiscourse_bound hitDiscourse_end
        u hu hub false p (List.mem_of_mem_filter hp)).2
      exact ⟨this, this⟩
    split at hc
    · rcases List.mem_singleton.mp hc with rfl
      exact hub
    · exact split_body_bd isDig M hd u hu hub _ _ hmapb hmapp hmapbd
        c hc

/-- The best-split search returns a cut one past an unprotected
space, comma or newline. -/
theorem bestSplitFold_char (chunk : List Char) (ustart mid : Nat)
    (ranges : List ProtectedRange) (avoidPost : Bool) (idxs : List Nat)
    (p : Nat × Nat)
    (h : bestSplitFold chunk ustart mid ranges avoidPost idxs = some p) :
    ∃ i, p.2 = i + 1 ∧
      (∃ c, chunk[i]? = some c ∧ (c = ' ' ∨ c = ',' ∨ c = '\n')) ∧
      isInProtected (ustart + i) ranges false = false := by
  rw [bestSplitFold] at h
  suffices hgen : ∀ (l : List Nat) (acc : Option (Nat × Nat)),
      l.foldl (fun best i =>
        match chunk[i]? with
        | some c =>
          if (c = ' ' ∨ c = ',' ∨ c = '\n') ∧
              isInProtected (ustart + i) ranges false = false ∧
              (avoidPost = false ∨ isAfterPostposition chunk i = false) then
            let dist := max i mid - min i mid
            match best with
            | some bd => if dist < bd.1 then some (dist, i + 1) else best
            | none => some (dist, i + 1)
          else best
        | none => best) acc = some p →
      acc = some p ∨ ∃ i, p.2 = i + 1 ∧
        (∃ c, chunk[i]? = some c ∧ (c = ' ' ∨ c = ',' ∨ c = '\n')) ∧
        isInProtected (ustart + i) ranges false = false by
    rcases hgen idxs none h with h1 | h2
    · cases h1
    · exact h2
  intro l
  induction l with
  | nil =>
    intro acc h0
    exact Or.inl h0
  | cons i rest ih =>
    intro acc h0
    rw [List.foldl_cons] at h0
    rcases ih _ h0 with h1 | h2
    · dsimp only at h1
      split at h1
      case h_1 c hcc =>
        split at h1
        case isTrue hcond =>
          split at h1
          case h_1 bd hbd =>
            split at h1
            · right
              refine ⟨i, ?_, ⟨c, hcc, hcond.1⟩, hcond.2.1⟩
              injection h1 with h2
              rw [← h2]
            · exact Or.inl h1
          case h_2 hbd =>
            right
            refine ⟨i, ?_, ⟨c, hcc, hcond.1⟩, hcond.2.1⟩
            injection h1 with h2
            rw [← h2]
        case isFalse => exact Or.inl h1
      case h_2 hcc => exact Or.inl h1
    · exact Or.inr h2

/-- `_force_split_long` keeps endpoints outside placeholder interiors,
for one unit. -/
theorem forceSplitUnit_bd (isDig : Char → Bool) (M : List Char)
    (hd : digOK isDig) (maxLen : Nat) (u : SplitUnit) (hu : preU M u)
    (hub : unitBD isDig M u) :
    ∀ c ∈ (forceSplitUnit (collectProtectedRanges isDig M) maxLen
      u).1, bdOK isDig M c.start ∧ bdOK isDig M c.stop := by
  intro c hc
  have htext := preU_htext hu
  have hspan := preU_span hu
  rw [forceSplitUnit] at hc
  dsimp only at hc
  split at hc
  · rcases List.mem_singleton.mp hc with rfl
    exact hub
  case isFalse hlen =>
    split at hc
    case h_2 =>
      rcases List.mem_singleton.mp hc with rfl
      exact hub
    case h_1 bs heq =>
      have hbs : ∃ i, bs = i + 1 ∧
          (∃ c0, u.text[i]? = some c0 ∧
            (c0 = ' ' ∨ c0 = ',' ∨ c0 = '\n')) ∧
          isInProtected (u.start + i)
            (collectProtectedRanges isDig M) false = false := by
        split at heq
        case h_1 q hq =>
          obtain ⟨i, h2, hch, hprot⟩ := bestSplitFold_char _ _ _ _ _ _ _ hq
          injection heq with h3
          exact ⟨i, by omega, hch, hprot⟩
        case h_2 hq =>
          obtain ⟨q, hq1, hq2⟩ := Option.map_eq_some'.mp heq
          obtain ⟨i, h2, hch, hprot⟩ :=
            bestSplitFold_char _ _ _ _ _ _ _ hq1
          exact ⟨i, by omega, hch, hprot⟩
      obtain ⟨i, hbsi, ⟨c0, hc0, hc0s⟩, hprot⟩ := hbs
      have hilen : i < u.text.length := (List.getElem?_eq_some.mp hc0).1
      have hbslen : bs ≤ u.text.length := by omega
      have hce : endSafe c0 = true := by
        rcases hc0s with rfl | rfl | rfl <;> decide
      have hbsbd : bdOK isDig M (u.start + bs) := by
        have hM := slice_get htext hilen
        refine bdOK_pred isDig M _ c0 ?_ (endSafe_phTok hd hce)
        rw [show u.start + bs - 1 = u.start + i from by omega, hM]
        exact hc0
      have h0bd : bdOK isDig M (u.start + 0) := by
        rw [Nat.add_zero]
        exact hub.1
      have hlenbd : bdOK isDig M (u.start + u.text.length) := by
        rw [← hspan.2]
        exact hub.2
      have hslice0 : pySlice u.text 0 bs = u.text.take bs := by
        rw [pySlice, List.drop_zero]
      have hsliceR : pySlice u.text bs u.text.length =
          u.text.drop bs := pySlice_len u.text bs
      rw [List.mem_append] at hc
      rcases hc with hc | hc
      · split at hc
        · cases hc
        case isFalse hL =>
          rcases List.mem_singleton.mp hc with rfl
          have hL2 : pyStrip (pySlice u.text 0 bs) ≠ [] := by
            rw [hslice0]
            exact hL
          have hres := piece_bd isDig M u.text u.start hd htext 0 bs
            (Nat.zero_le _) hbslen h0bd hbsbd hL2
          rw [hslice0] at hres
          exact hres
      · split at hc
        · cases hc
        case isFalse hR =>
          rcases List.mem_singleton.mp hc with rfl
          have hR2 : pyStrip (pySlice u.text bs u.text.length) ≠ [] := by
            rw [hsliceR]
            exact hR
          have hres := piece_bd isDig M u.text u.start hd htext bs
            u.text.length hbslen le_rfl hbsbd hlenbd hR2
          rw [hsliceR] at hres
          exact hres

/-- One force-split pass keeps endpoints outside placeholder
interiors. -/
theorem forceSplitPass_bd (isDig : Char → Bool) (M : List Char)
    (hd : digOK isDig) (maxLen : Nat) (us : List SplitUnit)
    (hall : ∀ u ∈ us, preU M u)
    (hbd : ∀ u ∈ us, unitBD isDig M u) :
    ∀ c ∈ (forceSplitPass (collectProtectedRanges isDig M) maxLen
      us).1, bdOK isDig M c.start ∧ bdOK isDig M c.stop := by
  rw [forceSplitPass_fst]
  intro c hc
  obtain ⟨u, hu, hcu⟩ := List.mem_flatMap.mp hc
  exact forceSplitUnit_bd isDig M hd maxLen u (hall u hu) (hbd u hu)
    c hcu

/-- The bounded force-split iteration keeps endpoints outside
placeholder interiors. -/
theorem forceSplitLongGo_bd (isDig : Char → Bool) (M : List Char)
    (hd : digOK isDig) (maxLen : Nat) :
    ∀ (k : Nat) (us : List SplitUnit),
      List.Pairwise (fun a b => a.stop ≤ b.start) us →
      (∀ u ∈ us, preU M u) →
      (∀ u ∈ us, unitBD isDig M u) →
      ∀ c ∈ forceSplitLongGo (collectProtectedRanges isDig M) maxLen
        k us, bdOK isDig M c.start ∧ bdOK isDig M c.stop := by
  intro k
  induction k with
  | zero =>
    intro us _ _ hbd c hc
    rw [forceSplitLongGo] at hc
    exact hbd c hc
  | succ n ih =>
    intro us hp hall hbd c hc
    rw [forceSplitLongGo] at hc
    obtain ⟨h1, h2⟩ := forceSplitPass_ok M
      (collectProtectedRanges isDig M) maxLen us hp hall
    have h3 := forceSplitPass_bd isDig M hd maxLen us hall hbd
    split at hc
    · exact ih _ h1 h2 h3 c hc
    · exact h3 c hc

/-- `_merge_group` spans from a member's start to a member's stop. -/
theorem mergeGroup_endpoints (g : List SplitUnit) (hg : g ≠ []) :
    (∃ v ∈ g, (mergeGroup g).start = v.start) ∧
    (∃ w ∈ g, (mergeGroup g).stop = w.stop) := by
  cases g with
  | nil => exact absurd rfl hg
  | cons u gs =>
    have hcne : (u :: gs) ≠ [] := by simp
    have hlq := List.getLast?_eq_getLast (u :: gs) hcne
    refine ⟨⟨u, List.mem_cons_self _ _, by rw [mergeGroup]⟩,
      ⟨(u :: gs).getLast hcne, List.getLast_mem hcne, ?_⟩⟩
    rw [mergeGroup]
    show (((u :: gs).getLast?).getD u).stop = _
    rw [hlq]
    rfl

/-- Every output of the merge walk starts at some input's start and
stops at some input's stop. -/
theorem mergeGoF_endpoints (isDig : Char → Bool) :
    ∀ (fuel : Nat) (us : List SplitUnit), ∀ c ∈ mergeGoF isDig fuel us,
      (∃ v ∈ us, c.start = v.start) ∧ (∃ w ∈ us, c.stop = w.stop) := by
  intro fuel
  induction fuel with
  | zero =>
    intro us c hc
    rw [mergeGoF] at hc
    exact ⟨⟨c, hc, rfl⟩, ⟨c, hc, rfl⟩⟩
  | succ n ih =>
    intro us c hc
    rw [mergeGoF] at hc
    have htws := List.takeWhile_sublist
      (fun u : SplitUnit => decide (u.text.length < segMinSegLen))
      (l := us)
    have hdws := List.dropWhile_sublist
      (fun u : SplitUnit => decide (u.text.length < segMinSegLen))
      (l := us)
    have hproc : ∀ c0 ∈ (if segMinShortConsecutive ≤ (us.takeWhile
          (fun u => decide (u.text.length < segMinSegLen))).length then
        (groupByPH isDig (us.takeWhile
          (fun u => decide (u.text.length < segMinSegLen))) []).flatMap
          (fun g => if segMinShortConsecutive ≤ g.length then
            [mergeGroup g] else g)
      else us.takeWhile
        (fun u => decide (u.text.length < segMinSegLen))),
        (∃ v ∈ us, c0.start = v.start) ∧
        (∃ w ∈ us, c0.stop = w.stop) := by
      intro c0 hc0
      split at hc0
      · obtain ⟨g, hg, hcg⟩ := List.mem_flatMap.mp hc0
        have hgsub : List.Sublist g (us.takeWhile
            (fun u => decide (u.text.length < segMinSegLen))) := by
          have := groupByPH_subset isDig (us.takeWhile
            (fun u => decide (u.text.length < segMinSegLen))) [] g hg
          rwa [List.nil_append] at this
        split at hcg
        · rcases List.mem_singleton.mp hcg with rfl
          obtain ⟨⟨v, hv, hvs⟩, ⟨w, hw, hws⟩⟩ := mergeGroup_endpoints g
            (groupByPH_ne isDig _ [] g hg)
          exact ⟨⟨v, htws.subset (hgsub.subset hv), hvs⟩,
            ⟨w, htws.subset (hgsub.subset hw), hws⟩⟩
        · exact ⟨⟨c0, htws.subset (hgsub.subset hcg), rfl⟩,
            ⟨c0, htws.subset (hgsub.subset hcg), rfl⟩⟩
      · exact ⟨⟨c0, htws.subset hc0, rfl⟩, ⟨c0, htws.subset hc0, rfl⟩⟩
    split at hc
    case h_1 hrest => exact hproc c hc
    case h_2 r rs hrest =>
      rw [List.mem_append] at hc
      rcases hc with hc | hc
      · exact hproc c hc
      · have hrmem : ∀ v ∈ r :: rs, v ∈ us := by
          intro v hv
          exact hdws.subset (hrest ▸ hv)
        rcases List.mem_cons.mp hc with rfl | hc2
        · exact ⟨⟨c, hrmem c (List.mem_cons_self _ _), rfl⟩,
            ⟨c, hrmem c (List.mem_cons_self _ _), rfl⟩⟩
        · obtain ⟨⟨v, hv, hvs⟩, ⟨w, hw, hws⟩⟩ := ih rs c hc2
          exact ⟨⟨v, hrmem v (List.mem_cons_of_mem _ hv), hvs⟩,
            ⟨w, hrmem w (List.mem_cons_of_mem _ hw), hws⟩⟩

/-- `_merge_short_units` keeps endpoints outside placeholder
interiors. -/
theorem mergeShortUnits_bd (isDig : Char → Bool) (M : List Char)
    (us : List SplitUnit) (hbd : ∀ u ∈ us, unitBD isDig M u) :
    ∀ c ∈ mergeShortUnits isDig us,
      bdOK isDig M c.start ∧ bdOK isDig M c.stop := by
  rw [mergeShortUnits]
  split
  · exact fun c hc => hbd c hc
  · intro c hc
    obtain ⟨⟨v, hv, hvs⟩, ⟨w, hw, hws⟩⟩ :=
      mergeGoF_endpoints isDig us.length us c hc
    rw [hvs, hws]
    exact ⟨(hbd v hv).1, (hbd w hw).2⟩

/-- `_apply_split_pattern` keeps endpoints outside placeholder
interiors. -/
theorem applySplitPattern_bd (isDig : Char → Bool) (M : List Char)
    (hd : digOK isDig) {hit : List Char → Nat → Option Nat}
    (hB : HitBound hit) (hE : HitEnd hit) (conf : Rat) (strongB : Bool)
    (us : List SplitUnit) (hall : ∀ u ∈ us, preU M u)
    (hbd : ∀ u ∈ us, unitBD isDig M u) :
    ∀ c ∈ applySplitPattern hit (collectProtectedRanges isDig M) conf
      strongB us, bdOK isDig M c.start ∧ bdOK isDig M c.stop := by
  rw [applySplitPattern]
  intro c hc
  obtain ⟨u, hu, hcu⟩ := List.mem_flatMap.mp hc
  exact applySplitPatternU_bd isDig M hd hB hE conf strongB u
    (hall u hu) (hbd u hu) c hcu

/-- `_apply_split_pattern_with_connective_filter` keeps endpoints
outside placeholder interiors. -/
theorem applyWithFilter_bd (isDig : Char → Bool) (M : List Char)
    (hd : digOK isDig) (lits : List (List Char)) (conf : Rat)
    (us : List SplitUnit) (hall : ∀ u ∈ us, preU M u)
    (hbd : ∀ u ∈ us, unitBD isDig M u) :
    ∀ c ∈ applyWithFilter lits (collectProtectedRanges isDig M) conf
      us, bdOK isDig M c.start ∧ bdOK isDig M c.stop := by
  rw [applyWithFilter]
  intro c hc
  obtain ⟨u, hu, hcu⟩ := List.mem_flatMap.mp hc
  exact applyWithFilterU_bd isDig M hd lits conf u (hall u hu)
    (hbd u hu) c hcu

/-- `_split_enumerations` keeps endpoints outside placeholder
interiors. -/
theorem splitEnumerations_bd (isDig : Char → Bool) (M : List Char)
    (hd : digOK isDig) (enumMin : Nat) (us : List SplitUnit)
    (hall : ∀ u ∈ us, preU M u) (hbd : ∀ u ∈ us, unitBD isDig M u) :
    ∀ c ∈ splitEnumerations (collectProtectedRanges isDig M) enumMin
      us, bdOK isDig M c.start ∧ bdOK isDig M c.stop := by
  rw [splitEnumerations]
  intro c hc
  obtain ⟨u, hu, hcu⟩ := List.mem_flatMap.mp hc
  exact splitEnumerationsU_bd isDig M hd enumMin u (hall u hu)
    (hbd u hu) c hcu

/-- `_split_discourse_markers` keeps endpoints outside placeholder
interiors. -/
theorem splitDiscourseMarkers_bd (isDig : Char → Bool) (M : List Char)
    (hd : digOK isDig) (dmMin : Nat) (us : List SplitUnit)
    (hall : ∀ u ∈ us, preU M u) (hbd : ∀ u ∈ us, unitBD isDig M u) :
    ∀ c ∈ splitDiscourseMarkers (collectProtectedRanges isDig M) dmMin
      us, bdOK isDig M c.start ∧ bdOK isDig M c.stop := by
  rw [splitDiscourseMarkers]
  intro c hc
  obtain ⟨u, hu, hcu⟩ := List.mem_flatMap.mp hc
  exact splitDiscourseMarkersU_bd isDig M hd dmMin u (hall u hu)
    (hbd u hu) c hcu

/-- `_split_strong_boundaries` keeps endpoints outside placeholder
interiors. -/
theorem splitStrongBoundaries_bd (isDig : Char → Bool) (M : List Char)
    (hd : digOK isDig) (us : List SplitUnit)
    (hp : List.Pairwise (fun a b => a.stop ≤ b.start) us)
    (hall : ∀ u ∈ us, preU M u) (hbd : ∀ u ∈ us, unitBD isDig M u) :
    ∀ c ∈ splitStrongBoundaries isDig (collectProtectedRanges isDig M)
      us, bdOK isDig M c.start ∧ bdOK isDig M c.stop := by
  rw [splitStrongBoundaries]
  obtain ⟨hp1, ha1⟩ := applySplitPattern_ok M hitBlankLine_bound
    (collectProtectedRanges isDig M) 1 true us hp hall
  have hb1 := applySplitPattern_bd isDig M hd hitBlankLine_bound
    hitBlankLine_end 1 true us hall hbd
  obtain ⟨hp2, ha2⟩ := applySplitPattern_ok M hitSeparator_bound
    (collectProtectedRanges isDig M) 1 true _ hp1 ha1
  have hb2 := applySplitPattern_bd isDig M hd hitSeparator_bound
    hitSeparator_end 1 true _ ha1 hb1
  obtain ⟨hp3, ha3⟩ := applySplitPattern_ok M hitBullet_bound
    (collectProtectedRanges isDig M) 1 true _ hp2 ha2
  have hb3 := applySplitPattern_bd isDig M hd hitBullet_bound
    hitBullet_end 1 true _ ha2 hb2
  exact applySplitPattern_bd isDig M hd (hitNumbered_bound isDig)
    (hitNumbered_end isDig) 1 true _ ha3 hb3

/-- `_split_korean_endings` keeps endpoints outside placeholder
interiors. -/
theorem splitKoreanEndings_bd (isDig : Char → Bool) (M : List Char)
    (hd : digOK isDig) (us : List SplitUnit)
    (hp : List.Pairwise (fun a b => a.stop ≤ b.start) us)
    (hall : ∀ u ∈ us, preU M u) (hbd : ∀ u ∈ us, unitBD isDig M u) :
    ∀ c ∈ splitKoreanEndings (collectProtectedRanges isDig M) us,
      bdOK isDig M c.start ∧ bdOK isDig M c.stop := by
  rw [splitKoreanEndings]
  obtain ⟨hp1, ha1⟩ := applyWithFilter_ok M endingFormalLits
    (collectProtectedRanges isDig M) (19/20) us hp hall
  have hb1 := applyWithFilter_bd isDig M hd endingFormalLits (19/20)
    us hall hbd
  obtain ⟨hp2, ha2⟩ := applyWithFilter_ok M endingPoliteLits
    (collectProtectedRanges isDig M) (19/20) _ hp1 ha1
  have hb2 := applyWithFilter_bd isDig M hd endingPoliteLits (19/20)
    _ ha1 hb1
  obtain ⟨hp3, ha3⟩ := applyWithFilter_ok M endingCasualLits
    (collectProtectedRanges isDig M) (19/20) _ hp2 ha2
  have hb3 := applyWithFilter_bd isDig M hd endingCasualLits (19/20)
    _ ha2 hb2
  exact applyWithFilter_bd isDig M hd endingNarrativeLits (19/20)
    _ ha3 hb3

/-- C5: the claimed segmentation invariant fails as stated: on the
masked text `아.\n나.\n다.\n라.` the merge stage joins the four short
units with spaces, so the concatenation of the segments' trimmed texts
contains a space absent from the masked text and is not a subsequence
of it.  The `\d` model `isDigitAscii` is harmless here: the input
contains no character of Unicode class Nd (and none matching
`isDigitAscii`), so every `isDig`-dependent test in the run evaluates
exactly as under the real class. -/
theorem c5_trimmed_concat_counterexample :
    ¬ List.Sublist
      ((segment isDigitAscii ("아.\n나.\n다.\n라.".toList)).flatMap
        (fun s => pyStrip s.text))
      ("아.\n나.\n다.\n라.".toList) := by
  intro h
  have hsp : ' ' ∈
      (segment isDigitAscii ("아.\n나.\n다.\n라.".toList)).flatMap
      (fun s => pyStrip s.text) := by decide
  have hns : ¬ (' ' ∈ ("아.\n나.\n다.\n라.".toList)) := by decide
  exact hns (h.subset hsp)

/-- C5 (amended): for every masked text M, the segmentation output has
pairwise disjoint spans in order, strictly increasing start positions,
nonempty texts spanning valid in-bounds ranges, the concatenation of
the segments' texts with the merge stage's inserted spaces removed is a
subsequence of M, and no segment boundary falls strictly inside a
PLACEHOLDER protected range. `isDig` models the regex class `\d`
(Unicode Nd); the hypothesis `digOK` — no decimal digit is whitespace
or one of the pattern-final punctuation marks — holds of Nd. -/
theorem c5_segmentation_invariants (isDig : Char → Bool) (M : List Char)
    (hd : digOK isDig) :
    List.Pairwise (fun a b => a.stop ≤ b.start) (segment isDig M) ∧
    List.Pairwise (fun a b => a.start < b.start) (segment isDig M) ∧
    (∀ s ∈ segment isDig M, s.text ≠ [] ∧ s.start < s.stop ∧
      s.stop ≤ M.length) ∧
    List.Sublist (((segment isDig M).flatMap (fun s => s.text)).filter
      (fun c => !(decide (c = ' ')))) M ∧
    (∀ s ∈ segment isDig M,
      bdOK isDig M s.start ∧ bdOK isDig M s.stop) := by
  rw [segment]
  split
  · refine ⟨List.Pairwise.nil, List.Pairwise.nil, by simp, by simp,
      by simp⟩
  case isFalse hg =>
    have hM : M ≠ [] := fun h => hg (Or.inl h)
    dsimp only
    rw [forceSplitLong]
    have h0 : preU M ⟨M, 0, M.length, 1⟩ :=
      ⟨hM, le_rfl, (pySlice_full M).symm⟩
    have hp0 : List.Pairwise (fun a b => a.stop ≤ b.start)
        [(⟨M, 0, M.length, 1⟩ : SplitUnit)] := by simp
    have ha0 : ∀ u ∈ [(⟨M, 0, M.length, 1⟩ : SplitUnit)], preU M u := by
      intro u hu
      rcases List.mem_singleton.mp hu with rfl
      exact h0
    have hub0 : ∀ u ∈ [(⟨M, 0, M.length, 1⟩ : SplitUnit)],
        unitBD isDig M u := by
      intro u hu
      rcases List.mem_singleton.mp hu with rfl
      exact ⟨bdOK_zero isDig M, bdOK_ge isDig M M.length le_rfl⟩
    obtain ⟨hp1, ha1⟩ := splitStrongBoundaries_ok isDig M
      (collectProtectedRanges isDig M) _ hp0 ha0
    have hb1 := splitStrongBoundaries_bd isDig M hd _ hp0 ha0 hub0
    obtain ⟨hp2, ha2⟩ := splitKoreanEndings_ok M _ _ hp1 ha1
    have hb2 := splitKoreanEndings_bd isDig M hd _ hp1 ha1 hb1
    obtain ⟨hp3, ha3⟩ := applySplitPattern_ok M hitWeak_bound _ (9/10)
      false _ hp2 ha2
    have hb3 := applySplitPattern_bd isDig M hd hitWeak_bound
      hitWeak_end (9/10) false _ ha2 hb2
    obtain ⟨hp4, ha4⟩ := forceSplitLongGo_ok M _ segMaxLen 5 _ hp3 ha3
    have hb4 := forceSplitLongGo_bd isDig M hd segMaxLen 5 _ hp3 ha3 hb3
    obtain ⟨hp5, ha5⟩ := splitEnumerations_ok M _ segEnumMin _ hp4 ha4
    have hb5 := splitEnumerations_bd isDig M hd segEnumMin _ ha4 hb4
    obtain ⟨hp6, ha6⟩ := splitDiscourseMarkers_ok M _ segDiscourseMin _
      hp5 ha5
    have hb6 := splitDiscourseMarkers_bd isDig M hd segDiscourseMin _
      ha5 hb5
    obtain ⟨hpm, ham⟩ := mergeShortUnits_ok isDig M _ hp6
      (fun u hu => preU_to_postU (ha6 u hu))
    have hbm := mergeShortUnits_bd isDig M _ hb6
    have hf2 := toSegmentsGo_forall2 1 (mergeShortUnits isDig
      (splitDiscourseMarkers (collectProtectedRanges isDig M)
        segDiscourseMin
        (splitEnumerations (collectProtectedRanges isDig M) segEnumMin
          (forceSplitLongGo (collectProtectedRanges isDig M) segMaxLen 5
            (applySplitPattern hitWeak (collectProtectedRanges isDig M)
              (9/10)
              false (splitKoreanEndings (collectProtectedRanges isDig M)
                (splitStrongBoundaries isDig
                  (collectProtectedRanges isDig M)
                  [⟨M, 0, M.length, 1⟩])))))))
    have hf2f := hf2.flip
    refine ⟨?_, ?_, ?_, ?_, ?_⟩
    · refine pairwise_of_forall2 ?_ hf2f hpm
      intro a b a2 b2 h1 h2 hP
      obtain ⟨ht1, hs1, he1⟩ := h1
      obtain ⟨ht2, hs2, he2⟩ := h2
      omega
    · have hpm2 : List.Pairwise (fun a b => a.start < b.start)
          (mergeShortUnits isDig (splitDiscourseMarkers
            (collectProtectedRanges isDig M) segDiscourseMin
            (splitEnumerations (collectProtectedRanges isDig M) segEnumMin
              (forceSplitLongGo (collectProtectedRanges isDig M)
                segMaxLen 5
                (applySplitPattern hitWeak
                  (collectProtectedRanges isDig M)
                  (9/10) false (splitKoreanEndings
                    (collectProtectedRanges isDig M)
                    (splitStrongBoundaries isDig
                      (collectProtectedRanges isDig M)
                      [⟨M, 0, M.length, 1⟩]))))))) := by
        refine List.Pairwise.imp_of_mem ?_ hpm
        intro a b ha hb hr
        have := (ham a ha).2.1
        omega
      refine pairwise_of_forall2 ?_ hf2f hpm2
      intro a b a2 b2 h1 h2 hP
      obtain ⟨ht1, hs1, he1⟩ := h1
      obtain ⟨ht2, hs2, he2⟩ := h2
      omega
    · intro s hs
      obtain ⟨u, hu, ht, hst, hsp⟩ := forall2_mem_right hf2f s hs
      obtain ⟨h1, h2, h3, _⟩ := ham u hu
      rw [ht, hst, hsp]
      exact ⟨h1, h2, h3⟩
    · rw [toSegmentsGo_flat, filter_flatMap]
      have hcat := catSubSlice M (fun c => !(decide (c = ' ')))
        (mergeShortUnits isDig (splitDiscourseMarkers
          (collectProtectedRanges isDig M) segDiscourseMin
          (splitEnumerations (collectProtectedRanges isDig M) segEnumMin
            (forceSplitLongGo (collectProtectedRanges isDig M)
              segMaxLen 5
              (applySplitPattern hitWeak (collectProtectedRanges isDig M)
                (9/10) false (splitKoreanEndings
                  (collectProtectedRanges isDig M)
                  (splitStrongBoundaries isDig
                    (collectProtectedRanges isDig M)
                    [⟨M, 0, M.length, 1⟩])))))))
        0 M.length hpm ?_
      · rwa [pySlice_full] at hcat
      · intro v hv
        obtain ⟨h1, h2, h3, h4⟩ := ham v hv
        exact ⟨h4, Nat.zero_le _, by omega, h3⟩
    · intro s hs
      obtain ⟨u, hu, ht, hst, hsp⟩ := forall2_mem_right hf2f s hs
      rw [hst, hsp]
      exact hbm u hu

/-- ASCII digits satisfy the `digOK` side condition: no digit is
whitespace or one of the pattern-final punctuation marks. -/
theorem digOK_ascii : digOK isDigitAscii := by
  intro c h
  rw [isDigitAscii, decide_eq_true_eq] at h
  obtain ⟨h1, h2⟩ := h
  rw [endSafe]
  have e1 : pyIsSpace c = false := by
    rw [pyIsSpace]
    exact decide_eq_false (by omega)
  have echar : ∀ d : Char, ¬(48 ≤ d.toNat ∧ d.toNat ≤ 57) → ¬(c = d) := by
    intro d hd he
    rw [he] at h1 h2
    exact hd ⟨h1, h2⟩
  rw [e1]
  rw [decide_eq_false (echar '.' (by decide))]
  rw [decide_eq_false (echar '!' (by decide))]
  rw [decide_eq_false (echar '?' (by decide))]
  rw [decide_eq_false (echar '…' (by decide))]
  rw [decide_eq_false (echar '~' (by decide))]
  rw [decide_eq_false (echar ';' (by decide))]
  rw [decide_eq_false (echar ',' (by decide))]
  rw [decide_eq_false (echar '/' (by decide))]
  rw [decide_eq_false (echar '·' (by decide))]
  rw [decide_eq_false (echar '|' (by decide))]
  rw [decide_eq_false (show ¬(0x2460 ≤ c.toNat) from by omega)]
  rfl

/-- Witness: the amended C5 invariant instantiated at the ASCII-digit
model and a concrete masked text, with the `digOK` side condition
discharged. -/
theorem c5_segmentation_invariants_witness :
    digOK isDigitAscii ∧
    (List.Pairwise (fun a b => a.stop ≤ b.start)
        (segment isDigitAscii ['a']) ∧
      List.Pairwise (fun a b => a.start < b.start)
        (segment isDigitAscii ['a']) ∧
      (∀ s ∈ segment isDigitAscii ['a'], s.text ≠ [] ∧
        s.start < s.stop ∧ s.stop ≤ (['a'] : List Char).length) ∧
      List.Sublist (((segment isDigitAscii ['a']).flatMap
        (fun s => s.text)).filter (fun c => !(decide (c = ' ')))) ['a'] ∧
      (∀ s ∈ segment isDigitAscii ['a'],
        bdOK isDigitAscii ['a'] s.start ∧
          bdOK isDigitAscii ['a'] s.stop)) :=
  ⟨digOK_ascii, c5_segmentation_invariants isDigitAscii ['a'] digOK_ascii⟩

end Politely
